import Mathlib

/-!
# File I/O layer of BFS (`fs.c`)

A shallow embedding of `fsSeek`, `fsTell`, `fsSize`, `fsRead` and `fsWrite`
from `src/fs.c`, together with theorems about them.

Conventions of the embedding.

* `i32` values (descriptors, counts, offsets, cursors, block numbers) are
  `Int`.  The two additions that `fsSeek` performs on the cursor are reduced
  to the 32-bit signed range with `wrap32`; every other `i32` expression of
  the file stays far inside the range for block sizes between 2 and 2^30 and
  is computed on `Int` directly.  `/` and `%` are C's truncating operators
  (`Int.tdiv`, `Int.tmod`).
* `i8` bytes are `Int`; only copying and comparison with `0` is done on them.
* A local array (`wholeBuffer`, `blockBuffer`) is a `List Byte` of its declared
  length.  Every indexed access is bounds-checked: an access outside the
  array ends the call with `Err.OutOfBounds`.
* A `void*` argument has no extent.  The input of `fsWrite` is the memory
  starting at the pointer, `buf : Nat → Byte`; the output of `fsRead` is the
  list of bytes that `memcpy` stored through the pointer.
* `FATAL(e)` ends the call with error `e`; the state reached so far is kept,
  so that "nothing was changed" is a statement about the returned state.
* `BYTESPERBLOCK` and `BYTESPERDISK` come from `bfs.h`, which is not part of
  the sources at hand; they are parameters of the functions that use them.
* The `bfs*`/`bio*` functions are not part of the sources at hand either.  Each
  is modelled from the interface the specification gives for it.
-/

namespace BFS

/-- An `i8`. -/
abbrev Byte := Int

/-- The outcomes that end a call early.  `EBADCURS` and `EBADWHENCE` are the
codes `fs.c` passes to `FATAL`.  The others belong to the collaborators and to
the embedding: `InvalidDescriptor` (descriptor not open), `AllocationFailure`
(no free block), `BadBlock` (block transfer at the "unallocated" sentinel),
`OutOfBounds` (access outside a local array), `OutOfFuel` (a `while` loop
exceeded the iteration budget of the embedding).  `OutOfBounds` is a mark of
the embedding, not a failure of the program: `fs.c` tests no array index, and
an access outside an array is behaviour C leaves undefined. -/
inductive Err where
  | EBADCURS
  | EBADWHENCE
  | InvalidDescriptor
  | AllocationFailure
  | BadBlock
  | OutOfBounds
  | OutOfFuel
  deriving DecidableEq, Repr

/-- One entry of the open-file table `g_oft`: inode number and cursor. -/
structure OFTE where
  inum : Int
  curs : Int
  deriving DecidableEq, Repr

/-- The state the calls act on: descriptor bindings, the open-file table
`g_oft`, and the volume (per-inode size, per-inode block map, free list, block
contents). -/
structure State where
  /-- Descriptor bindings `fd ↦ inum`. -/
  fds : List (Int × Int)
  /-- The open-file table. -/
  g_oft : List OFTE
  /-- The size the volume manager reports for an inode. -/
  size : Int → Int
  /-- The disk block backing `(inum, fbn)`; a negative value says "unallocated". -/
  dbnOf : Int → Int → Int
  /-- The free disk blocks. -/
  freeList : List Nat
  /-- The byte at position `j` of disk block `dbn`. -/
  disk : Int → Nat → Byte

/-- A call: from a state to a result or an error, and the state reached. -/
def FSM (α : Type) : Type := State → Except Err α × State

/-- Return a value, state untouched. -/
def FSM.pure {α : Type} (a : α) : FSM α := fun s => (Except.ok a, s)

/-- Sequencing: an error ends the call and keeps the state reached. -/
def FSM.bind {α β : Type} (m : FSM α) (f : α → FSM β) : FSM β := fun s =>
  match m s with
  | (Except.ok a, s') => f a s'
  | (Except.error e, s') => (Except.error e, s')

instance : Monad FSM where
  pure := FSM.pure
  bind := FSM.bind

/-- The call `FATAL(e)`: abort with code `e`. -/
def FATAL {α : Type} (e : Err) : FSM α := fun s => (Except.error e, s)

/-- Run a computation on local data inside a call. -/
def liftE {α : Type} (x : Except Err α) : FSM α := fun s => (x, s)

/-- The value of `SEEK_SET` in `<stdio.h>`. -/
def SEEK_SET : Int := 0
/-- The value of `SEEK_CUR` in `<stdio.h>`. -/
def SEEK_CUR : Int := 1
/-- The value of `SEEK_END` in `<stdio.h>`. -/
def SEEK_END : Int := 2

/-- Reduce an integer to the range of `i32`, two's complement. -/
def wrap32 (x : Int) : Int := (x + 2147483648) % 4294967296 - 2147483648

/-! ## Collaborators (not in `src/`) -/

/-- First index of `g_oft` whose entry is for `inum`. -/
def findOFTE : List OFTE → Int → Option Nat
  | [], _ => none
  | e :: es, inum => if e.inum = inum then some 0 else (findOFTE es inum).map Nat.succ

/-- Replace the cursor of entry `ofte`: the assignment `g_oft[ofte].curs = c`. -/
def setCurs : List OFTE → Nat → Int → List OFTE
  | [], _, _ => []
  | e :: es, 0, c => { e with curs := c } :: es
  | e :: es, k + 1, c => e :: setCurs es k c

/-- The cursor of entry `ofte`: the expression `g_oft[ofte].curs`. -/
def getCurs : List OFTE → Nat → Int
  | [], _ => 0
  | e :: _, 0 => e.curs
  | _ :: es, k + 1 => getCurs es k

/-- Modelled from the spec: `bfsFdToInum` is missing from the sources;
"resolveDescriptor(fd) -> inode — fails if fd not open". -/
def bfsFdToInum (fd : Int) : FSM Int := fun s =>
  match s.fds.lookup fd with
  | some inum => (Except.ok inum, s)
  | none => (Except.error Err.InvalidDescriptor, s)

/-- Modelled from the spec: `bfsFindOFTE` is missing from the sources;
"findOpenEntry(inode) -> entry handle (for cursor mutation)", one of the
operations that "may fail". -/
def bfsFindOFTE (inum : Int) : FSM Nat := fun s =>
  match findOFTE s.g_oft inum with
  | some ofte => (Except.ok ofte, s)
  | none => (Except.error Err.InvalidDescriptor, s)

/-- Modelled from the spec: `bfsTell` is missing from the sources;
"tell(fd) -> current cursor" of the descriptor's open-file-table entry. -/
def bfsTell (fd : Int) : FSM Int := do
  let inum ← bfsFdToInum fd
  let ofte ← bfsFindOFTE inum
  fun s => (Except.ok (getCurs s.g_oft ofte), s)

/-- Modelled from the spec: `bfsGetSize` is missing from the sources;
"fileSize(inode) -> byte count", the size the volume manager reports. -/
def bfsGetSize (inum : Int) : FSM Int := fun s => (Except.ok (s.size inum), s)

/-! ## `fsSeek`, `fsTell`, `fsSize` (`fs.c` lines 140-184) -/

/-- Function `fsSize`: the size of the file open on `fd`. -/
def fsSize (fd : Int) : FSM Int := do
  let inum ← bfsFdToInum fd
  bfsGetSize inum

/-- Function `fsTell`: the cursor of the file open on `fd`. -/
def fsTell (fd : Int) : FSM Int := bfsTell fd

/-- Function `fsSeek`: move the cursor of the file open on `fd`. -/
def fsSeek (fd offset whence : Int) : FSM Int := do
  if offset < 0 then FATAL Err.EBADCURS
  else
    let inum ← bfsFdToInum fd
    let ofte ← bfsFindOFTE inum
    if whence = SEEK_SET then
      fun s => (Except.ok 0, { s with g_oft := setCurs s.g_oft ofte offset })
    else if whence = SEEK_CUR then
      fun s => (Except.ok 0,
        { s with g_oft := setCurs s.g_oft ofte (wrap32 (getCurs s.g_oft ofte + offset)) })
    else if whence = SEEK_END then do
      let e ← fsSize fd
      fun s => (Except.ok 0, { s with g_oft := setCurs s.g_oft ofte (wrap32 (e + offset)) })
    else FATAL Err.EBADWHENCE

/-! ## Local arrays and loops -/

/-- Checked read `a[i]` of a local array.  An index outside the array, where C
defines no value, is marked `Err.OutOfBounds`. -/
def aget (a : List Byte) (i : Int) : Except Err Byte :=
  if 0 ≤ i ∧ i < a.length then Except.ok (a.getD i.toNat 0) else Except.error Err.OutOfBounds

/-- Checked write `a[i] = v` to a local array.  An index outside the array,
where C defines no effect, is marked `Err.OutOfBounds`. -/
def aset (a : List Byte) (i : Int) (v : Byte) : Except Err (List Byte) :=
  if 0 ≤ i ∧ i < a.length then Except.ok (a.set i.toNat v) else Except.error Err.OutOfBounds

/-- The loop `for (int i = lo; i < lo + k; i++) body`, on loop state `σ`. -/
def forUp {σ : Type} (body : Nat → σ → Except Err σ) : Nat → Nat → σ → Except Err σ
  | _, 0, st => Except.ok st
  | lo, k + 1, st =>
    match body lo st with
    | Except.ok st' => forUp body (lo + 1) k st'
    | Except.error e => Except.error e

/-- The loop `for (int j = 0; j < k; j++) dst[off + j] = src[soff + j];`. -/
def copyLoop (dst : List Byte) (off : Int) (src : List Byte) (soff : Int) (k : Nat) :
    Except Err (List Byte) :=
  forUp (fun j d =>
    match aget src (soff + j) with
    | Except.ok b => aset d (off + j) b
    | Except.error e => Except.error e) 0 k dst

/-- The call `memcpy(buf, src, n)` out of a local array `src`: the `n` bytes
stored through `buf`.  The count is a `size_t`, so a negative `n` is a count
beyond any array. -/
def memcpyOut (src : List Byte) (n : Int) : Except Err (List Byte) :=
  if 0 ≤ n ∧ n ≤ src.length then Except.ok (src.take n.toNat) else Except.error Err.OutOfBounds

/-- The call `bfsRead(inum, fbn, dst)` on a local array `dst`: the block fetched
is stored at the start of the array. -/
def storeBlock (dst block : List Byte) : Except Err (List Byte) :=
  if block.length ≤ dst.length then Except.ok (block ++ dst.drop block.length)
  else Except.error Err.OutOfBounds

/-- The loop `for (int i = 0; i < k; i++) if (block[i] == 0) noWriting++;`. -/
def countZeros (block : List Byte) (k : Nat) : Except Err Int :=
  forUp (fun i c =>
    match aget block i with
    | Except.ok b => Except.ok (if b = 0 then c + 1 else c)
    | Except.error e => Except.error e) 0 k 0

/-! ## Volume manager and block store (not in `src/`) -/

/-- The current state. -/
def getState : FSM State := fun s => (Except.ok s, s)

/-- Modelled from the spec: `bfsFbnToDbn` is missing from the sources;
"translateBlock(inode, fbn) -> dbn | Unallocated", the sentinel being a
negative number (the code tests `dbn >= 0`). -/
def bfsFbnToDbn (inum fbn : Int) : FSM Int := fun s => (Except.ok (s.dbnOf inum fbn), s)

/-- The `BYTESPERBLOCK` bytes of the file block `(inum, fbn)` in state `s`: the
content of its disk block, or zeros when it is unallocated. -/
def readBlock (s : State) (BYTESPERBLOCK : Nat) (inum fbn : Int) : List Byte :=
  if 0 ≤ s.dbnOf inum fbn then (List.range BYTESPERBLOCK).map (s.disk (s.dbnOf inum fbn))
  else List.replicate BYTESPERBLOCK 0

/-- Modelled from the spec: `bfsRead` is missing from the sources; it is
"translateBlock" followed by "readBlock(dbn) -> block bytes", and for an
unallocated block "returns data as if reading zero-filled blocks"; "read never
fails on a valid descriptor". -/
def bfsRead (BYTESPERBLOCK : Nat) (inum fbn : Int) : FSM (List Byte) := fun s =>
  (Except.ok (readBlock s BYTESPERBLOCK inum fbn), s)

/-- Modelled from the spec: `bfsAllocBlock` is missing from the sources;
"allocateBlock(inode, fbn) -> unit — extends the file to cover this FBN",
"recording the new highest-allocated FBN so that subsequent size queries
reflect the growth"; it takes a block off the free list and fails with
AllocationFailure when "the Volume Manager cannot grow the file". -/
def bfsAllocBlock (BYTESPERBLOCK : Nat) (inum fbn : Int) : FSM Unit := fun s =>
  match s.freeList with
  | [] => (Except.error Err.AllocationFailure, s)
  | d :: rest =>
    (Except.ok (),
      { s with
        freeList := rest
        dbnOf := fun i f => if i = inum ∧ f = fbn then (d : Int) else s.dbnOf i f
        size := fun i =>
          if i = inum then max (s.size i) ((fbn + 1) * BYTESPERBLOCK) else s.size i })

/-- Modelled from the spec: `bioWrite` is missing from the sources;
"writeBlock(dbn, block bytes) -> unit", which "may fail": the sentinel for
"unallocated" is not the address of a block. -/
def bioWrite (dbn : Int) (block : List Byte) : FSM Unit := fun s =>
  if 0 ≤ dbn then
    (Except.ok (), { s with disk := fun d j => if d = dbn then block.getD j 0 else s.disk d j })
  else (Except.error Err.BadBlock, s)

/-! ## `fsRead` (`fs.c` lines 85-127) -/

/-- The loop of lines 92-99: block `fbn + i` is fetched and copied to
`wholeBuffer[BYTESPERBLOCK * i ..]`, for `i < k`. -/
def readBlocks (s : State) (BYTESPERBLOCK : Nat) (inum fbn : Int) (k : Nat)
    (wholeBuffer : List Byte) : Except Err (List Byte) :=
  forUp (fun i w =>
    copyLoop w (BYTESPERBLOCK * i) (readBlock s BYTESPERBLOCK inum (fbn + i)) 0 BYTESPERBLOCK)
    0 k wholeBuffer

/-- Function `fsRead`: read `numb` bytes at the cursor of the file open on `fd`.
The result is the count returned and the bytes stored through `buf`.
`wholeBuffer` is not initialised in C; every byte read from it is written
first, and it starts as zeros here.  `bfsRead` leaves the state as it is, so
the block each `bfsRead(inum, f, blockBuffer)` fetches is `readBlock` of the
state at entry. -/
def fsRead (BYTESPERBLOCK BYTESPERDISK : Nat) (fd numb : Int) : FSM (Int × List Byte) := do
  let wholeBuffer : List Byte := List.replicate BYTESPERDISK 0
  let curs ← bfsTell fd
  let fbn := Int.tdiv curs BYTESPERBLOCK
  let inum ← bfsFdToInum fd
  let s ← getState
  if numb > BYTESPERBLOCK then
    let q := Int.tdiv numb BYTESPERBLOCK
    let r := Int.tmod numb BYTESPERBLOCK
    let wholeBuffer ← liftE (readBlocks s BYTESPERBLOCK inum fbn q.toNat wholeBuffer)
    let wholeBuffer ← liftE (
      if r ≠ 0 then
        copyLoop wholeBuffer (BYTESPERBLOCK * q) (readBlock s BYTESPERBLOCK inum (fbn + q)) 0
          r.toNat
      else Except.ok wholeBuffer)
    let out ← liftE (memcpyOut wholeBuffer numb)
    let noWriting ←
      liftE (countZeros (readBlock s BYTESPERBLOCK inum (fbn + q - 1)) BYTESPERBLOCK)
    let numb := numb - noWriting
    let _ ← fsSeek fd numb SEEK_CUR
    pure (numb, out)
  else
    let wholeBuffer ← liftE (storeBlock wholeBuffer (readBlock s BYTESPERBLOCK inum fbn))
    let out ← liftE (memcpyOut wholeBuffer numb)
    let _ ← fsSeek fd numb SEEK_CUR
    pure (numb, out)

/-! ## `fsWrite` (`fs.c` lines 193-257) -/

/-- Lines 198-209 and 230-240: the staging block for `(inum, fbn)` and its disk
block.  An allocated block is read; otherwise a block is allocated and the
staging block is zero-filled. -/
def stageBlock (BYTESPERBLOCK : Nat) (inum fbn : Int) : FSM (Int × List Byte) := do
  let dbn ← bfsFbnToDbn inum fbn
  if dbn ≥ 0 then
    let blockBuffer ← bfsRead BYTESPERBLOCK inum fbn
    pure (dbn, blockBuffer)
  else
    bfsAllocBlock BYTESPERBLOCK inum fbn
    let dbn ← bfsFbnToDbn inum fbn
    pure (dbn, List.replicate BYTESPERBLOCK 0)

/-- The loop of lines 213-217, with `off = fsTell(fd) % BYTESPERBLOCK`:
`for (i = 0; i + off < BYTESPERBLOCK; i++) { blockBuffer[i + off] = wholeBuffer[i]; remainder--; }`
on the pair `(blockBuffer, remainder)`. -/
def fillFirst (BYTESPERBLOCK : Nat) (off : Int) (wholeBuffer : List Byte)
    (st : List Byte × Int) : Except Err (List Byte × Int) :=
  forUp (fun i st =>
    match aget wholeBuffer i with
    | Except.ok b =>
      match aset st.1 (i + off) b with
      | Except.ok blk => Except.ok (blk, st.2 - 1)
      | Except.error e => Except.error e
    | Except.error e => Except.error e) 0 (BYTESPERBLOCK - off).toNat st

/-- The loop of lines 221-225:
`for (j = 0; j < BYTESPERBLOCK; j++) { blockBuffer[j] = wholeBuffer[numb - remainder]; remainder--; }`
on the pair `(blockBuffer, remainder)`. -/
def fillWhole (BYTESPERBLOCK : Nat) (numb : Int) (wholeBuffer : List Byte)
    (st : List Byte × Int) : Except Err (List Byte × Int) :=
  forUp (fun j st =>
    match aget wholeBuffer (numb - st.2) with
    | Except.ok b =>
      match aset st.1 j b with
      | Except.ok blk => Except.ok (blk, st.2 - 1)
      | Except.error e => Except.error e
    | Except.error e => Except.error e) 0 BYTESPERBLOCK st

/-- The loop of lines 219-229, `while (remainder > BYTESPERBLOCK) ...`, on
`(fbn, remainder, blockBuffer)`, with an iteration budget. -/
def writeMiddle (BYTESPERBLOCK : Nat) (inum numb : Int) (wholeBuffer : List Byte) :
    Nat → Int → Int → List Byte → FSM (Int × Int × List Byte)
  | 0, fbn, remainder, blockBuffer =>
    if remainder > BYTESPERBLOCK then FATAL Err.OutOfFuel
    else pure (fbn, remainder, blockBuffer)
  | fuel + 1, fbn, remainder, blockBuffer =>
    if remainder > BYTESPERBLOCK then do
      let st ← liftE (fillWhole BYTESPERBLOCK numb wholeBuffer (blockBuffer, remainder))
      let fbn := fbn + 1
      let dbn ← bfsFbnToDbn inum fbn
      bioWrite dbn st.1
      writeMiddle BYTESPERBLOCK inum numb wholeBuffer fuel fbn st.2 st.1
    else pure (fbn, remainder, blockBuffer)

/-- Lines 230-245: the block after the last one written so far is staged, its
first `remainder` bytes are taken from `wholeBuffer[numb - remainder ..]`, and
it is written back. -/
def writeLast (BYTESPERBLOCK : Nat) (inum numb : Int) (wholeBuffer : List Byte)
    (fbn remainder : Int) : FSM Unit := do
  let last ← stageBlock BYTESPERBLOCK inum (fbn + 1)
  let blockBuffer ← liftE (copyLoop last.2 0 wholeBuffer (numb - remainder) remainder.toNat)
  bioWrite last.1 blockBuffer

/-- Function `fsWrite`: write `numb` bytes from `buf` at the cursor of the file
open on `fd`.  `fsTell(fd)` in the loops of lines 213 and 249 is the same on
every iteration and is evaluated once before the loop.  The `while` loop is
given `numb` iterations, more than it can use when `BYTESPERBLOCK > 0`. -/
def fsWrite (BYTESPERBLOCK : Nat) (fd numb : Int) (buf : Nat → Byte) : FSM Int := do
  let wholeBuffer : List Byte := (List.range 2048).map buf
  let curs ← bfsTell fd
  let fbn := Int.tdiv curs BYTESPERBLOCK
  let inum ← bfsFdToInum fd
  let first ← stageBlock BYTESPERBLOCK inum fbn
  if numb > BYTESPERBLOCK then
    let c ← fsTell fd
    let st ← liftE (fillFirst BYTESPERBLOCK (Int.tmod c BYTESPERBLOCK) wholeBuffer (first.2, numb))
    bioWrite first.1 st.1
    let mid ← writeMiddle BYTESPERBLOCK inum numb wholeBuffer numb.toNat fbn st.2 st.1
    writeLast BYTESPERBLOCK inum numb wholeBuffer mid.1 mid.2.1
    let _ ← fsSeek fd numb SEEK_CUR
    pure 0
  else
    let c ← fsTell fd
    let blockBuffer ← liftE (
      copyLoop first.2 (Int.tmod c BYTESPERBLOCK) wholeBuffer 0 numb.toNat)
    bioWrite first.1 blockBuffer
    let _ ← fsSeek fd numb SEEK_CUR
    pure 0

/-- The byte at position `pos` of the file `inum`, as its blocks read. -/
def fileByte (s : State) (BYTESPERBLOCK : Nat) (inum : Int) (pos : Nat) : Byte :=
  (readBlock s BYTESPERBLOCK inum ((pos / BYTESPERBLOCK : Nat) : Int)).getD
    (pos % BYTESPERBLOCK) 0

/-- The descriptor `fd` is open: it resolves to `inum`, whose entry of the
open-file table is `ofte`. -/
def ValidFd (s : State) (fd inum : Int) (ofte : Nat) : Prop :=
  s.fds.lookup fd = some inum ∧ findOFTE s.g_oft inum = some ofte

/-! ## Concrete states used in examples -/

/-- A volume with one open file: descriptor 3 is bound to inode 7, whose
entry is `g_oft[0]` with cursor 0; the file is fresh (size 0, no block
allocated) and disk blocks 10 to 13 are free. -/
def freshState : State where
  fds := [(3, 7)]
  g_oft := [{ inum := 7, curs := 0 }]
  size := fun _ => 0
  dbnOf := fun _ _ => -1
  freeList := [10, 11, 12, 13]
  disk := fun _ _ => 0

/-- The volume of `freshState` after block 0 of the file was allocated on
disk block 10 and filled with the byte 85, with the cursor at offset 5. -/
def patternState : State where
  fds := [(3, 7)]
  g_oft := [{ inum := 7, curs := 5 }]
  size := fun _ => 512
  dbnOf := fun i f => if i = 7 ∧ f = 0 then 10 else -1
  freeList := [11, 12, 13]
  disk := fun d _ => if d = 10 then 85 else 0

/-- A volume whose open file has its blocks 0 to 4 allocated, on disk blocks
10 to 14, with the cursor at 0. -/
def fiveBlockState : State where
  fds := [(3, 7)]
  g_oft := [{ inum := 7, curs := 0 }]
  size := fun _ => 2560
  dbnOf := fun i f => if i = 7 ∧ 0 ≤ f ∧ f ≤ 4 then 10 + f else -1
  freeList := [15, 16]
  disk := fun _ _ => 0

/-! ## The body of `fsWrite` -/

/-- The body of `fsWrite` (lines 194-254): everything before the final
`fsSeek(fd, numb, SEEK_CUR); return 0;`. -/
def writeBody (BYTESPERBLOCK : Nat) (fd numb : Int) (buf : Nat → Byte) : FSM Unit := do
  let wholeBuffer : List Byte := (List.range 2048).map buf
  let curs ← bfsTell fd
  let fbn := Int.tdiv curs BYTESPERBLOCK
  let inum ← bfsFdToInum fd
  let first ← stageBlock BYTESPERBLOCK inum fbn
  if numb > BYTESPERBLOCK then
    let c ← fsTell fd
    let st ← liftE (fillFirst BYTESPERBLOCK (Int.tmod c BYTESPERBLOCK) wholeBuffer (first.2, numb))
    bioWrite first.1 st.1
    let mid ← writeMiddle BYTESPERBLOCK inum numb wholeBuffer numb.toNat fbn st.2 st.1
    writeLast BYTESPERBLOCK inum numb wholeBuffer mid.1 mid.2.1
  else
    let c ← fsTell fd
    let blockBuffer ← liftE (
      copyLoop first.2 (Int.tmod c BYTESPERBLOCK) wholeBuffer 0 numb.toNat)
    bioWrite first.1 blockBuffer

/-! ## Properties used in the statements -/

/-- The first `k` blocks of the file `inum` from FBN `start` on, one after the
other. -/
def concatBlocks (s : State) (BYTESPERBLOCK : Nat) (inum start : Int) : Nat → List Byte
  | 0 => []
  | k + 1 =>
    concatBlocks s BYTESPERBLOCK inum start k ++ readBlock s BYTESPERBLOCK inum (start + k)

/-- The length of the run of zero bytes that ends a block. -/
def trailingZeros (block : List Byte) : Nat :=
  (block.reverse.takeWhile (fun b => decide (b = 0))).length

/-- Every cursor of the open-file table is non-negative. -/
def CursorsNonneg (s : State) : Prop := ∀ e ∈ s.g_oft, 0 ≤ e.curs

/-- The call `m` leaves the descriptor bindings and the open-file table as they
are, whatever its outcome. -/
def KeepsOFT {α : Type} (m : FSM α) : Prop :=
  ∀ s : State, (m s).2.fds = s.fds ∧ (m s).2.g_oft = s.g_oft

/-- The disk positions a write of `n` bytes at offset `c` of the file `inum`
may change: byte `j` of the disk block that backs a touched FBN `f`, when file
position `f * BYTESPERBLOCK + j` lies in `[c, c + n)`.  Positions
`j ≥ BYTESPERBLOCK` are not part of any block. -/
def InWritten (s : State) (BYTESPERBLOCK : Nat) (inum : Int) (c n : Nat) (d : Int) (j : Nat) :
    Prop :=
  ∃ f : Nat, c / BYTESPERBLOCK ≤ f ∧ f * BYTESPERBLOCK < c + n ∧ d = s.dbnOf inum (f : Int) ∧
    (BYTESPERBLOCK ≤ j ∨ (c ≤ f * BYTESPERBLOCK + j ∧ f * BYTESPERBLOCK + j < c + n))

/-- State `b` differs from state `a` in disk positions of `W` at most. -/
def Frame (W : Int → Nat → Prop) (a b : State) : Prop :=
  b.fds = a.fds ∧ b.g_oft = a.g_oft ∧ b.dbnOf = a.dbnOf ∧ b.size = a.size ∧
    b.freeList = a.freeList ∧ ∀ (d : Int) (j : Nat), b.disk d j = a.disk d j ∨ W d j

/-! ## More concrete states -/

/-- A volume whose open file has block 0 allocated on disk block 10, byte `j`
of the block being `j mod 128`, with the cursor at offset 5. -/
def rampState : State where
  fds := [(3, 7)]
  g_oft := [{ inum := 7, curs := 5 }]
  size := fun _ => 512
  dbnOf := fun i f => if i = 7 ∧ f = 0 then 10 else -1
  freeList := [11, 12, 13]
  disk := fun _ j => ((j % 128 : Nat) : Int)

/-- A volume whose open file has blocks 0 and 1 allocated, on disk blocks 10
and 11; each block starts with a zero byte and holds the byte 1 everywhere
else.  The cursor is at 0. -/
def zeroHeadState : State where
  fds := [(3, 7)]
  g_oft := [{ inum := 7, curs := 0 }]
  size := fun _ => 1024
  dbnOf := fun i f => if i = 7 ∧ 0 ≤ f ∧ f ≤ 1 then 10 + f else -1
  freeList := [12, 13]
  disk := fun _ j => if j = 0 then 0 else 1

/-- The volume of `fiveBlockState` with the cursor at offset 500. -/
def crossState : State :=
  { fiveBlockState with g_oft := [{ inum := 7, curs := 500 }] }

/-- The fresh file of `freshState` (size 0) after a seek to offset 500. -/
def seekPastEndState : State :=
  { freshState with g_oft := [{ inum := 7, curs := 500 }] }

/-- The volume of `freshState` with the cursor at 2147483647, the largest
`i32`. -/
def maxCursorState : State :=
  { freshState with g_oft := [{ inum := 7, curs := 2147483647 }] }

/-- A volume whose open file of 1024 bytes has blocks 0 and 1 allocated, on
disk blocks 10 and 11, with the cursor at 0.  Block 0 starts with one zero byte,
block 1 with two; every other byte is 1, so no block ends in a zero byte. -/
def headZerosState : State where
  fds := [(3, 7)]
  g_oft := [{ inum := 7, curs := 0 }]
  size := fun _ => 1024
  dbnOf := fun i f => if i = 7 ∧ 0 ≤ f ∧ f ≤ 1 then 10 + f else -1
  freeList := [12, 13]
  disk := fun d j => if j = 0 then 0 else if d = 11 ∧ j = 1 then 0 else 1

/-! # Theorems -/

/-! ## The call monad -/

@[simp] theorem FSM.bind_apply {α β : Type} (m : FSM α) (f : α → FSM β) (s : State) :
    (m >>= f) s = FSM.bind m f s := rfl

@[simp] theorem FSM.pure_apply {α : Type} (a : α) (s : State) :
    (Pure.pure a : FSM α) s = (Except.ok a, s) := rfl

theorem FSM.bind_ok {α β : Type} (m : FSM α) (f : α → FSM β) (s s' : State) (a : α)
    (h : m s = (Except.ok a, s')) : FSM.bind m f s = f a s' := by
  simp [FSM.bind, h]

theorem FSM.bind_error {α β : Type} (m : FSM α) (f : α → FSM β) (s s' : State) (e : Err)
    (h : m s = (Except.error e, s')) : FSM.bind m f s = (Except.error e, s') := by
  simp [FSM.bind, h]

/-! ## The open-file table -/

theorem findOFTE_lt : ∀ (l : List OFTE) (inum : Int) (k : Nat),
    findOFTE l inum = some k → k < l.length
  | [], _, _, h => by simp [findOFTE] at h
  | e :: es, inum, k, h => by
    unfold findOFTE at h
    split at h
    · cases h; simp
    · cases hr : findOFTE es inum with
      | none => simp [hr] at h
      | some j =>
        simp [hr] at h
        have := findOFTE_lt es inum j hr
        subst h
        simp
        omega

theorem findOFTE_setCurs : ∀ (l : List OFTE) (k : Nat) (c inum : Int),
    findOFTE (setCurs l k c) inum = findOFTE l inum
  | [], _, _, _ => by simp [setCurs]
  | e :: es, 0, c, inum => by simp [setCurs, findOFTE]
  | e :: es, k + 1, c, inum => by
    simp [setCurs, findOFTE, findOFTE_setCurs es k c inum]

theorem getCurs_setCurs_same : ∀ (l : List OFTE) (k : Nat) (c : Int),
    k < l.length → getCurs (setCurs l k c) k = c
  | [], _, _, h => by simp at h
  | e :: es, 0, c, _ => by simp [setCurs, getCurs]
  | e :: es, k + 1, c, h => by
    simp only [setCurs, getCurs]
    exact getCurs_setCurs_same es k c (by simpa using h)

theorem getCurs_setCurs_other : ∀ (l : List OFTE) (k j : Nat) (c : Int),
    j ≠ k → getCurs (setCurs l k c) j = getCurs l j
  | [], _, _, _, _ => by simp [setCurs]
  | e :: es, 0, 0, c, h => by simp at h
  | e :: es, 0, j + 1, c, _ => by simp [setCurs, getCurs]
  | e :: es, k + 1, 0, c, _ => by simp [setCurs, getCurs]
  | e :: es, k + 1, j + 1, c, h => by
    simp only [setCurs, getCurs]
    exact getCurs_setCurs_other es k j c (by omega)

theorem setCurs_length : ∀ (l : List OFTE) (k : Nat) (c : Int),
    (setCurs l k c).length = l.length
  | [], _, _ => by simp [setCurs]
  | e :: es, 0, c => by simp [setCurs]
  | e :: es, k + 1, c => by simp [setCurs, setCurs_length es k c]

/-! ## Descriptor resolution -/

theorem bfsFdToInum_ok (s : State) (fd inum : Int) (ofte : Nat)
    (hv : ValidFd s fd inum ofte) : bfsFdToInum fd s = (Except.ok inum, s) := by
  simp [bfsFdToInum, hv.1]

theorem bfsFindOFTE_ok (s : State) (fd inum : Int) (ofte : Nat)
    (hv : ValidFd s fd inum ofte) : bfsFindOFTE inum s = (Except.ok ofte, s) := by
  simp [bfsFindOFTE, hv.2]

theorem bfsTell_ok (s : State) (fd inum : Int) (ofte : Nat)
    (hv : ValidFd s fd inum ofte) :
    bfsTell fd s = (Except.ok (getCurs s.g_oft ofte), s) := by
  simp [bfsTell, FSM.bind, bfsFdToInum_ok s fd inum ofte hv, bfsFindOFTE_ok s fd inum ofte hv]

theorem fsSize_ok (s : State) (fd inum : Int) (ofte : Nat)
    (hv : ValidFd s fd inum ofte) : fsSize fd s = (Except.ok (s.size inum), s) := by
  simp [fsSize, FSM.bind, bfsFdToInum_ok s fd inum ofte hv, bfsGetSize]

/-- Moving a cursor keeps every descriptor valid. -/
theorem ValidFd_setCurs (s : State) (fd inum : Int) (ofte k : Nat) (c : Int)
    (hv : ValidFd s fd inum ofte) :
    ValidFd { s with g_oft := setCurs s.g_oft k c } fd inum ofte :=
  ⟨hv.1, by simpa [findOFTE_setCurs] using hv.2⟩

/-! ## `fsSeek` -/

theorem fsSeek_set_ok (s : State) (fd inum : Int) (ofte : Nat) (k : Int)
    (hv : ValidFd s fd inum ofte) (hk : 0 ≤ k) :
    fsSeek fd k SEEK_SET s = (Except.ok 0, { s with g_oft := setCurs s.g_oft ofte k }) := by
  have h : ¬ k < 0 := by omega
  simp [fsSeek, h, FSM.bind, bfsFdToInum_ok s fd inum ofte hv, bfsFindOFTE_ok s fd inum ofte hv]

theorem fsSeek_cur_ok (s : State) (fd inum : Int) (ofte : Nat) (k : Int)
    (hv : ValidFd s fd inum ofte) (hk : 0 ≤ k) :
    fsSeek fd k SEEK_CUR s = (Except.ok 0,
      { s with g_oft := setCurs s.g_oft ofte (wrap32 (getCurs s.g_oft ofte + k)) }) := by
  have h : ¬ k < 0 := by omega
  simp [fsSeek, h, FSM.bind, bfsFdToInum_ok s fd inum ofte hv, bfsFindOFTE_ok s fd inum ofte hv,
    SEEK_SET, SEEK_CUR]

theorem fsSeek_end_ok (s : State) (fd inum : Int) (ofte : Nat) (k : Int)
    (hv : ValidFd s fd inum ofte) (hk : 0 ≤ k) :
    fsSeek fd k SEEK_END s = (Except.ok 0,
      { s with g_oft := setCurs s.g_oft ofte (wrap32 (s.size inum + k)) }) := by
  have h : ¬ k < 0 := by omega
  simp [fsSeek, h, FSM.bind, bfsFdToInum_ok s fd inum ofte hv, bfsFindOFTE_ok s fd inum ofte hv,
    fsSize_ok s fd inum ofte hv, SEEK_SET, SEEK_CUR, SEEK_END]

theorem wrap32_of_range (x : Int) (h0 : -2147483648 ≤ x) (h1 : x ≤ 2147483647) :
    wrap32 x = x := by
  unfold wrap32
  omega

/-! ## Loops over local arrays -/

theorem aget_nat (a : List Byte) (i : Nat) (h : i < a.length) :
    aget a (i : Int) = Except.ok (a.getD i 0) := by
  have : (i : Int) < a.length := by exact_mod_cast h
  simp [aget, this]

theorem aset_nat (a : List Byte) (i : Nat) (v : Byte) (h : i < a.length) :
    aset a (i : Int) v = Except.ok (a.set i v) := by
  have : (i : Int) < a.length := by exact_mod_cast h
  simp [aset, this]

theorem aget_out (a : List Byte) (i : Int) (h : (a.length : Int) ≤ i) :
    aget a i = Except.error Err.OutOfBounds := by
  have : ¬ (0 ≤ i ∧ i < a.length) := by omega
  simp [aget, this]

theorem aset_out (a : List Byte) (i : Int) (v : Byte) (h : (a.length : Int) ≤ i) :
    aset a i v = Except.error Err.OutOfBounds := by
  have : ¬ (0 ≤ i ∧ i < a.length) := by omega
  simp [aset, this]

theorem getD_set_byte (a : List Byte) (i j : Nat) (v : Byte) (h : i < a.length) :
    (a.set i v).getD j 0 = if j = i then v else a.getD j 0 := by
  by_cases hji : j = i
  · subst hji
    simp [h]
  · have hij : i ≠ j := fun e => hji e.symm
    simp [hji, List.getElem?_set_ne hij]

/-- Invariant rule for `forUp`: a loop whose body keeps `Inv` and never fails
returns a state satisfying `Inv` at the final index. -/
theorem forUp_inv {σ : Type} (body : Nat → σ → Except Err σ) (Inv : Nat → σ → Prop) :
    ∀ (k lo : Nat) (st : σ), Inv lo st →
      (∀ i st, lo ≤ i → i < lo + k → Inv i st →
        ∃ st', body i st = Except.ok st' ∧ Inv (i + 1) st') →
      ∃ st', forUp body lo k st = Except.ok st' ∧ Inv (lo + k) st'
  | 0, lo, st, h0, _ => ⟨st, rfl, by simpa using h0⟩
  | k + 1, lo, st, h0, hstep => by
    obtain ⟨st1, hb, h1⟩ := hstep lo st (Nat.le_refl _) (by omega) h0
    obtain ⟨st2, hf, h2⟩ := forUp_inv body Inv k (lo + 1) st1 h1
      (fun i st hi hlt hinv => hstep i st (by omega) (by omega) hinv)
    refine ⟨st2, ?_, ?_⟩
    · simp [forUp, hb, hf]
    · have : lo + (k + 1) = lo + 1 + k := by omega
      rw [this]
      exact h2

/-- A loop with no iterations left to fail ends in the error of the first
failing iteration: here, the body fails at once. -/
theorem forUp_fail_first {σ : Type} (body : Nat → σ → Except Err σ) (lo k : Nat) (st : σ)
    (e : Err) (h : body lo st = Except.error e) :
    forUp body lo (k + 1) st = Except.error e := by
  simp [forUp, h]

/-- The copy loop within bounds: the result has the length of `dst`, holds
`src[soff ..]` at positions `[off, off + k)` and `dst` elsewhere. -/
theorem copyLoop_spec (dst src : List Byte) (off soff k : Nat)
    (h1 : off + k ≤ dst.length) (h2 : soff + k ≤ src.length) :
    ∃ d, copyLoop dst (off : Int) src (soff : Int) k = Except.ok d ∧ d.length = dst.length ∧
      ∀ j : Nat, d.getD j 0 =
        if off ≤ j ∧ j < off + k then src.getD (soff + (j - off)) 0 else dst.getD j 0 := by
  have h := forUp_inv
    (fun (j : Nat) (d : List Byte) =>
      match aget src ((soff : Int) + j) with
      | Except.ok b => aset d ((off : Int) + j) b
      | Except.error e => Except.error e)
    (fun i d => d.length = dst.length ∧ ∀ j : Nat, d.getD j 0 =
        if off ≤ j ∧ j < off + i then src.getD (soff + (j - off)) 0 else dst.getD j 0)
    k 0 dst ⟨rfl, fun j => by rw [if_neg (by omega)]⟩
    (by
      intro i d _ hi ⟨hlen, hd⟩
      have hs : aget src ((soff : Int) + i) = Except.ok (src.getD (soff + i) 0) := by
        have := aget_nat src (soff + i) (by omega)
        simpa using this
      have hw : aset d ((off : Int) + i) (src.getD (soff + i) 0)
          = Except.ok (d.set (off + i) (src.getD (soff + i) 0)) := by
        have := aset_nat d (off + i) (src.getD (soff + i) 0) (by omega)
        simpa using this
      refine ⟨d.set (off + i) (src.getD (soff + i) 0), ?_, ?_, ?_⟩
      · simp only [hs, hw]
      · simp [hlen]
      · intro j
        rw [getD_set_byte d (off + i) j _ (by omega), hd j]
        by_cases hj : j = off + i
        · subst hj
          have : off ≤ off + i ∧ off + i < off + (i + 1) := by omega
          simp [this]
        · by_cases hin : off ≤ j ∧ j < off + i
          · have : off ≤ j ∧ j < off + (i + 1) := by omega
            simp [hj, hin, this]
          · have : ¬ (off ≤ j ∧ j < off + (i + 1)) := by omega
            simp [hj, hin, this])
  obtain ⟨d, hd, hlen, hpt⟩ := h
  exact ⟨d, hd, hlen, fun j => by simpa using hpt j⟩

/-- The zero-counting loop over a whole prefix of the block: the number of
zero bytes among the first `k` bytes. -/
theorem countZeros_spec (block : List Byte) (k : Nat) (hk : k ≤ block.length) :
    countZeros block k = Except.ok (((block.take k).count 0 : Nat) : Int) := by
  have h := forUp_inv
    (fun (i : Nat) (c : Int) =>
      match aget block i with
      | Except.ok b => Except.ok (if b = 0 then c + 1 else c)
      | Except.error e => Except.error e)
    (fun i c => c = (((block.take i).count 0 : Nat) : Int))
    k 0 0 (by simp)
    (by
      intro i c _ hi hc
      have hlt : i < block.length := by omega
      refine ⟨if block.getD i 0 = 0 then c + 1 else c, ?_, ?_⟩
      · simp only [aget_nat block i hlt]
      · show (if block.getD i 0 = 0 then c + 1 else c)
            = (((block.take (i + 1)).count 0 : Nat) : Int)
        have hget : block[i]? = some (block.getD i 0) := by
          simp [List.getElem?_eq_getElem hlt]
        rw [List.take_succ, List.count_append, hget, hc]
        generalize block.getD i 0 = b
        by_cases hz : b = 0
        · subst hz
          simp
        · have hz' : ¬ ((0 : Int) = b) := fun e => hz e.symm
          simp [hz, hz', List.count_cons])
  obtain ⟨c, hc, hv⟩ := h
  simp only [Nat.zero_add] at hv
  rw [countZeros, hc, hv]

/-- C4: for a valid descriptor and every `k ≥ 0`, whatever the size of the file,
`fsSeek(fd, k, SEEK_SET)` succeeds and a following `fsTell(fd)` returns `k`. -/
theorem fsSeek_set_then_fsTell (s : State) (fd inum : Int) (ofte : Nat) (k : Int)
    (hv : ValidFd s fd inum ofte) (hk : 0 ≤ k) :
    (fsSeek fd k SEEK_SET s).1 = Except.ok 0 ∧
    (fsTell fd (fsSeek fd k SEEK_SET s).2).1 = Except.ok k := by
  rw [fsSeek_set_ok s fd inum ofte k hv hk]
  refine ⟨rfl, ?_⟩
  have hv' := ValidFd_setCurs s fd inum ofte ofte k hv
  simp only [fsTell]
  rw [bfsTell_ok _ fd inum ofte hv']
  simp [getCurs_setCurs_same s.g_oft ofte k (findOFTE_lt _ _ _ hv.2)]

/-- Witness of C4: a seek to 5000 on a file of size 0. -/
theorem fsSeek_set_then_fsTell_witness :
    freshState.size 7 = 0 ∧
    (fsSeek 3 5000 SEEK_SET freshState).1 = Except.ok 0 ∧
    (fsTell 3 (fsSeek 3 5000 SEEK_SET freshState).2).1 = Except.ok 5000 :=
  ⟨rfl, fsSeek_set_then_fsTell freshState 3 7 0 5000 ⟨rfl, rfl⟩ (by decide)⟩

/-- C5: for every descriptor, every `offset < 0` and every mode, `fsSeek` fails
with `EBADCURS` and returns the state it was given, open-file table included. -/
theorem fsSeek_negative_offset (s : State) (fd offset whence : Int) (h : offset < 0) :
    fsSeek fd offset whence s = (Except.error Err.EBADCURS, s) := by
  simp [fsSeek, h, FATAL]

/-- Witness of C5: `SEEK_END` with offset `-1` on a file whose size is 100, where
`size + offset` would be 99. -/
theorem fsSeek_negative_offset_witness :
    fsSeek 3 (-1) SEEK_END { freshState with size := fun _ => 100 } =
      (Except.error Err.EBADCURS, { freshState with size := fun _ => 100 }) :=
  fsSeek_negative_offset { freshState with size := fun _ => 100 } 3 (-1) SEEK_END (by decide)

/-- C6: for a valid descriptor and every `offset ≥ 0`, `fsSeek` with `SEEK_CUR`
sets the cursor to old cursor + offset, and with `SEEK_END` to
`fsSize(fd)` + offset, where `fsSize(fd)` is the size the volume manager
reports for the descriptor's inode.  The sums are the `i32` additions of the
code (`wrap32`); they are the exact sums whenever those fit in an `i32`. -/
theorem fsSeek_cur_end (s : State) (fd inum : Int) (ofte : Nat) (offset : Int)
    (hv : ValidFd s fd inum ofte) (h0 : 0 ≤ offset) :
    (fsSize fd s).1 = Except.ok (s.size inum) ∧
    (fsSeek fd offset SEEK_CUR s).1 = Except.ok 0 ∧
    (fsTell fd (fsSeek fd offset SEEK_CUR s).2).1
      = Except.ok (wrap32 (getCurs s.g_oft ofte + offset)) ∧
    (fsSeek fd offset SEEK_END s).1 = Except.ok 0 ∧
    (fsTell fd (fsSeek fd offset SEEK_END s).2).1
      = Except.ok (wrap32 (s.size inum + offset)) ∧
    (-2147483648 ≤ getCurs s.g_oft ofte + offset →
      getCurs s.g_oft ofte + offset ≤ 2147483647 →
      (fsTell fd (fsSeek fd offset SEEK_CUR s).2).1
        = Except.ok (getCurs s.g_oft ofte + offset)) ∧
    (-2147483648 ≤ s.size inum + offset → s.size inum + offset ≤ 2147483647 →
      (fsTell fd (fsSeek fd offset SEEK_END s).2).1 = Except.ok (s.size inum + offset)) := by
  have hlt := findOFTE_lt _ _ _ hv.2
  have hc : (fsTell fd (fsSeek fd offset SEEK_CUR s).2).1
      = Except.ok (wrap32 (getCurs s.g_oft ofte + offset)) := by
    rw [fsSeek_cur_ok s fd inum ofte offset hv h0]
    simp only [fsTell]
    rw [bfsTell_ok _ fd inum ofte (ValidFd_setCurs s fd inum ofte ofte _ hv)]
    simp [getCurs_setCurs_same s.g_oft ofte _ hlt]
  have he : (fsTell fd (fsSeek fd offset SEEK_END s).2).1
      = Except.ok (wrap32 (s.size inum + offset)) := by
    rw [fsSeek_end_ok s fd inum ofte offset hv h0]
    simp only [fsTell]
    rw [bfsTell_ok _ fd inum ofte (ValidFd_setCurs s fd inum ofte ofte _ hv)]
    simp [getCurs_setCurs_same s.g_oft ofte _ hlt]
  refine ⟨by rw [fsSize_ok s fd inum ofte hv], ?_, hc, ?_, he, ?_, ?_⟩
  · rw [fsSeek_cur_ok s fd inum ofte offset hv h0]
  · rw [fsSeek_end_ok s fd inum ofte offset hv h0]
  · intro h1 h2
    rw [hc, wrap32_of_range _ h1 h2]
  · intro h1 h2
    rw [he, wrap32_of_range _ h1 h2]

/-- Witness of C6: offset 40 from cursor 2 (`SEEK_CUR`) and from size 100
(`SEEK_END`). -/
theorem fsSeek_cur_end_witness :
    (fsTell 3 (fsSeek 3 40 SEEK_CUR
        { freshState with g_oft := [{ inum := 7, curs := 2 }], size := fun _ => 100 }).2).1
      = Except.ok 42 ∧
    (fsTell 3 (fsSeek 3 40 SEEK_END
        { freshState with g_oft := [{ inum := 7, curs := 2 }], size := fun _ => 100 }).2).1
      = Except.ok 140 := by
  have h := fsSeek_cur_end
    { freshState with g_oft := [{ inum := 7, curs := 2 }], size := fun _ => 100 } 3 7 0 40
    ⟨rfl, rfl⟩ (by decide)
  exact ⟨h.2.2.2.2.2.1 (by decide) (by decide), h.2.2.2.2.2.2 (by decide) (by decide)⟩

/-- C7, as stated, fails: with a negative offset an unrecognised mode is not
reported; the call fails with `EBADCURS`. -/
theorem fsSeek_bad_whence_negative_offset :
    ValidFd freshState 3 7 0 ∧ (7 : Int) ≠ SEEK_SET ∧ (7 : Int) ≠ SEEK_CUR ∧
    (7 : Int) ≠ SEEK_END ∧
    (fsSeek 3 (-1) 7 freshState).1 = Except.error Err.EBADCURS ∧
    (fsSeek 3 (-1) 7 freshState).1 ≠ Except.error Err.EBADWHENCE := by
  refine ⟨⟨rfl, rfl⟩, by decide, by decide, by decide, ?_, ?_⟩
  · rw [fsSeek_negative_offset freshState 3 (-1) 7 (by decide)]
  · rw [fsSeek_negative_offset freshState 3 (-1) 7 (by decide)]
    simp

/-- C7, amended: for a valid descriptor, every `offset ≥ 0` and every mode
other than `SEEK_SET`, `SEEK_CUR` and `SEEK_END`, `fsSeek` fails with
`EBADWHENCE` and returns the state it was given, cursor included. -/
theorem fsSeek_bad_whence (s : State) (fd inum : Int) (ofte : Nat) (offset whence : Int)
    (hv : ValidFd s fd inum ofte) (h0 : 0 ≤ offset)
    (h1 : whence ≠ SEEK_SET) (h2 : whence ≠ SEEK_CUR) (h3 : whence ≠ SEEK_END) :
    fsSeek fd offset whence s = (Except.error Err.EBADWHENCE, s) := by
  have h : ¬ offset < 0 := by omega
  simp [fsSeek, h, FSM.bind, bfsFdToInum_ok s fd inum ofte hv, bfsFindOFTE_ok s fd inum ofte hv,
    h1, h2, h3, FATAL]

/-- Witness of C7 amended: mode 7 with offset 0. -/
theorem fsSeek_bad_whence_witness :
    fsSeek 3 0 7 freshState = (Except.error Err.EBADWHENCE, freshState) :=
  fsSeek_bad_whence freshState 3 7 0 0 7 ⟨rfl, rfl⟩ (by decide) (by decide) (by decide)
    (by decide)


theorem readBlock_length (s : State) (B : Nat) (inum fbn : Int) :
    (readBlock s B inum fbn).length = B := by
  unfold readBlock
  split <;> simp

theorem readBlock_unalloc (s : State) (B : Nat) (inum fbn : Int) (h : s.dbnOf inum fbn < 0) :
    readBlock s B inum fbn = List.replicate B 0 := by
  unfold readBlock
  rw [if_neg (by omega)]

theorem readBlock_alloc (s : State) (B : Nat) (inum fbn : Int) (h : 0 ≤ s.dbnOf inum fbn) :
    readBlock s B inum fbn = (List.range B).map (s.disk (s.dbnOf inum fbn)) := by
  unfold readBlock
  rw [if_pos h]

theorem div_mod_block (B i t : Nat) (ht : t < B) :
    (B * i + t) / B = i ∧ (B * i + t) % B = t := by
  have hB : 0 < B := by omega
  constructor
  · rw [Nat.mul_add_div hB, Nat.div_eq_of_lt ht]; rfl
  · rw [Nat.mul_add_mod, Nat.mod_eq_of_lt ht]

theorem readBlocks_spec (s : State) (B : Nat) (inum fbn : Int) (k : Nat) (w0 : List Byte)
    (hB : 0 < B) (hk : B * k ≤ w0.length) :
    ∃ w, readBlocks s B inum fbn k w0 = Except.ok w ∧ w.length = w0.length ∧
      ∀ j : Nat, w.getD j 0 =
        if j < B * k then (readBlock s B inum (fbn + ((j / B : Nat) : Int))).getD (j % B) 0
        else w0.getD j 0 := by
  have h := forUp_inv
    (fun (i : Nat) (w : List Byte) =>
      copyLoop w ((B : Int) * i) (readBlock s B inum (fbn + i)) 0 B)
    (fun i w => w.length = w0.length ∧ ∀ j : Nat, w.getD j 0 =
        if j < B * i then (readBlock s B inum (fbn + ((j / B : Nat) : Int))).getD (j % B) 0
        else w0.getD j 0)
    k 0 w0 ⟨rfl, fun j => by rw [if_neg (by omega)]⟩
    (by
      intro i w _ hi ⟨hlen, hw⟩
      have hle : B * (i + 1) ≤ B * k := Nat.mul_le_mul_left B (by omega)
      have hmul : B * (i + 1) = B * i + B := by ring
      obtain ⟨d, hd, hdl, hdp⟩ := copyLoop_spec w (readBlock s B inum (fbn + i)) (B * i) 0 B
        (by omega) (by simp [readBlock_length])
      refine ⟨d, ?_, by omega, ?_⟩
      · rw [← hd]; push_cast; rfl
      · intro j
        rw [hdp j, hw j]
        by_cases h1 : j < B * i
        · have h2 : ¬ (B * i ≤ j ∧ j < B * i + B) := by omega
          have h3 : j < B * (i + 1) := by omega
          simp [h1, h2, h3]
        · by_cases h2 : j < B * i + B
          · have h3 : B * i ≤ j ∧ j < B * i + B := by omega
            have h4 : j < B * (i + 1) := by omega
            obtain ⟨t, rfl⟩ : ∃ t, j = B * i + t := ⟨j - B * i, by omega⟩
            have ht : t < B := by omega
            obtain ⟨e1, e2⟩ := div_mod_block B i t ht
            simp only [h3, h4, e1, e2, and_self, if_true]
            simp
          · have h3 : ¬ (B * i ≤ j ∧ j < B * i + B) := by omega
            have h4 : ¬ j < B * (i + 1) := by omega
            simp [h1, h3, h4])
  obtain ⟨w, hw, hlen, hp⟩ := h
  exact ⟨w, hw, hlen, fun j => by simpa using hp j⟩

theorem liftE_ok {α : Type} (a : α) (s : State) : liftE (Except.ok a) s = (Except.ok a, s) := rfl

theorem getState_ok (s : State) : getState s = (Except.ok s, s) := rfl

theorem memcpyOut_spec (src : List Byte) (n : Nat) (h : n ≤ src.length) :
    memcpyOut src (n : Int) = Except.ok (src.take n) := by
  have : (n : Int) ≤ src.length := by exact_mod_cast h
  simp [memcpyOut, this]

theorem fsRead_multi (s : State) (B D : Nat) (fd inum : Int) (ofte n : Nat)
    (hv : ValidFd s fd inum ofte) (hB : 0 < B) (hn : B < n) (hD : n ≤ D) :
    ∃ out, fsRead B D fd n s =
      (Except.ok ((n : Int) -
          (((readBlock s B inum
            (Int.tdiv (getCurs s.g_oft ofte) B + ((n / B : Nat) : Int) - 1)).count 0 : Nat) : Int),
          out),
        { s with g_oft := setCurs s.g_oft ofte (wrap32 (getCurs s.g_oft ofte + ((n : Int) -
          (((readBlock s B inum
            (Int.tdiv (getCurs s.g_oft ofte) B + ((n / B : Nat) : Int) - 1)).count 0 : Nat)
              : Int)))) })
      ∧ out.length = n ∧
      ∀ j : Nat, j < n → out.getD j 0 =
        (readBlock s B inum (Int.tdiv (getCurs s.g_oft ofte) B + ((j / B : Nat) : Int))).getD
          (j % B) 0 := by
  have hgt : (n : Int) > B := by exact_mod_cast hn
  have hq : Int.tdiv (n : Int) B = ((n / B : Nat) : Int) := (Int.ofNat_tdiv n B).symm
  have hr : Int.tmod (n : Int) B = ((n % B : Nat) : Int) := (Int.ofNat_tmod n B).symm
  generalize hfbn : Int.tdiv (getCurs s.g_oft ofte) B = fbn
  have hqB : B * (n / B) ≤ D := (Nat.mul_div_le n B).trans hD
  obtain ⟨w1, hw1, hl1, hp1⟩ := readBlocks_spec s B inum fbn (n / B) (List.replicate D 0) hB
    (by simpa using hqB)
  unfold fsRead
  simp only [FSM.bind_apply, FSM.bind, bfsTell_ok s fd inum ofte hv, bfsFdToInum_ok s fd inum ofte hv,
    getState_ok, hgt, if_true, hq, hr, Int.toNat_ofNat, hfbn, hw1, liftE_ok]
  have hdm : B * (n / B) + n % B = n := Nat.div_add_mod n B
  have hmodlt : n % B < B := Nat.mod_lt n hB
  have hl1' : w1.length = D := by simpa using hl1
  have hpart : ∃ w2,
      (if ((n % B : Nat) : Int) ≠ 0 then
          copyLoop w1 ((B : Int) * ((n / B : Nat) : Int))
            (readBlock s B inum (fbn + ((n / B : Nat) : Int))) 0 (n % B)
        else Except.ok w1) = Except.ok w2 ∧ w2.length = D ∧
      ∀ j : Nat, j < n → w2.getD j 0 =
        (readBlock s B inum (fbn + ((j / B : Nat) : Int))).getD (j % B) 0 := by
    by_cases hz : n % B = 0
    · refine ⟨w1, by simp [hz], hl1', ?_⟩
      intro j hj
      rw [hp1 j, if_pos (by omega)]
    · obtain ⟨d, hd, hdl, hdp⟩ := copyLoop_spec w1 (readBlock s B inum (fbn + ((n / B : Nat) : Int)))
        (B * (n / B)) 0 (n % B) (by omega) (by simp [readBlock_length]; omega)
      have hz' : ((n % B : Nat) : Int) ≠ 0 := by exact_mod_cast hz
      refine ⟨d, ?_, by omega, ?_⟩
      · rw [if_pos hz', ← hd]; push_cast; rfl
      · intro j hj
        rw [hdp j]
        by_cases h1 : j < B * (n / B)
        · rw [if_neg (by omega), hp1 j, if_pos h1]
        · obtain ⟨t, rfl⟩ : ∃ t, j = B * (n / B) + t := ⟨j - B * (n / B), by omega⟩
          have ht : t < B := by omega
          obtain ⟨e1, e2⟩ := div_mod_block B (n / B) t ht
          rw [if_pos (by omega), e1, e2]
          simp
  obtain ⟨w2, hw2, hl2, hp2⟩ := hpart
  have hz := countZeros_spec (readBlock s B inum (fbn + ((n / B : Nat) : Int) - 1)) B
    (by simp [readBlock_length])
  rw [List.take_of_length_le (by simp [readBlock_length])] at hz
  have hzle : (readBlock s B inum (fbn + ((n / B : Nat) : Int) - 1)).count 0 ≤ B := by
    have := List.count_le_length (0 : Byte) (readBlock s B inum (fbn + ((n / B : Nat) : Int) - 1))
    simpa [readBlock_length] using this
  have hseek := fsSeek_cur_ok s fd inum ofte
    ((n : Int) - (((readBlock s B inum (fbn + ((n / B : Nat) : Int) - 1)).count 0 : Nat) : Int))
    hv (by omega)
  refine ⟨w2.take n, ?_, by simp; omega, ?_⟩
  · simp only [hw2, liftE_ok, memcpyOut_spec w2 n (by omega), hz, hseek]
    rfl
  · intro j hj
    rw [← hp2 j hj]
    simp [List.getElem?_take_of_lt hj]

theorem storeBlock_spec (dst block : List Byte) (h : block.length ≤ dst.length) :
    storeBlock dst block = Except.ok (block ++ dst.drop block.length) := by
  simp [storeBlock, h]

theorem fsRead_single (s : State) (B D : Nat) (fd inum : Int) (ofte n : Nat)
    (hv : ValidFd s fd inum ofte) (hn : n ≤ B) (hBD : B ≤ D) :
    fsRead B D fd n s =
      (Except.ok ((n : Int),
          (readBlock s B inum (Int.tdiv (getCurs s.g_oft ofte) B)).take n),
        { s with g_oft := setCurs s.g_oft ofte (wrap32 (getCurs s.g_oft ofte + n)) }) := by
  have hgt : ¬ ((n : Int) > B) := by
    have : (n : Int) ≤ B := by exact_mod_cast hn
    omega
  have hst := storeBlock_spec (List.replicate D 0)
    (readBlock s B inum (Int.tdiv (getCurs s.g_oft ofte) B)) (by simp [readBlock_length, hBD])
  have hseek := fsSeek_cur_ok s fd inum ofte (n : Int) hv (by omega)
  unfold fsRead
  simp only [FSM.bind_apply, FSM.bind, bfsTell_ok s fd inum ofte hv,
    bfsFdToInum_ok s fd inum ofte hv, getState_ok, hgt, if_false, hst, liftE_ok]
  rw [memcpyOut_spec _ n (by simp [readBlock_length]; omega)]
  simp only [liftE_ok, hseek]
  rw [List.take_append_of_le_length (by simp [readBlock_length, hn])]
  rfl

/-- A loop whose body keeps `Inv` when it succeeds and fails only with errors
in `E` ends in a state satisfying `Inv` or in an error in `E`. -/
theorem forUp_inv_err {σ : Type} (body : Nat → σ → Except Err σ) (Inv : σ → Prop)
    (E : Err → Prop)
    (hstep : ∀ i st, Inv st →
      (∀ st', body i st = Except.ok st' → Inv st') ∧ (∀ e, body i st = Except.error e → E e)) :
    ∀ (k lo : Nat) (st : σ), Inv st →
      (∀ st', forUp body lo k st = Except.ok st' → Inv st') ∧
      (∀ e, forUp body lo k st = Except.error e → E e)
  | 0, lo, st, h0 => by
    constructor
    · intro st' h
      simp only [forUp] at h
      cases h
      exact h0
    · intro e h
      simp [forUp] at h
  | k + 1, lo, st, h0 => by
    have h1 := hstep lo st h0
    unfold forUp
    cases hb : body lo st with
    | error e =>
      constructor
      · intro st' h
        simp at h
      · intro e' h
        simp at h
        subst h
        exact h1.2 e hb
    | ok st1 => exact forUp_inv_err body Inv E hstep k (lo + 1) st1 (h1.1 st1 hb)

theorem aget_error (a : List Byte) (i : Int) (e : Err) (h : aget a i = Except.error e) :
    e = Err.OutOfBounds := by
  unfold aget at h
  split at h
  · cases h
  · cases h
    rfl

theorem aset_length_or (a : List Byte) (i : Int) (v : Byte) :
    (∀ a', aset a i v = Except.ok a' → a'.length = a.length) ∧
    (∀ e, aset a i v = Except.error e → e = Err.OutOfBounds) := by
  unfold aset
  split
  · constructor
    · intro a' h
      cases h
      simp
    · intro e h
      cases h
  · constructor
    · intro a' h
      cases h
    · intro e h
      cases h
      rfl

theorem copyLoop_length_or (dst src : List Byte) (off soff : Int) (k : Nat) :
    (∀ d, copyLoop dst off src soff k = Except.ok d → d.length = dst.length) ∧
    (∀ e, copyLoop dst off src soff k = Except.error e → e = Err.OutOfBounds) := by
  unfold copyLoop
  refine forUp_inv_err _ (fun d => d.length = dst.length) (fun e => e = Err.OutOfBounds) ?_
    k 0 dst rfl
  intro i d hd
  show (∀ st', (match aget src (soff + i) with
      | Except.ok b => aset d (off + i) b
      | Except.error e => Except.error e) = Except.ok st' → st'.length = dst.length) ∧
    (∀ e, (match aget src (soff + i) with
      | Except.ok b => aset d (off + i) b
      | Except.error e => Except.error e) = Except.error e → e = Err.OutOfBounds)
  cases ha : aget src (soff + i) with
  | ok b =>
    have h := aset_length_or d (off + i) b
    exact ⟨fun st' hs => (h.1 st' hs).trans hd, h.2⟩
  | error e =>
    constructor
    · intro st' h
      cases h
    · intro e' h
      cases h
      exact aget_error src (soff + i) e ha

theorem readBlocks_length_or (s : State) (B : Nat) (inum fbn : Int) (k : Nat) (w0 : List Byte) :
    (∀ w, readBlocks s B inum fbn k w0 = Except.ok w → w.length = w0.length) ∧
    (∀ e, readBlocks s B inum fbn k w0 = Except.error e → e = Err.OutOfBounds) := by
  unfold readBlocks
  refine forUp_inv_err _ (fun w => w.length = w0.length) (fun e => e = Err.OutOfBounds) ?_
    k 0 w0 rfl
  intro i w hw
  have h := copyLoop_length_or w (readBlock s B inum (fbn + i)) (B * i) 0 B
  exact ⟨fun st' hs => (h.1 st' hs).trans hw, h.2⟩

theorem memcpyOut_over (src : List Byte) (n : Int) (h : (src.length : Int) < n) :
    memcpyOut src n = Except.error Err.OutOfBounds := by
  have : ¬ (0 ≤ n ∧ n ≤ src.length) := by omega
  simp [memcpyOut, this]

/-- A request larger than both the block and `wholeBuffer` overruns
`wholeBuffer`; nothing is changed. -/
theorem fsRead_overrun (s : State) (B D : Nat) (fd inum : Int) (ofte : Nat) (n : Int)
    (hv : ValidFd s fd inum ofte) (hB : (B : Int) < n) (hD : (D : Int) < n) :
    fsRead B D fd n s = (Except.error Err.OutOfBounds, s) := by
  have hgt : n > (B : Int) := hB
  unfold fsRead
  simp only [FSM.bind_apply, FSM.bind, bfsTell_ok s fd inum ofte hv,
    bfsFdToInum_ok s fd inum ofte hv, getState_ok, hgt, if_true]
  generalize Int.tdiv (getCurs s.g_oft ofte) B = fbn
  have h1 := readBlocks_length_or s B inum fbn (Int.tdiv n B).toNat (List.replicate D 0)
  cases hrb : readBlocks s B inum fbn (Int.tdiv n B).toNat (List.replicate D 0) with
  | error e =>
    rw [h1.2 e hrb]
    rfl
  | ok w1 =>
    have h1' : w1.length = D := by simpa using h1.1 w1 hrb
    simp only [liftE_ok]
    by_cases hr : Int.tmod n B ≠ 0
    · rw [if_pos hr]
      have h2 := copyLoop_length_or w1 (readBlock s B inum (fbn + Int.tdiv n B))
        (B * Int.tdiv n B) 0 (Int.tmod n B).toNat
      cases hcl : copyLoop w1 (B * Int.tdiv n B) (readBlock s B inum (fbn + Int.tdiv n B)) 0
        (Int.tmod n B).toNat with
      | error e =>
        rw [h2.2 e hcl]
        rfl
      | ok w2 =>
        have h2' : w2.length = D := by
          have := h2.1 w2 hcl
          omega
        simp only [liftE_ok, memcpyOut_over w2 n (by omega)]
        rfl
    · rw [if_neg hr]
      simp only [liftE_ok, memcpyOut_over w1 n (by omega)]
      rfl

/-- C9 at the failing input: on an empty file (size 0, cursor 0) a request of
one byte, larger than the remaining content, stores one zero byte and returns
1, not fewer than 1 and not 0. -/
theorem fsRead_past_end_returns_request :
    ValidFd freshState 3 7 0 ∧ freshState.size 7 = 0 ∧ getCurs freshState.g_oft 0 = 0 ∧
    (fsRead 512 51200 3 1 freshState).1 = Except.ok (1, [0]) ∧
    ¬ ∃ r out, (fsRead 512 51200 3 1 freshState).1 = Except.ok (r, out) ∧ r < 1 := by
  have h := fsRead_single freshState 512 51200 3 7 0 1 ⟨rfl, rfl⟩ (by decide) (by decide)
  have hb : (readBlock freshState 512 7 (Int.tdiv (getCurs freshState.g_oft 0) (512 : Nat))).take 1
      = [0] := by
    rw [readBlock_unalloc freshState 512 7 _ (by decide)]
    rfl
  rw [hb] at h
  have h' : (fsRead 512 51200 3 1 freshState).1 = Except.ok (1, [0]) := by
    have := congrArg Prod.fst h
    simpa using this
  refine ⟨⟨rfl, rfl⟩, rfl, rfl, h', ?_⟩
  rw [h']
  rintro ⟨r, out, hr, hlt⟩
  cases hr
  exact absurd hlt (by decide)

/-- The count of `fsRead` and the file size: for a valid descriptor and
`0 ≤ n ≤ BYTESPERDISK`, the count `fsRead` returns does not depend on the file
size.  For `n ≤ BYTESPERBLOCK` it
is `n`.  For `n > BYTESPERBLOCK` it is at least 1, it is less than `n` exactly
when the block at FBN `cursor / BYTESPERBLOCK + n / BYTESPERBLOCK - 1` holds a
zero byte, and it is `n - BYTESPERBLOCK` when that block is unallocated. -/
theorem fsRead_short_count (s : State) (BYTESPERBLOCK BYTESPERDISK : Nat) (fd inum : Int)
    (ofte : Nat) (n : Int) (hv : ValidFd s fd inum ofte) (hB : 0 < BYTESPERBLOCK)
    (hBD : BYTESPERBLOCK ≤ BYTESPERDISK) (h0 : 0 ≤ n) (hD : n ≤ BYTESPERDISK) :
    ∃ r out, (fsRead BYTESPERBLOCK BYTESPERDISK fd n s).1 = Except.ok (r, out) ∧
      (n ≤ BYTESPERBLOCK → r = n) ∧
      ((BYTESPERBLOCK : Int) < n →
        1 ≤ r ∧
        (r < n ↔ (0 : Byte) ∈ readBlock s BYTESPERBLOCK inum
          (Int.tdiv (getCurs s.g_oft ofte) BYTESPERBLOCK + Int.tdiv n BYTESPERBLOCK - 1)) ∧
        (s.dbnOf inum
            (Int.tdiv (getCurs s.g_oft ofte) BYTESPERBLOCK + Int.tdiv n BYTESPERBLOCK - 1) < 0 →
          r = n - BYTESPERBLOCK)) := by
  obtain ⟨m, rfl⟩ := Int.eq_ofNat_of_zero_le h0
  have hD' : m ≤ BYTESPERDISK := by exact_mod_cast hD
  by_cases hm : m ≤ BYTESPERBLOCK
  · rw [fsRead_single s BYTESPERBLOCK BYTESPERDISK fd inum ofte m hv hm hBD]
    refine ⟨m, _, rfl, fun _ => rfl, fun h => ?_⟩
    have : (m : Int) ≤ BYTESPERBLOCK := by exact_mod_cast hm
    omega
  · obtain ⟨out, he, _, _⟩ :=
      fsRead_multi s BYTESPERBLOCK BYTESPERDISK fd inum ofte m hv hB (by omega) hD'
    rw [he]
    have hq : Int.tdiv (m : Int) BYTESPERBLOCK = ((m / BYTESPERBLOCK : Nat) : Int) :=
      (Int.ofNat_tdiv m BYTESPERBLOCK).symm
    rw [hq]
    generalize hblk : readBlock s BYTESPERBLOCK inum
      (Int.tdiv (getCurs s.g_oft ofte) BYTESPERBLOCK + ((m / BYTESPERBLOCK : Nat) : Int) - 1)
      = blk
    have hlen : blk.length = BYTESPERBLOCK := by rw [← hblk, readBlock_length]
    have hcnt := List.count_le_length (0 : Byte) blk
    refine ⟨_, out, rfl, ?_, fun _ => ⟨by omega, ?_, ?_⟩⟩
    · intro hle
      have : (m : Int) ≤ BYTESPERBLOCK := hle
      omega
    · rw [← List.count_pos_iff]
      omega
    · intro hneg
      have : blk = List.replicate BYTESPERBLOCK 0 := by
        rw [← hblk]
        unfold readBlock
        rw [if_neg (by omega)]
      rw [this, List.count_replicate_self]

/-- Example: 1000 bytes requested on an empty file, with 512-byte blocks. -/
theorem fsRead_short_count_witness :
    ∃ r out, (fsRead 512 51200 3 1000 freshState).1 = Except.ok (r, out) ∧
      ((1000 : Int) ≤ (512 : Nat) → r = 1000) ∧
      (((512 : Nat) : Int) < 1000 →
        1 ≤ r ∧
        (r < 1000 ↔ (0 : Byte) ∈ readBlock freshState 512 7
          (Int.tdiv (getCurs freshState.g_oft 0) (512 : Nat) + Int.tdiv 1000 (512 : Nat) - 1)) ∧
        (freshState.dbnOf 7
            (Int.tdiv (getCurs freshState.g_oft 0) (512 : Nat) + Int.tdiv 1000 (512 : Nat) - 1) < 0 →
          r = 1000 - (512 : Nat))) :=
  fsRead_short_count freshState 512 51200 3 7 0 1000 ⟨rfl, rfl⟩ (by decide) (by decide)
    (by decide) (by decide)


/-! ## Staging and writing blocks -/

theorem stageBlock_alloc (s : State) (B : Nat) (inum fbn : Int) (h : 0 ≤ s.dbnOf inum fbn) :
    stageBlock B inum fbn s = (Except.ok (s.dbnOf inum fbn, readBlock s B inum fbn), s) := by
  have h' : s.dbnOf inum fbn ≥ 0 := h
  simp [stageBlock, FSM.bind, bfsFbnToDbn, h', bfsRead, FSM.pure]

theorem stageBlock_fresh (s : State) (B : Nat) (inum fbn : Int) (d : Nat) (rest : List Nat)
    (h : s.dbnOf inum fbn < 0) (hf : s.freeList = d :: rest) :
    stageBlock B inum fbn s =
      (Except.ok ((d : Int), readBlock s B inum fbn),
        { s with
          freeList := rest
          dbnOf := fun i f => if i = inum ∧ f = fbn then (d : Int) else s.dbnOf i f
          size := fun i => if i = inum then max (s.size i) ((fbn + 1) * B) else s.size i }) := by
  have h' : ¬ s.dbnOf inum fbn ≥ 0 := by omega
  simp [stageBlock, FSM.bind, bfsFbnToDbn, h', bfsAllocBlock, hf, FSM.pure,
    readBlock_unalloc s B inum fbn h]

theorem bioWrite_ok (s : State) (dbn : Int) (blk : List Byte) (h : 0 ≤ dbn) :
    bioWrite dbn blk s =
      (Except.ok (), { s with disk := fun d j => if d = dbn then blk.getD j 0 else s.disk d j }) := by
  simp [bioWrite, h]

theorem bioWrite_bad (s : State) (dbn : Int) (blk : List Byte) (h : dbn < 0) :
    bioWrite dbn blk s = (Except.error Err.BadBlock, s) := by
  have : ¬ 0 ≤ dbn := by omega
  simp [bioWrite, this]

/-- A loop that carries a counter next to its state: the counter goes down by
one per iteration and the rest is the loop without it. -/
theorem forUp_counter {α : Type} (body : Nat → α → Except Err α)
    (body' : Nat → α × Int → Except Err (α × Int)) (r0 : Int)
    (h : ∀ (j : Nat) (a : α), body' j (a, r0 - j) =
      Except.map (fun a' => (a', r0 - (j + 1 : Nat))) (body j a)) :
    ∀ (k lo : Nat) (a : α), forUp body' lo k (a, r0 - lo) =
      Except.map (fun a' => (a', r0 - (lo + k : Nat))) (forUp body lo k a)
  | 0, lo, a => by simp [forUp, Except.map]
  | k + 1, lo, a => by
    simp only [forUp, h lo a]
    cases hb : body lo a with
    | error e => simp [Except.map]
    | ok a1 =>
      have e : (Except.map (fun a' => (a', r0 - ((lo + 1 : Nat) : Int)))
          (Except.ok a1 : Except Err α)) = Except.ok (a1, r0 - ((lo + 1 : Nat) : Int)) := rfl
      rw [e]
      dsimp only
      rw [forUp_counter body body' r0 h k (lo + 1) a1]
      have : lo + 1 + k = lo + (k + 1) := by omega
      rw [this]

theorem fillFirst_eq (B : Nat) (off : Int) (whole blk : List Byte) (n : Int) :
    fillFirst B off whole (blk, n) =
      Except.map (fun b => (b, n - ((B - off).toNat : Int)))
        (copyLoop blk off whole 0 (B - off).toNat) := by
  have h := forUp_counter
    (fun (j : Nat) (d : List Byte) =>
      match aget whole ((0 : Int) + j) with
      | Except.ok b => aset d (off + j) b
      | Except.error e => Except.error e)
    (fun (i : Nat) (st : List Byte × Int) =>
      match aget whole i with
      | Except.ok b =>
        match aset st.1 (i + off) b with
        | Except.ok blk => Except.ok (blk, st.2 - 1)
        | Except.error e => Except.error e
      | Except.error e => Except.error e) n
    (by
      intro j a
      simp only [Int.zero_add, Int.add_comm (j : Int) off]
      cases aget whole j with
      | error e => rfl
      | ok b =>
        dsimp only
        cases aset a (off + j) b with
        | error e => rfl
        | ok a' =>
          simp only [Except.map, Nat.cast_add, Nat.cast_one, Int.sub_sub])
    (B - off).toNat 0 blk
  simp only [Nat.cast_zero, Int.sub_zero, Nat.zero_add] at h
  unfold fillFirst copyLoop
  exact h

theorem fillWhole_eq (B : Nat) (numb : Int) (whole blk : List Byte) (rem : Int) :
    fillWhole B numb whole (blk, rem) =
      Except.map (fun b => (b, rem - (B : Int))) (copyLoop blk 0 whole (numb - rem) B) := by
  have h := forUp_counter
    (fun (j : Nat) (d : List Byte) =>
      match aget whole ((numb - rem) + j) with
      | Except.ok b => aset d ((0 : Int) + j) b
      | Except.error e => Except.error e)
    (fun (j : Nat) (st : List Byte × Int) =>
      match aget whole (numb - st.2) with
      | Except.ok b =>
        match aset st.1 j b with
        | Except.ok blk => Except.ok (blk, st.2 - 1)
        | Except.error e => Except.error e
      | Except.error e => Except.error e) rem
    (by
      intro j a
      have e1 : numb - (rem - (j : Int)) = numb - rem + j := by omega
      simp only [Int.zero_add, e1]
      cases aget whole (numb - rem + j) with
      | error e => rfl
      | ok b =>
        dsimp only
        cases aset a j b with
        | error e => rfl
        | ok a' =>
          simp only [Except.map, Nat.cast_add, Nat.cast_one, Int.sub_sub])
    B 0 blk
  simp only [Nat.cast_zero, Int.sub_zero, Nat.zero_add] at h
  unfold fillWhole copyLoop
  exact h

theorem ValidFd_congr (s s' : State) (fd inum : Int) (ofte : Nat)
    (hfds : s'.fds = s.fds) (hoft : s'.g_oft = s.g_oft) (hv : ValidFd s fd inum ofte) :
    ValidFd s' fd inum ofte := by
  unfold ValidFd
  rw [hfds, hoft]
  exact hv

theorem whole_length (buf : Nat → Byte) : ((List.range 2048).map buf).length = 2048 := by
  simp

theorem whole_getD (buf : Nat → Byte) (i : Nat) (h : i < 2048) :
    ((List.range 2048).map buf).getD i 0 = buf i := by
  simp [List.getElem?_range h]

/-- The single-block branch of `fsWrite`, from the outcome of staging. -/
theorem fsWrite_single (s : State) (B : Nat) (fd inum : Int) (ofte n c : Nat)
    (buf : Nat → Byte) (hv : ValidFd s fd inum ofte) (hc : getCurs s.g_oft ofte = c)
    (hn : n ≤ B) (hfit : c % B + n ≤ B) (h2048 : n ≤ 2048)
    (s1 : State) (dbn : Int)
    (hstage : stageBlock B inum ((c / B : Nat) : Int) s
      = (Except.ok (dbn, readBlock s B inum ((c / B : Nat) : Int)), s1))
    (hdbn : 0 ≤ dbn) (hfds : s1.fds = s.fds) (hoft : s1.g_oft = s.g_oft) :
    ∃ blk : List Byte, fsWrite B fd n buf s =
        (Except.ok 0,
          { s1 with
            disk := fun d j => if d = dbn then blk.getD j 0 else s1.disk d j
            g_oft := setCurs s1.g_oft ofte (wrap32 ((c : Int) + n)) }) ∧
      blk.length = B ∧
      ∀ j : Nat, blk.getD j 0 =
        if c % B ≤ j ∧ j < c % B + n then buf (j - c % B)
        else (readBlock s B inum ((c / B : Nat) : Int)).getD j 0 := by
  have hgt : ¬ ((n : Int) > B) := by
    have : (n : Int) ≤ B := by exact_mod_cast hn
    omega
  have hq : Int.tdiv (c : Int) B = ((c / B : Nat) : Int) := (Int.ofNat_tdiv c B).symm
  have hr : Int.tmod (c : Int) B = ((c % B : Nat) : Int) := (Int.ofNat_tmod c B).symm
  have hv1 : ValidFd s1 fd inum ofte := ValidFd_congr s s1 fd inum ofte hfds hoft hv
  have htell : fsTell fd s1 = (Except.ok (c : Int), s1) := by
    unfold fsTell
    rw [bfsTell_ok s1 fd inum ofte hv1, hoft, hc]
  obtain ⟨blk, hcopy, hlen, hpt⟩ := copyLoop_spec (readBlock s B inum ((c / B : Nat) : Int))
    ((List.range 2048).map buf) (c % B) 0 n (by rw [readBlock_length]; exact hfit)
    (by rw [whole_length]; omega)
  have hw := bioWrite_ok s1 dbn blk hdbn
  have hv2 : ValidFd { s1 with disk := fun d j => if d = dbn then blk.getD j 0 else s1.disk d j }
      fd inum ofte := ValidFd_congr s1 _ fd inum ofte rfl rfl hv1
  have hseek := fsSeek_cur_ok _ fd inum ofte (n : Int) hv2 (by omega)
  refine ⟨blk, ?_, by rw [hlen, readBlock_length], ?_⟩
  · unfold fsWrite
    simp only [FSM.bind_apply, FSM.bind, bfsTell_ok s fd inum ofte hv,
      bfsFdToInum_ok s fd inum ofte hv, hc, hq, hr, hstage, hgt, if_false, htell,
      Int.toNat_ofNat]
    have hcopy' : copyLoop (readBlock s B inum ((c / B : Nat) : Int)) ((c % B : Nat) : Int)
        ((List.range 2048).map buf) 0 n = Except.ok blk := hcopy
    simp only [hcopy', liftE_ok, hw, hseek]
    simp only [hoft, hc]
    rfl
  · intro j
    rw [hpt j]
    by_cases hj : c % B ≤ j ∧ j < c % B + n
    · rw [if_pos hj, if_pos hj, Nat.zero_add, whole_getD buf _ (by omega)]
    · rw [if_neg hj, if_neg hj]

theorem readBlock_getD (s : State) (B : Nat) (inum fbn : Int) (j : Nat) (hj : j < B) :
    (readBlock s B inum fbn).getD j 0 =
      if 0 ≤ s.dbnOf inum fbn then s.disk (s.dbnOf inum fbn) j else 0 := by
  unfold readBlock
  split
  · simp [List.getElem?_range hj]
  · simp [List.getElem?_replicate, hj]

/-- C2: for an `fsWrite` with `0 ≤ n ≤ BYTESPERBLOCK` and
`(cursor mod BYTESPERBLOCK) + n ≤ BYTESPERBLOCK`, the call succeeds and the
block of FBN `cursor / BYTESPERBLOCK` afterwards holds the first `n` input
bytes at positions `[cursor mod BYTESPERBLOCK, cursor mod BYTESPERBLOCK + n)`
and, elsewhere, its previous content if the FBN was allocated, or zero if it is
newly allocated.  The `n` bytes lie in the 2048-byte staging buffer, as they
do for every block size up to 2048. -/
theorem fsWrite_single_block_merge (s : State) (BYTESPERBLOCK : Nat) (fd inum : Int)
    (ofte : Nat) (n : Int) (buf : Nat → Byte) (hv : ValidFd s fd inum ofte)
    (hc0 : 0 ≤ getCurs s.g_oft ofte) (h0 : 0 ≤ n) (hn : n ≤ BYTESPERBLOCK)
    (hfit : Int.tmod (getCurs s.g_oft ofte) BYTESPERBLOCK + n ≤ BYTESPERBLOCK)
    (h2048 : n ≤ 2048)
    (hfree : 0 ≤ s.dbnOf inum (Int.tdiv (getCurs s.g_oft ofte) BYTESPERBLOCK) ∨
      s.freeList ≠ []) :
    ∃ s', fsWrite BYTESPERBLOCK fd n buf s = (Except.ok 0, s') ∧
      0 ≤ s'.dbnOf inum (Int.tdiv (getCurs s.g_oft ofte) BYTESPERBLOCK) ∧
      ∀ j : Nat, j < BYTESPERBLOCK →
        (readBlock s' BYTESPERBLOCK inum
            (Int.tdiv (getCurs s.g_oft ofte) BYTESPERBLOCK)).getD j 0 =
          if Int.tmod (getCurs s.g_oft ofte) BYTESPERBLOCK ≤ j ∧
              (j : Int) < Int.tmod (getCurs s.g_oft ofte) BYTESPERBLOCK + n then
            buf ((j : Int) - Int.tmod (getCurs s.g_oft ofte) BYTESPERBLOCK).toNat
          else if 0 ≤ s.dbnOf inum (Int.tdiv (getCurs s.g_oft ofte) BYTESPERBLOCK) then
            s.disk (s.dbnOf inum (Int.tdiv (getCurs s.g_oft ofte) BYTESPERBLOCK)) j
          else 0 := by
  obtain ⟨c, hc⟩ := Int.eq_ofNat_of_zero_le hc0
  obtain ⟨m, rfl⟩ := Int.eq_ofNat_of_zero_le h0
  have hq : Int.tdiv (c : Int) BYTESPERBLOCK = ((c / BYTESPERBLOCK : Nat) : Int) :=
    (Int.ofNat_tdiv c BYTESPERBLOCK).symm
  have hr : Int.tmod (c : Int) BYTESPERBLOCK = ((c % BYTESPERBLOCK : Nat) : Int) :=
    (Int.ofNat_tmod c BYTESPERBLOCK).symm
  simp only [hc, hq, hr] at hfit hfree ⊢
  have hn' : m ≤ BYTESPERBLOCK := by exact_mod_cast hn
  have hfit' : c % BYTESPERBLOCK + m ≤ BYTESPERBLOCK := by exact_mod_cast hfit
  have h2048' : m ≤ 2048 := by exact_mod_cast h2048
  have hcond : ∀ j : Nat,
      (((c % BYTESPERBLOCK : Nat) : Int) ≤ j ∧
        (j : Int) < ((c % BYTESPERBLOCK : Nat) : Int) + (m : Int)) ↔
      (c % BYTESPERBLOCK ≤ j ∧ j < c % BYTESPERBLOCK + m) := by
    intro j
    constructor <;> rintro ⟨h1, h2⟩ <;> constructor <;> omega
  have hidx : ∀ j : Nat, ((j : Int) - ((c % BYTESPERBLOCK : Nat) : Int)).toNat
      = j - c % BYTESPERBLOCK := by
    intro j
    omega
  by_cases halloc : 0 ≤ s.dbnOf inum ((c / BYTESPERBLOCK : Nat) : Int)
  · obtain ⟨blk, hw, hlen, hpt⟩ := fsWrite_single s BYTESPERBLOCK fd inum ofte m c buf hv hc
      hn' hfit' h2048' s _ (stageBlock_alloc s BYTESPERBLOCK inum _ halloc) halloc rfl rfl
    refine ⟨_, hw, halloc, ?_⟩
    intro j hj
    rw [readBlock_getD _ _ _ _ j hj]
    simp only [halloc, if_true, hpt j, hcond j, hidx j]
    rw [readBlock_getD _ _ _ _ j hj, if_pos halloc]
  · have hne : s.freeList ≠ [] := by
      rcases hfree with h | h
      · exact absurd h halloc
      · exact h
    obtain ⟨d, rest, hfl⟩ := List.exists_cons_of_ne_nil hne
    have hneg : s.dbnOf inum ((c / BYTESPERBLOCK : Nat) : Int) < 0 := by omega
    obtain ⟨blk, hw, hlen, hpt⟩ := fsWrite_single s BYTESPERBLOCK fd inum ofte m c buf hv hc
      hn' hfit' h2048' _ _ (stageBlock_fresh s BYTESPERBLOCK inum _ d rest hneg hfl)
      (Int.ofNat_nonneg d) rfl rfl
    refine ⟨_, hw, ?_, ?_⟩
    · simp
    · intro j hj
      rw [readBlock_getD _ _ _ _ j hj]
      simp only [and_self, if_true, Int.ofNat_nonneg, hpt j, hcond j, hidx j, halloc, if_false]
      rw [readBlock_getD _ _ _ _ j hj, if_neg halloc]

/-- Witness of C2: 10 bytes written at offset 5 of a block filled with the byte
85; afterwards positions 5 to 14 hold the input and every other position
holds 85. -/
theorem fsWrite_single_block_merge_witness :
    ∃ s', fsWrite 512 3 10 (fun i => (i : Int) + 1) patternState = (Except.ok 0, s') ∧
      0 ≤ s'.dbnOf 7 0 ∧
      ∀ j : Nat, j < 512 →
        (readBlock s' 512 7 0).getD j 0 =
          if (5 : Int) ≤ j ∧ (j : Int) < 5 + 10 then
            (fun i : Nat => (i : Int) + 1) ((j : Int) - 5).toNat
          else if (0 : Int) ≤ 10 then 85 else 0 :=
  fsWrite_single_block_merge patternState 512 3 7 0 10 (fun i => (i : Int) + 1) ⟨rfl, rfl⟩
    (by decide) (by decide) (by decide) (by decide) (by decide) (Or.inl (by decide))

theorem bfsFbnToDbn_ok (s : State) (inum fbn : Int) :
    bfsFbnToDbn inum fbn s = (Except.ok (s.dbnOf inum fbn), s) := rfl

/-- The `while` loop of `fsWrite` over `k` whole blocks that are all
allocated, on distinct disk blocks: it ends with the remainder `r`, changes
nothing but the `k` disk blocks, and leaves the input bytes in them. -/
theorem writeMiddle_spec (B : Nat) (inum : Int) (n : Nat) (whole : List Byte) (hB : 0 < B) :
    ∀ (k fuel : Nat) (fbn : Int) (p r : Nat) (blk : List Byte) (s : State),
      k ≤ fuel → p + k * B + r = n → 1 ≤ r → r ≤ B → blk.length = B →
      p + k * B ≤ whole.length →
      (∀ i : Nat, 1 ≤ i → i ≤ k → 0 ≤ s.dbnOf inum (fbn + i)) →
      (∀ i i' : Nat, 1 ≤ i → i ≤ k → 1 ≤ i' → i' ≤ k → i ≠ i' →
        s.dbnOf inum (fbn + i) ≠ s.dbnOf inum (fbn + i')) →
      ∃ (blk' : List Byte) (s' : State),
        writeMiddle B inum n whole fuel fbn ((n : Int) - p) blk s
          = (Except.ok (fbn + k, ((r : Nat) : Int), blk'), s') ∧
        s'.fds = s.fds ∧ s'.g_oft = s.g_oft ∧ s'.size = s.size ∧ s'.dbnOf = s.dbnOf ∧
        s'.freeList = s.freeList ∧
        (∀ i : Nat, 1 ≤ i → i ≤ k → ∀ j : Nat, j < B →
          s'.disk (s.dbnOf inum (fbn + i)) j = whole.getD (p + (i - 1) * B + j) 0) ∧
        (∀ d, (∀ i : Nat, 1 ≤ i → i ≤ k → d ≠ s.dbnOf inum (fbn + i)) → s'.disk d = s.disk d)
  | 0, fuel, fbn, p, r, blk, s, _, hsum, _, hr, _, _, _, _ => by
    have hrem : (n : Int) - p = r := by omega
    have hle : ¬ ((r : Int) > B) := by omega
    refine ⟨blk, s, ?_, rfl, rfl, rfl, rfl, rfl, ?_, fun d _ => rfl⟩
    · rw [hrem]
      cases fuel with
      | zero => simp [writeMiddle, hle, FSM.pure]
      | succ f => simp [writeMiddle, hle, FSM.pure]
    · intro i h1 h2
      omega
  | k + 1, 0, _, _, _, _, _, hf, _, _, _, _, _, _, _ => by omega
  | k + 1, f + 1, fbn, p, r, blk, s, hf, hsum, hr1, hr, hlen, hw, halloc, hinj => by
    have hmul : (k + 1) * B = k * B + B := by ring
    have hgt : (n : Int) - p > B := by
      have : ((p + (k + 1) * B + r : Nat) : Int) = n := by exact_mod_cast hsum
      push_cast at this
      have hk : (0 : Int) ≤ (k : Int) * B := by positivity
      nlinarith
    obtain ⟨blk1, hcopy, hlen1, hpt1⟩ := copyLoop_spec blk whole 0 p B (by omega) (by omega)
    have hfill : fillWhole B n whole (blk, (n : Int) - p)
        = Except.ok (blk1, (n : Int) - ((p + B : Nat) : Int)) := by
      rw [fillWhole_eq]
      have e : (n : Int) - ((n : Int) - p) = p := by omega
      rw [e]
      have hcopy' : copyLoop blk 0 whole (p : Int) B = Except.ok blk1 := hcopy
      rw [hcopy']
      simp only [Except.map]
      congr 2
      push_cast
      omega
    have hd1 : 0 ≤ s.dbnOf inum (fbn + 1) := by
      have := halloc 1 (le_refl _) (by omega)
      simpa using this
    obtain ⟨blk', s', hrec, hfds, hoft, hsize, hdbn, hfree, hdisk, hother⟩ :=
      writeMiddle_spec B inum n whole hB k f (fbn + 1) (p + B) r blk1
        { s with disk := fun d j => if d = s.dbnOf inum (fbn + 1) then blk1.getD j 0
                                     else s.disk d j }
        (by omega) (by omega) hr1 hr (by omega) (by omega)
        (by
          intro i h1 h2
          have := halloc (i + 1) (by omega) (by omega)
          have e : fbn + 1 + (i : Int) = fbn + ((i + 1 : Nat) : Int) := by push_cast; ring
          rw [e]
          exact this)
        (by
          intro i i' h1 h2 h1' h2' hne
          have := hinj (i + 1) (i' + 1) (by omega) (by omega) (by omega) (by omega) (by omega)
          have e : fbn + 1 + (i : Int) = fbn + ((i + 1 : Nat) : Int) := by push_cast; ring
          have e' : fbn + 1 + (i' : Int) = fbn + ((i' + 1 : Nat) : Int) := by push_cast; ring
          rw [e, e']
          exact this)
    refine ⟨blk', s', ?_, hfds, hoft, hsize, hdbn, hfree, ?_, ?_⟩
    · rw [writeMiddle]
      simp only [hgt, if_true, FSM.bind_apply, FSM.bind, hfill, liftE_ok, bfsFbnToDbn_ok,
        bioWrite_ok s _ blk1 hd1]
      rw [hrec]
      have e : fbn + 1 + (k : Int) = fbn + ((k + 1 : Nat) : Int) := by push_cast; ring
      rw [e]
    · intro i h1 h2 j hj
      by_cases hi : i = 1
      · subst hi
        have hne : ∀ i' : Nat, 1 ≤ i' → i' ≤ k →
            s.dbnOf inum (fbn + ((1 : Nat) : Int)) ≠ s.dbnOf inum (fbn + 1 + (i' : Int)) := by
          intro i' h1' h2'
          have := hinj 1 (i' + 1) (le_refl _) (by omega) (by omega) (by omega) (by omega)
          have e' : fbn + 1 + (i' : Int) = fbn + ((i' + 1 : Nat) : Int) := by push_cast; ring
          rw [e']
          exact this
        rw [hother _ hne]
        have e1 : fbn + ((1 : Nat) : Int) = fbn + 1 := by simp
        simp only [e1, if_true]
        rw [hpt1 j, if_pos (by omega)]
        simp
      · obtain ⟨i0, rfl⟩ : ∃ i0, i = i0 + 1 := ⟨i - 1, by omega⟩
        have := hdisk i0 (by omega) (by omega) j hj
        have e : fbn + 1 + (i0 : Int) = fbn + ((i0 + 1 : Nat) : Int) := by push_cast; ring
        rw [e] at this
        rw [this]
        congr 1
        have : i0 + 1 - 1 = (i0 - 1) + 1 := by omega
        rw [this]
        ring
    · intro d hd
      have hne : ∀ i' : Nat, 1 ≤ i' → i' ≤ k → d ≠ s.dbnOf inum (fbn + 1 + (i' : Int)) := by
        intro i' h1' h2'
        have := hd (i' + 1) (by omega) (by omega)
        have e' : fbn + 1 + (i' : Int) = fbn + ((i' + 1 : Nat) : Int) := by push_cast; ring
        rw [e']
        exact this
      rw [hother d hne]
      have hd1' := hd 1 (le_refl _) (by omega)
      have e1 : fbn + ((1 : Nat) : Int) = fbn + 1 := by simp
      rw [e1] at hd1'
      funext j
      simp [hd1']

/-- The multi-block branch of `fsWrite` up to the last block: from the outcome
of staging the first block, with `k` whole blocks in the middle, all allocated
on disk blocks distinct from each other and from the first, the call
continues with `writeLast` in a state where the first `k + 1` blocks hold the
input. -/
theorem fsWrite_multi_prefix (s : State) (B : Nat) (fd inum : Int) (ofte n c : Nat)
    (buf : Nat → Byte) (hv : ValidFd s fd inum ofte) (hc : getCurs s.g_oft ofte = c)
    (hB : 0 < B) (hn : B < n) (k r : Nat) (hsum : (B - c % B) + k * B + r = n)
    (hr1 : 1 ≤ r) (hr : r ≤ B) (h2048 : (B - c % B) + k * B ≤ 2048)
    (s1 : State) (dbn : Int)
    (hstage : stageBlock B inum ((c / B : Nat) : Int) s
      = (Except.ok (dbn, readBlock s B inum ((c / B : Nat) : Int)), s1))
    (hdbn : 0 ≤ dbn) (hfds : s1.fds = s.fds) (hoft : s1.g_oft = s.g_oft)
    (halloc : ∀ i : Nat, 1 ≤ i → i ≤ k → 0 ≤ s1.dbnOf inum (((c / B : Nat) : Int) + i))
    (hinj : ∀ i i' : Nat, 1 ≤ i → i ≤ k → 1 ≤ i' → i' ≤ k → i ≠ i' →
      s1.dbnOf inum (((c / B : Nat) : Int) + i) ≠ s1.dbnOf inum (((c / B : Nat) : Int) + i'))
    (hfirst : ∀ i : Nat, 1 ≤ i → i ≤ k → dbn ≠ s1.dbnOf inum (((c / B : Nat) : Int) + i)) :
    ∃ s3 : State,
      fsWrite B fd n buf s =
        (do
          writeLast B inum n ((List.range 2048).map buf) (((c / B : Nat) : Int) + k) r
          let _ ← fsSeek fd n SEEK_CUR
          pure 0 : FSM Int) s3 ∧
      s3.fds = s.fds ∧ s3.g_oft = s.g_oft ∧ s3.size = s1.size ∧ s3.dbnOf = s1.dbnOf ∧
      s3.freeList = s1.freeList ∧
      (∀ j : Nat, j < B → s3.disk dbn j =
        if c % B ≤ j then buf (j - c % B)
        else (readBlock s B inum ((c / B : Nat) : Int)).getD j 0) ∧
      (∀ i : Nat, 1 ≤ i → i ≤ k → ∀ j : Nat, j < B →
        s3.disk (s1.dbnOf inum (((c / B : Nat) : Int) + i)) j
          = buf ((B - c % B) + (i - 1) * B + j)) ∧
      (∀ d, d ≠ dbn → (∀ i : Nat, 1 ≤ i → i ≤ k → d ≠ s1.dbnOf inum (((c / B : Nat) : Int) + i)) →
        s3.disk d = s1.disk d) := by
  have hgt : (n : Int) > B := by exact_mod_cast hn
  have hq : Int.tdiv (c : Int) B = ((c / B : Nat) : Int) := (Int.ofNat_tdiv c B).symm
  have hrm : Int.tmod (c : Int) B = ((c % B : Nat) : Int) := (Int.ofNat_tmod c B).symm
  have hmod : c % B < B := Nat.mod_lt c hB
  have hv1 : ValidFd s1 fd inum ofte := ValidFd_congr s s1 fd inum ofte hfds hoft hv
  have htell : fsTell fd s1 = (Except.ok (c : Int), s1) := by
    unfold fsTell
    rw [bfsTell_ok s1 fd inum ofte hv1, hoft, hc]
  have hK : ((B : Int) - ((c % B : Nat) : Int)).toNat = B - c % B := by omega
  obtain ⟨blk1, hcopy, hlen1, hpt1⟩ := copyLoop_spec (readBlock s B inum ((c / B : Nat) : Int))
    ((List.range 2048).map buf) (c % B) 0 (B - c % B) (by rw [readBlock_length]; omega)
    (by rw [whole_length]; omega)
  have hlen1' : blk1.length = B := by rw [hlen1, readBlock_length]
  have hfill : fillFirst B ((c % B : Nat) : Int) ((List.range 2048).map buf)
      (readBlock s B inum ((c / B : Nat) : Int), (n : Int))
      = Except.ok (blk1, (n : Int) - ((B - c % B : Nat) : Int)) := by
    rw [fillFirst_eq, hK]
    have hcopy' : copyLoop (readBlock s B inum ((c / B : Nat) : Int)) ((c % B : Nat) : Int)
        ((List.range 2048).map buf) 0 (B - c % B) = Except.ok blk1 := hcopy
    rw [hcopy']
    rfl
  obtain ⟨blk', s3, hmid, hfds3, hoft3, hsize3, hdbn3, hfree3, hdisk3, hother3⟩ :=
    writeMiddle_spec B inum n ((List.range 2048).map buf) hB k n ((c / B : Nat) : Int)
      (B - c % B) r blk1
      { s1 with disk := fun d j => if d = dbn then blk1.getD j 0 else s1.disk d j }
      (by
        have : k * 1 ≤ k * B := Nat.mul_le_mul_left k hB
        omega)
      hsum hr1 hr hlen1' (by rw [whole_length]; exact h2048) halloc hinj
  refine ⟨s3, ?_, hfds3.trans hfds, hoft3.trans hoft, hsize3, hdbn3, hfree3, ?_, ?_, ?_⟩
  · unfold fsWrite
    simp only [FSM.bind_apply, FSM.bind, bfsTell_ok s fd inum ofte hv,
      bfsFdToInum_ok s fd inum ofte hv, hc, hq, hrm, hstage, hgt, if_true, htell,
      Int.toNat_ofNat, hfill, liftE_ok, bioWrite_ok s1 dbn blk1 hdbn, hmid]
  · intro j hj
    have hne : ∀ i : Nat, 1 ≤ i → i ≤ k → dbn ≠ s1.dbnOf inum (((c / B : Nat) : Int) + i) :=
      hfirst
    rw [hother3 dbn hne]
    simp only [if_true]
    rw [hpt1 j]
    by_cases hj' : c % B ≤ j
    · rw [if_pos (by omega), if_pos hj', Nat.zero_add, whole_getD buf _ (by omega)]
    · rw [if_neg (by omega), if_neg hj']
  · intro i h1 h2 j hj
    rw [hdisk3 i h1 h2 j hj]
    apply whole_getD
    have : (i - 1) * B + B ≤ k * B := by
      have : (i - 1 + 1) * B ≤ k * B := Nat.mul_le_mul_right B (by omega)
      have e : (i - 1 + 1) * B = (i - 1) * B + B := by ring
      omega
    omega
  · intro d hd hdm
    rw [hother3 d hdm]
    funext j
    simp [hd]

/-- The last block of the multi-block branch, from the outcome of staging
it: its first `r` bytes become the last `r` input bytes. -/
theorem writeLast_spec (s3 : State) (B : Nat) (inum : Int) (n : Nat) (buf : Nat → Byte)
    (fbn : Int) (r : Nat) (hr : r ≤ B) (hrn : r ≤ n) (h2048 : n ≤ 2048)
    (s4 : State) (dbn : Int)
    (hstage : stageBlock B inum (fbn + 1) s3
      = (Except.ok (dbn, readBlock s3 B inum (fbn + 1)), s4))
    (hdbn : 0 ≤ dbn) :
    ∃ blk : List Byte,
      writeLast B inum n ((List.range 2048).map buf) fbn r s3 =
        (Except.ok (),
          { s4 with disk := fun d j => if d = dbn then blk.getD j 0 else s4.disk d j }) ∧
      ∀ j : Nat, blk.getD j 0 =
        if j < r then buf (n - r + j) else (readBlock s3 B inum (fbn + 1)).getD j 0 := by
  obtain ⟨blk, hcopy, _, hpt⟩ := copyLoop_spec (readBlock s3 B inum (fbn + 1))
    ((List.range 2048).map buf) 0 (n - r) r (by rw [readBlock_length]; omega)
    (by rw [whole_length]; omega)
  have hcopy' : copyLoop (readBlock s3 B inum (fbn + 1)) 0 ((List.range 2048).map buf)
      ((n : Int) - (r : Int)) r = Except.ok blk := by
    have e : (n : Int) - (r : Int) = ((n - r : Nat) : Int) := by omega
    rw [e]
    exact hcopy
  refine ⟨blk, ?_, ?_⟩
  · unfold writeLast
    simp only [FSM.bind_apply, FSM.bind, hstage, Int.toNat_ofNat, hcopy', liftE_ok,
      bioWrite_ok s4 dbn blk hdbn]
  · intro j
    rw [hpt j]
    by_cases hj : j < r
    · rw [if_pos (by omega), if_pos hj, whole_getD buf _ (by omega), Nat.sub_zero]
    · rw [if_neg (by omega), if_neg hj]

/-- The last block of the multi-block branch when the input bytes for it lie
beyond the 2048 bytes of `wholeBuffer`: the copy loop leaves the array at its
first iteration. -/
theorem writeLast_overrun (s3 : State) (B : Nat) (inum : Int) (n : Nat) (whole : List Byte)
    (fbn : Int) (r : Nat) (hr1 : 1 ≤ r) (hrn : r ≤ n) (hw : whole.length ≤ n - r)
    (s4 : State) (dbn : Int) (blk0 : List Byte)
    (hstage : stageBlock B inum (fbn + 1) s3 = (Except.ok (dbn, blk0), s4)) :
    writeLast B inum n whole fbn r s3 = (Except.error Err.OutOfBounds, s4) := by
  obtain ⟨r0, rfl⟩ : ∃ r0, r = r0 + 1 := ⟨r - 1, by omega⟩
  have hfail : copyLoop blk0 0 whole ((n : Int) - ((r0 + 1 : Nat) : Int)) (r0 + 1)
      = Except.error Err.OutOfBounds := by
    unfold copyLoop
    apply forUp_fail_first
    rw [aget_out whole _ (by push_cast; omega)]
  unfold writeLast
  simp only [FSM.bind_apply, FSM.bind, hstage, Int.toNat_ofNat, hfail]
  rfl

/-- The multi-block branch of `fsWrite` when the block after the first is not
allocated and more than one block of input is left after the first: the
`while` loop asks the block store to write at the "unallocated" sentinel. -/
theorem fsWrite_multi_unalloc (s : State) (B : Nat) (fd inum : Int) (ofte n c : Nat)
    (buf : Nat → Byte) (hv : ValidFd s fd inum ofte) (hc : getCurs s.g_oft ofte = c)
    (hB : 0 < B) (hn : (B - c % B) + B < n) (h2048 : (B - c % B) + B ≤ 2048)
    (s1 : State) (dbn : Int)
    (hstage : stageBlock B inum ((c / B : Nat) : Int) s
      = (Except.ok (dbn, readBlock s B inum ((c / B : Nat) : Int)), s1))
    (hdbn : 0 ≤ dbn) (hfds : s1.fds = s.fds) (hoft : s1.g_oft = s.g_oft)
    (hun : s1.dbnOf inum (((c / B : Nat) : Int) + 1) < 0) :
    ∃ blk1 : List Byte,
      fsWrite B fd n buf s =
        (Except.error Err.BadBlock,
          { s1 with disk := fun d j => if d = dbn then blk1.getD j 0 else s1.disk d j }) := by
  have hmod : c % B < B := Nat.mod_lt c hB
  have hgt : (n : Int) > B := by omega
  have hq : Int.tdiv (c : Int) B = ((c / B : Nat) : Int) := (Int.ofNat_tdiv c B).symm
  have hrm : Int.tmod (c : Int) B = ((c % B : Nat) : Int) := (Int.ofNat_tmod c B).symm
  have hv1 : ValidFd s1 fd inum ofte := ValidFd_congr s s1 fd inum ofte hfds hoft hv
  have htell : fsTell fd s1 = (Except.ok (c : Int), s1) := by
    unfold fsTell
    rw [bfsTell_ok s1 fd inum ofte hv1, hoft, hc]
  have hK : ((B : Int) - ((c % B : Nat) : Int)).toNat = B - c % B := by omega
  obtain ⟨blk1, hcopy, hlen1, _⟩ := copyLoop_spec (readBlock s B inum ((c / B : Nat) : Int))
    ((List.range 2048).map buf) (c % B) 0 (B - c % B) (by rw [readBlock_length]; omega)
    (by rw [whole_length]; omega)
  have hlen1' : blk1.length = B := by rw [hlen1, readBlock_length]
  have hfill : fillFirst B ((c % B : Nat) : Int) ((List.range 2048).map buf)
      (readBlock s B inum ((c / B : Nat) : Int), (n : Int))
      = Except.ok (blk1, (n : Int) - ((B - c % B : Nat) : Int)) := by
    rw [fillFirst_eq, hK]
    have hcopy' : copyLoop (readBlock s B inum ((c / B : Nat) : Int)) ((c % B : Nat) : Int)
        ((List.range 2048).map buf) 0 (B - c % B) = Except.ok blk1 := hcopy
    rw [hcopy']
    rfl
  obtain ⟨blk2, hcopy2, _, _⟩ := copyLoop_spec blk1 ((List.range 2048).map buf) 0
    (B - c % B) B (by omega) (by rw [whole_length]; omega)
  have hfill2 : fillWhole B n ((List.range 2048).map buf)
      (blk1, (n : Int) - ((B - c % B : Nat) : Int))
      = Except.ok (blk2, (n : Int) - ((B - c % B : Nat) : Int) - (B : Int)) := by
    rw [fillWhole_eq]
    have e : (n : Int) - ((n : Int) - ((B - c % B : Nat) : Int)) = ((B - c % B : Nat) : Int) := by
      omega
    rw [e]
    have hcopy2' : copyLoop blk1 0 ((List.range 2048).map buf) ((B - c % B : Nat) : Int) B
        = Except.ok blk2 := hcopy2
    rw [hcopy2']
    rfl
  obtain ⟨f, hf⟩ : ∃ f, n = f + 1 := ⟨n - 1, by omega⟩
  have hgt2 : (n : Int) - ((B - c % B : Nat) : Int) > B := by omega
  refine ⟨blk1, ?_⟩
  unfold fsWrite
  simp only [FSM.bind_apply, FSM.bind, bfsTell_ok s fd inum ofte hv,
    bfsFdToInum_ok s fd inum ofte hv, hc, hq, hrm, hstage, hgt, if_true, htell,
    Int.toNat_ofNat, hfill, liftE_ok, bioWrite_ok s1 dbn blk1 hdbn]
  rw [hf, writeMiddle, ← hf]
  simp only [hgt2, if_true, FSM.bind_apply, FSM.bind, hfill2, liftE_ok, bfsFbnToDbn_ok]
  rw [bioWrite_bad _ _ _ hun]

/-- C3 at the failing input: on a fresh file with 512-byte blocks, a write of
1280 bytes (2.5 blocks) at cursor 0 allocates FBN 0 only; the `while` loop then
passes the "unallocated" sentinel of FBN 1 to the block store and the call
aborts, FBN 1 and FBN 2 still unallocated. -/
theorem fsWrite_fresh_two_and_a_half_blocks :
    ValidFd freshState 3 7 0 ∧ getCurs freshState.g_oft 0 = 0 ∧
    (∀ f : Int, freshState.dbnOf 7 f < 0) ∧
    (fsWrite 512 3 1280 (fun _ => 1) freshState).1 = Except.error Err.BadBlock ∧
    0 ≤ (fsWrite 512 3 1280 (fun _ => 1) freshState).2.dbnOf 7 0 ∧
    (fsWrite 512 3 1280 (fun _ => 1) freshState).2.dbnOf 7 1 < 0 ∧
    (fsWrite 512 3 1280 (fun _ => 1) freshState).2.dbnOf 7 2 < 0 := by
  obtain ⟨blk1, h⟩ := fsWrite_multi_unalloc freshState 512 3 7 0 1280 0 (fun _ => 1) ⟨rfl, rfl⟩
    rfl (by decide) (by decide) (by decide) _ _
    (stageBlock_fresh freshState 512 7 _ 10 [11, 12, 13] (by decide) rfl)
    (by decide) rfl rfl (by decide)
  have h' : fsWrite 512 3 1280 (fun _ => 1) freshState = _ := h
  refine ⟨⟨rfl, rfl⟩, rfl, fun f => by show (-1 : Int) < 0; decide, ?_, ?_, ?_, ?_⟩
  · rw [h']
  · rw [h']
    show (0 : Int) ≤ (if (7 : Int) = 7 ∧ (0 : Int) = ((0 / 512 : Nat) : Int) then
      ((10 : Nat) : Int) else freshState.dbnOf 7 0)
    decide
  · rw [h']
    show (if (7 : Int) = 7 ∧ (1 : Int) = ((0 / 512 : Nat) : Int) then
      ((10 : Nat) : Int) else freshState.dbnOf 7 1) < 0
    decide
  · rw [h']
    show (if (7 : Int) = 7 ∧ (2 : Int) = ((0 / 512 : Nat) : Int) then
      ((10 : Nat) : Int) else freshState.dbnOf 7 2) < 0
    decide

/-- C10 at the failing input: with 512-byte blocks and the FBNs 0 to 4
allocated, a write of 2049 bytes at cursor 0 fills four blocks from the 2048
bytes of `wholeBuffer` and then reads `wholeBuffer[2048]`, outside the array:
the byte for position 2048 of the file is not taken from the input. -/
theorem fsWrite_beyond_staging_buffer :
    ValidFd fiveBlockState 3 7 0 ∧ getCurs fiveBlockState.g_oft 0 = 0 ∧
    (∀ f : Int, 0 ≤ f → f ≤ 4 → 0 ≤ fiveBlockState.dbnOf 7 f) ∧
    (fsWrite 512 3 2049 (fun _ => 1) fiveBlockState).1 = Except.error Err.OutOfBounds := by
  have hd : ∀ f : Int, 0 ≤ f → f ≤ 4 → fiveBlockState.dbnOf 7 f = 10 + f := by
    intro f h0 h4
    simp [fiveBlockState, h0, h4]
  obtain ⟨s3, h, _, _, _, hdbn3, _, _, _, _⟩ := fsWrite_multi_prefix fiveBlockState 512 3 7 0
    2049 0 (fun _ => 1) ⟨rfl, rfl⟩ rfl (by decide) (by decide) 3 1 (by decide) (by decide)
    (by decide) (by decide) fiveBlockState _
    (stageBlock_alloc fiveBlockState 512 7 _ (by decide)) (by decide) rfl rfl
    (by
      intro i h1 h2
      rw [hd _ (by simp) (by simp; omega)]
      simp
      omega)
    (by
      intro i i' h1 h2 h1' h2' hne
      rw [hd _ (by simp) (by simp; omega), hd _ (by simp) (by simp; omega)]
      simp
      omega)
    (by
      intro i h1 h2
      rw [hd _ (by simp) (by simp), hd _ (by simp) (by simp; omega)]
      simp
      omega)
  have hlast := writeLast_overrun s3 512 7 2049 ((List.range 2048).map (fun _ => (1 : Byte)))
    (((0 / 512 : Nat) : Int) + (3 : Nat)) 1 (by decide) (by decide)
    (by rw [whole_length]) s3 _ _
    (stageBlock_alloc s3 512 7 _ (by rw [hdbn3]; decide))
  have h' : fsWrite 512 3 2049 (fun _ => 1) fiveBlockState = _ := h
  refine ⟨⟨rfl, rfl⟩, rfl, fun f h0 h4 => by rw [hd f h0 h4]; omega, ?_⟩
  rw [h']
  simp only [FSM.bind_apply, FSM.bind, hlast]

theorem list_ext_getD (l1 l2 : List Byte) (hl : l1.length = l2.length)
    (h : ∀ j : Nat, j < l1.length → l1.getD j 0 = l2.getD j 0) : l1 = l2 := by
  apply List.ext_getElem hl
  intro j h1 h2
  have := h j h1
  simpa [List.getD_eq_getElem?_getD, List.getElem?_eq_getElem h1,
    List.getElem?_eq_getElem h2] using this

theorem fileByte_block (s : State) (B : Nat) (inum : Int) (f j : Nat) (hj : j < B) :
    fileByte s B inum (f * B + j) = (readBlock s B inum (f : Int)).getD j 0 := by
  unfold fileByte
  have e : f * B + j = B * f + j := by ring
  obtain ⟨e1, e2⟩ := div_mod_block B f j hj
  rw [e, e1, e2]

/-- Reading back: when the first `n` bytes of the file are `buf`, a seek to 0
and a read of `n` bytes store exactly these bytes; the count is `n` for
`n ≤ BYTESPERBLOCK` and otherwise `n` minus the number of zero bytes in block
`n / BYTESPERBLOCK - 1`. -/
theorem readBack (t : State) (B D : Nat) (fd inum : Int) (ofte n : Nat) (buf : Nat → Byte)
    (hv : ValidFd t fd inum ofte) (hB : 0 < B) (hBD : B ≤ D) (hD : n ≤ D)
    (hfile : ∀ j : Nat, j < n → fileByte t B inum j = buf j) :
    ∃ (t2 t3 : State) (r : Int) (out : List Byte),
      fsSeek fd 0 SEEK_SET t = (Except.ok 0, t2) ∧
      fsRead B D fd n t2 = (Except.ok (r, out), t3) ∧
      out = (List.range n).map buf ∧
      (n ≤ B → r = n) ∧
      (B < n → r = (n : Int) -
        ((((List.range B).map (fun j => buf ((n / B - 1) * B + j))).count 0 : Nat) : Int)) := by
  have hseek := fsSeek_set_ok t fd inum ofte 0 hv (le_refl _)
  have hv2 : ValidFd { t with g_oft := setCurs t.g_oft ofte 0 } fd inum ofte :=
    ValidFd_setCurs t fd inum ofte ofte 0 hv
  have hcur : getCurs (setCurs t.g_oft ofte 0) ofte = 0 :=
    getCurs_setCurs_same t.g_oft ofte 0 (findOFTE_lt _ _ _ hv.2)
  have hrb : ∀ f : Int, readBlock { t with g_oft := setCurs t.g_oft ofte 0 } B inum f
      = readBlock t B inum f := fun f => rfl
  by_cases hn : n ≤ B
  · have hread := fsRead_single _ B D fd inum ofte n hv2 hn hBD
    refine ⟨_, _, _, _, hseek, hread, ?_, fun _ => rfl, fun h => by omega⟩
    apply list_ext_getD
    · simp [readBlock_length, hn]
    · intro j hj
      have hj' : j < n := by
        simp [readBlock_length] at hj
        omega
      have e0 : Int.tdiv (getCurs (setCurs t.g_oft ofte 0) ofte) (B : Int) = ((0 : Nat) : Int) := by
        rw [hcur]
        simp
      simp only [e0, hrb]
      have hf := hfile j hj'
      have hb := fileByte_block t B inum 0 j (by omega)
      rw [Nat.zero_mul, Nat.zero_add] at hb
      rw [hb] at hf
      simp only [List.getD_eq_getElem?_getD, List.getElem?_take_of_lt hj'] at hf ⊢
      rw [hf]
      simp [List.getElem?_range hj']
  · obtain ⟨out, hread, hlen, hpt⟩ := fsRead_multi _ B D fd inum ofte n hv2 hB (by omega) hD
    have e0 : Int.tdiv (getCurs (setCurs t.g_oft ofte 0) ofte) (B : Int) = 0 := by
      rw [hcur]
      simp
    have hq1 : 1 ≤ n / B := (Nat.one_le_div_iff hB).mpr (by omega)
    have hqB : n / B * B ≤ n := Nat.div_mul_le_self n B
    simp only [e0, hrb, Int.zero_add] at hread hpt
    have hblk : readBlock t B inum (((n / B : Nat) : Int) - 1)
        = (List.range B).map (fun j => buf ((n / B - 1) * B + j)) := by
      have ec : ((n / B : Nat) : Int) - 1 = ((n / B - 1 : Nat) : Int) := by omega
      rw [ec]
      apply list_ext_getD
      · simp [readBlock_length]
      · intro j hj
        rw [readBlock_length] at hj
        rw [← fileByte_block t B inum (n / B - 1) j hj, hfile _ (by
          have : (n / B - 1) * B + B = n / B * B := by
            have : n / B - 1 + 1 = n / B := by omega
            calc (n / B - 1) * B + B = (n / B - 1 + 1) * B := by ring
              _ = n / B * B := by rw [this]
          omega)]
        simp [List.getElem?_range hj]
    rw [hblk] at hread
    refine ⟨_, _, _, out, hseek, hread, ?_, fun h => by omega, fun _ => rfl⟩
    apply list_ext_getD
    · simp [hlen]
    · intro j hj
      rw [hlen] at hj
      rw [hpt j hj]
      have := hfile j hj
      unfold fileByte at this
      rw [this]
      simp [List.getElem?_range hj]

/-- A write of at most one block at cursor 0 of a fresh file: the call
succeeds and the file starts with the input bytes. -/
theorem fsWrite_fresh_one_block (s : State) (B : Nat) (fd inum : Int) (ofte n : Nat)
    (buf : Nat → Byte) (hv : ValidFd s fd inum ofte) (hc : getCurs s.g_oft ofte = 0)
    (hn : n ≤ B) (h2048 : n ≤ 2048) (hfresh : s.dbnOf inum 0 < 0)
    (d0 : Nat) (rest : List Nat) (hfl : s.freeList = d0 :: rest) :
    ∃ s' : State, fsWrite B fd n buf s = (Except.ok 0, s') ∧ ValidFd s' fd inum ofte ∧
      ∀ j : Nat, j < n → fileByte s' B inum j = buf j := by
  have hfresh' : s.dbnOf inum ((0 / B : Nat) : Int) < 0 := by simpa using hfresh
  obtain ⟨blk, hw, hlen, hpt⟩ := fsWrite_single s B fd inum ofte n 0 buf hv (by simpa using hc)
    hn (by simpa using hn) h2048 _ _ (stageBlock_fresh s B inum _ d0 rest hfresh' hfl)
    (Int.ofNat_nonneg d0) rfl rfl
  refine ⟨_, hw, ⟨hv.1, ?_⟩, ?_⟩
  · show findOFTE (setCurs s.g_oft ofte _) inum = some ofte
    rw [findOFTE_setCurs]
    exact hv.2
  · intro j hj
    have hjB : j < B := by omega
    unfold fileByte
    rw [Nat.div_eq_of_lt hjB, Nat.mod_eq_of_lt hjB, readBlock_getD _ _ _ _ j hjB]
    simp only [Nat.zero_div, Nat.cast_zero, and_self, if_true, Int.ofNat_nonneg]
    rw [hpt j, if_pos (by simp; omega)]
    simp

/-- The last block of the multi-block branch when it is not allocated yet and
`d1` heads the free list: the block gets `d1`, and `d1` holds the last `r`
input bytes followed by zeros. -/
theorem writeLast_fresh (s3 : State) (B : Nat) (inum : Int) (n : Nat) (buf : Nat → Byte)
    (fbn : Int) (r : Nat) (hr : r ≤ B) (hrn : r ≤ n) (h2048 : n ≤ 2048)
    (d1 : Nat) (rest : List Nat) (hun : s3.dbnOf inum (fbn + 1) < 0)
    (hfl : s3.freeList = d1 :: rest) :
    ∃ s5 : State,
      writeLast B inum n ((List.range 2048).map buf) fbn r s3 = (Except.ok (), s5) ∧
      s5.fds = s3.fds ∧ s5.g_oft = s3.g_oft ∧ s5.freeList = rest ∧
      s5.dbnOf inum (fbn + 1) = d1 ∧
      (∀ f : Int, f ≠ fbn + 1 → s5.dbnOf inum f = s3.dbnOf inum f) ∧
      (∀ j : Nat, j < B → s5.disk d1 j = if j < r then buf (n - r + j) else 0) ∧
      (∀ d : Int, d ≠ d1 → s5.disk d = s3.disk d) := by
  obtain ⟨blk, hlast, hpt⟩ := writeLast_spec s3 B inum n buf fbn r hr hrn h2048 _ _
    (stageBlock_fresh s3 B inum _ d1 rest hun hfl) (Int.ofNat_nonneg d1)
  refine ⟨_, hlast, rfl, rfl, rfl, ?_, ?_, ?_, ?_⟩
  · simp
  · intro f hf
    simp [hf]
  · intro j hj
    simp only [if_true]
    rw [hpt j]
    by_cases hjr : j < r
    · rw [if_pos hjr, if_pos hjr]
    · rw [if_neg hjr, if_neg hjr, readBlock_getD _ _ _ _ j hj, if_neg (by omega)]
  · intro d hd
    funext j
    simp [hd]

/-- The last block of the multi-block branch when it is allocated: its disk
block holds the last `r` input bytes followed by its previous content. -/
theorem writeLast_alloc (s3 : State) (B : Nat) (inum : Int) (n : Nat) (buf : Nat → Byte)
    (fbn : Int) (r : Nat) (hr : r ≤ B) (hrn : r ≤ n) (h2048 : n ≤ 2048)
    (hal : 0 ≤ s3.dbnOf inum (fbn + 1)) :
    ∃ s5 : State,
      writeLast B inum n ((List.range 2048).map buf) fbn r s3 = (Except.ok (), s5) ∧
      s5.fds = s3.fds ∧ s5.g_oft = s3.g_oft ∧ s5.freeList = s3.freeList ∧
      s5.dbnOf = s3.dbnOf ∧ s5.size = s3.size ∧
      (∀ j : Nat, j < B → s5.disk (s3.dbnOf inum (fbn + 1)) j =
        if j < r then buf (n - r + j) else s3.disk (s3.dbnOf inum (fbn + 1)) j) ∧
      (∀ d : Int, d ≠ s3.dbnOf inum (fbn + 1) → s5.disk d = s3.disk d) := by
  obtain ⟨blk, hlast, hpt⟩ := writeLast_spec s3 B inum n buf fbn r hr hrn h2048 _ _
    (stageBlock_alloc s3 B inum _ hal) hal
  refine ⟨_, hlast, rfl, rfl, rfl, rfl, rfl, ?_, ?_⟩
  · intro j hj
    simp only [if_true]
    rw [hpt j]
    by_cases hjr : j < r
    · rw [if_pos hjr, if_pos hjr]
    · rw [if_neg hjr, if_neg hjr, readBlock_getD _ _ _ _ j hj, if_pos hal]
  · intro d hd
    funext j
    simp [hd]

/-- A write of more than one and at most two blocks at cursor 0 of a fresh
file, with two distinct free disk blocks at hand: the call succeeds and the
file starts with the input bytes. -/
theorem fsWrite_fresh_two_blocks (s : State) (B : Nat) (fd inum : Int) (ofte n : Nat)
    (buf : Nat → Byte) (hv : ValidFd s fd inum ofte) (hc : getCurs s.g_oft ofte = 0)
    (hB : 0 < B) (hn1 : B < n) (hn2 : n ≤ 2 * B) (h2048 : n ≤ 2048)
    (hfresh0 : s.dbnOf inum 0 < 0) (hfresh1 : s.dbnOf inum 1 < 0)
    (d0 d1 : Nat) (rest : List Nat) (hfl : s.freeList = d0 :: d1 :: rest) (hd : d0 ≠ d1) :
    ∃ s' : State, fsWrite B fd n buf s = (Except.ok 0, s') ∧ ValidFd s' fd inum ofte ∧
      ∀ j : Nat, j < n → fileByte s' B inum j = buf j := by
  have hfresh' : s.dbnOf inum ((0 / B : Nat) : Int) < 0 := by simpa using hfresh0
  obtain ⟨s3, hw, hfds3, hoft3, _, hdbn3, hfree3, hdisk0, _, _⟩ :=
    fsWrite_multi_prefix s B fd inum ofte n 0 buf hv (by simpa using hc) hB hn1 0 (n - B)
      (by simp; omega) (by omega) (by omega) (by simp; omega) _ _
      (stageBlock_fresh s B inum _ d0 (d1 :: rest) hfresh' hfl) (Int.ofNat_nonneg d0) rfl rfl
      (fun i h1 h2 => by omega) (fun i i' h1 h2 _ _ _ => by omega) (fun i h1 h2 => by omega)
  simp only [Nat.zero_div, Nat.cast_zero, Int.add_zero, Nat.zero_mod, Nat.zero_le, if_true,
    Nat.sub_zero] at hw hdbn3 hfree3 hdisk0
  have h30 : s3.dbnOf inum 0 = d0 := by
    rw [hdbn3]
    simp
  have hun : s3.dbnOf inum ((0 : Int) + 1) < 0 := by
    rw [hdbn3]
    show (if inum = inum ∧ (0 : Int) + 1 = 0 then (d0 : Int) else s.dbnOf inum (0 + 1)) < 0
    rw [if_neg (by omega)]
    simpa using hfresh1
  obtain ⟨s5, hlast, hfds5, hoft5, _, hdbn5, hdbn5', hdisk5, hother5⟩ :=
    writeLast_fresh s3 B inum n buf 0 (n - B) (by omega) (by omega) h2048 d1 rest hun hfree3
  have hcast : ((n - B : Nat) : Int) = (n : Int) - B := by omega
  have hv5 : ValidFd s5 fd inum ofte :=
    ValidFd_congr s s5 fd inum ofte (hfds5.trans hfds3) (hoft5.trans hoft3) hv
  have hseek := fsSeek_cur_ok s5 fd inum ofte (n : Int) hv5 (by omega)
  have hne : (d0 : Int) ≠ (d1 : Int) := by exact_mod_cast hd
  refine ⟨{ s5 with g_oft := setCurs s5.g_oft ofte (wrap32 (getCurs s5.g_oft ofte + (n : Int))) },
    ?_, ValidFd_setCurs _ fd inum ofte ofte _ hv5, ?_⟩
  · rw [hw]
    simp only [FSM.bind_apply, FSM.bind]
    rw [hlast]
    simp only [hseek]
    rfl
  · intro j hj
    by_cases hjB : j < B
    · unfold fileByte
      rw [Nat.div_eq_of_lt hjB, Nat.mod_eq_of_lt hjB, readBlock_getD _ _ _ _ j hjB]
      have e0 : s5.dbnOf inum ((0 : Nat) : Int) = d0 := by
        rw [Nat.cast_zero, hdbn5' 0 (by omega), h30]
      simp only [e0, Int.ofNat_nonneg, if_true]
      rw [hother5 _ hne, hdisk0 j hjB]
    · obtain ⟨j', rfl⟩ : ∃ j', j = 1 * B + j' := ⟨j - B, by omega⟩
      have hj' : j' < B := by omega
      rw [fileByte_block _ B inum 1 j' hj', readBlock_getD _ _ _ _ j' hj']
      have e1 : s5.dbnOf inum ((1 : Nat) : Int) = d1 := by
        have : ((1 : Nat) : Int) = (0 : Int) + 1 := by simp
        rw [this, hdbn5]
      simp only [e1, Int.ofNat_nonneg, if_true]
      rw [hdisk5 j' hj', if_pos (by omega)]
      congr 1
      omega

set_option maxRecDepth 100000 in
/-- The first block of the input used against C1 holds exactly one zero byte. -/
theorem interiorZero_count :
    List.count (0 : Byte)
      (List.map (fun j : Nat => if (513 / 512 - 1) * 512 + j = 0 then (0 : Byte) else 1)
        (List.range 512)) = 1 := by
  decide

/-- C1 at the failing input: on a fresh file with 512-byte blocks, 513 bytes
are written whose first byte is 0 and whose other bytes, the trailing ones
included, are 1.  The read after the seek stores the 513 input bytes but
returns 512. -/
theorem roundTrip_interior_zero :
    ValidFd freshState 3 7 0 ∧ getCurs freshState.g_oft 0 = 0 ∧
    (∀ f : Int, freshState.dbnOf 7 f < 0) ∧
    (fun i : Nat => if i = 0 then (0 : Byte) else 1) 512 ≠ 0 ∧
    ∃ (s1 s2 s3 : State) (out : List Byte),
      fsWrite 512 3 513 (fun i : Nat => if i = 0 then (0 : Byte) else 1) freshState
        = (Except.ok 0, s1) ∧
      fsSeek 3 0 SEEK_SET s1 = (Except.ok 0, s2) ∧
      fsRead 512 51200 3 513 s2 = (Except.ok (512, out), s3) ∧
      out = (List.range 513).map (fun i : Nat => if i = 0 then (0 : Byte) else 1) := by
  refine ⟨⟨rfl, rfl⟩, rfl, fun f => by show (-1 : Int) < 0; decide, by decide, ?_⟩
  obtain ⟨s1, hw, hv1, hfile⟩ := fsWrite_fresh_two_blocks freshState 512 3 7 0 513
    (fun i => if i = 0 then 0 else 1) ⟨rfl, rfl⟩ rfl (by decide) (by decide) (by decide)
    (by decide) (by decide) (by decide) 10 11 [12, 13] rfl (by decide)
  obtain ⟨s2, s3, r, out, hseek, hread, hout, _, hr⟩ := readBack s1 512 51200 3 7 0 513
    (fun i => if i = 0 then 0 else 1) hv1 (by decide) (by decide) (by decide) hfile
  have hr' := hr (by decide)
  rw [interiorZero_count] at hr'
  have hr512 : r = 512 := by
    rw [hr']
    decide
  subst hr512
  exact ⟨s1, s2, s3, out, hw, hseek, hread, hout⟩

/-- The round trip as the code performs it: on a fresh file (no block
allocated, cursor 0, two distinct free disk blocks) and for `0 < n ≤ 2 * BYTESPERBLOCK` input bytes within the
staging buffers, `fsWrite(fd, n, data)`, `fsSeek(fd, 0, SEEK_SET)` and
`fsRead(fd, n, buf)` succeed and leave exactly the `n` input bytes in `buf`.
The count returned is `n` for `n ≤ BYTESPERBLOCK`; otherwise it is `n` minus
the number of zero bytes among the input bytes of block
`n / BYTESPERBLOCK - 1`, hence `n` when no input byte is zero. -/
theorem fsWrite_then_fsRead_fresh (s : State) (BYTESPERBLOCK BYTESPERDISK : Nat)
    (fd inum : Int) (ofte : Nat) (n : Int) (buf : Nat → Byte)
    (hv : ValidFd s fd inum ofte) (hc : getCurs s.g_oft ofte = 0)
    (hfresh : ∀ f : Int, s.dbnOf inum f < 0)
    (d0 d1 : Nat) (rest : List Nat) (hfl : s.freeList = d0 :: d1 :: rest) (hd : d0 ≠ d1)
    (hB : 0 < BYTESPERBLOCK) (hBD : BYTESPERBLOCK ≤ BYTESPERDISK)
    (hn0 : 0 < n) (hn : n ≤ 2 * BYTESPERBLOCK) (h2048 : n ≤ 2048) (hD : n ≤ BYTESPERDISK) :
    ∃ (s1 s2 s3 : State) (r : Int) (out : List Byte),
      fsWrite BYTESPERBLOCK fd n buf s = (Except.ok 0, s1) ∧
      fsSeek fd 0 SEEK_SET s1 = (Except.ok 0, s2) ∧
      fsRead BYTESPERBLOCK BYTESPERDISK fd n s2 = (Except.ok (r, out), s3) ∧
      out = (List.range n.toNat).map buf ∧
      (n ≤ BYTESPERBLOCK → r = n) ∧
      ((BYTESPERBLOCK : Int) < n → r = n -
        ((((List.range BYTESPERBLOCK).map
          (fun j => buf ((n.toNat / BYTESPERBLOCK - 1) * BYTESPERBLOCK + j))).count 0 : Nat)
            : Int)) ∧
      ((∀ i : Nat, i < n.toNat → buf i ≠ 0) → r = n) := by
  obtain ⟨m, rfl⟩ := Int.eq_ofNat_of_zero_le (le_of_lt hn0)
  have hm0 : 0 < m := by exact_mod_cast hn0
  have hm2 : m ≤ 2 * BYTESPERBLOCK := by exact_mod_cast hn
  have hm2048 : m ≤ 2048 := by exact_mod_cast h2048
  have hmD : m ≤ BYTESPERDISK := by exact_mod_cast hD
  have hwrite : ∃ s1 : State, fsWrite BYTESPERBLOCK fd m buf s = (Except.ok 0, s1) ∧
      ValidFd s1 fd inum ofte ∧ ∀ j : Nat, j < m → fileByte s1 BYTESPERBLOCK inum j = buf j := by
    by_cases hmB : m ≤ BYTESPERBLOCK
    · exact fsWrite_fresh_one_block s BYTESPERBLOCK fd inum ofte m buf hv hc hmB hm2048
        (hfresh 0) d0 (d1 :: rest) hfl
    · exact fsWrite_fresh_two_blocks s BYTESPERBLOCK fd inum ofte m buf hv hc hB (by omega) hm2
        hm2048 (hfresh 0) (hfresh 1) d0 d1 rest hfl hd
  obtain ⟨s1, hw, hv1, hfile⟩ := hwrite
  obtain ⟨s2, s3, r, out, hseek, hread, hout, hr1, hr2⟩ :=
    readBack s1 BYTESPERBLOCK BYTESPERDISK fd inum ofte m buf hv1 hB hBD hmD hfile
  refine ⟨s1, s2, s3, r, out, hw, hseek, hread, by simpa using hout, ?_, ?_, ?_⟩
  · intro h
    exact hr1 (by exact_mod_cast h)
  · intro h
    simpa using hr2 (by exact_mod_cast h)
  · intro hnz
    by_cases hmB : m ≤ BYTESPERBLOCK
    · exact hr1 hmB
    · rw [hr2 (by omega)]
      have hq1 : 1 ≤ m / BYTESPERBLOCK := (Nat.one_le_div_iff hB).mpr (by omega)
      have hqB : m / BYTESPERBLOCK * BYTESPERBLOCK ≤ m := Nat.div_mul_le_self m BYTESPERBLOCK
      have hzero : ((List.range BYTESPERBLOCK).map
          (fun j => buf ((m / BYTESPERBLOCK - 1) * BYTESPERBLOCK + j))).count 0 = 0 := by
        rw [List.count_eq_zero]
        intro hmem
        obtain ⟨j, hj, hbj⟩ := List.mem_map.mp hmem
        have hjB : j < BYTESPERBLOCK := List.mem_range.mp hj
        have hidx : (m / BYTESPERBLOCK - 1) * BYTESPERBLOCK + j < m := by
          have : (m / BYTESPERBLOCK - 1) * BYTESPERBLOCK + BYTESPERBLOCK
              = m / BYTESPERBLOCK * BYTESPERBLOCK := by
            have : m / BYTESPERBLOCK - 1 + 1 = m / BYTESPERBLOCK := by omega
            calc (m / BYTESPERBLOCK - 1) * BYTESPERBLOCK + BYTESPERBLOCK
                = (m / BYTESPERBLOCK - 1 + 1) * BYTESPERBLOCK := by ring
              _ = m / BYTESPERBLOCK * BYTESPERBLOCK := by rw [this]
          omega
        exact hnz _ (by simpa using hidx) hbj
      rw [hzero]
      simp

/-- Example: 700 bytes with values 1 to 100, none of them zero, with 512-byte
blocks. -/
theorem fsWrite_then_fsRead_fresh_witness :
    ∃ (s1 s2 s3 : State) (r : Int) (out : List Byte),
      fsWrite 512 3 700 (fun i : Nat => ((i % 100 : Nat) : Int) + 1) freshState = (Except.ok 0, s1) ∧
      fsSeek 3 0 SEEK_SET s1 = (Except.ok 0, s2) ∧
      fsRead 512 51200 3 700 s2 = (Except.ok (r, out), s3) ∧
      out = (List.range (700 : Int).toNat).map (fun i : Nat => ((i % 100 : Nat) : Int) + 1) ∧
      ((700 : Int) ≤ (512 : Nat) → r = 700) ∧
      (((512 : Nat) : Int) < 700 → r = 700 -
        ((((List.range 512).map
          (fun j => (fun i : Nat => ((i % 100 : Nat) : Int) + 1)
            (((700 : Int).toNat / 512 - 1) * 512 + j))).count 0 : Nat) : Int)) ∧
      ((∀ i : Nat, i < (700 : Int).toNat → (fun i : Nat => ((i % 100 : Nat) : Int) + 1) i ≠ 0) → r = 700) :=
  fsWrite_then_fsRead_fresh freshState 512 51200 3 7 0 700 (fun i : Nat => ((i % 100 : Nat) : Int) + 1)
    ⟨rfl, rfl⟩ rfl (fun f => by show (-1 : Int) < 0; decide) 10 11 [12, 13] rfl (by decide)
    (by decide) (by decide) (by decide) (by decide) (by decide) (by decide)


/-- The number of whole blocks after the first and the length of the last
piece, for `n > B` bytes written from offset `o < B` of a block. -/
theorem multi_split (B n o : Nat) (hB : 0 < B) (hn : B < n) (ho : o < B) :
    ∃ k r : Nat, (B - o) + k * B + r = n ∧ 1 ≤ r ∧ r ≤ B := by
  refine ⟨(n - (B - o) - 1) / B, (n - (B - o) - 1) % B + 1, ?_, by omega, ?_⟩
  · have h := Nat.div_add_mod (n - (B - o) - 1) B
    have e : (n - (B - o) - 1) / B * B = B * ((n - (B - o) - 1) / B) := Nat.mul_comm _ _
    omega
  · have := Nat.mod_lt (n - (B - o) - 1) hB
    omega

/-- The multi-block branch of `fsWrite` within the staging buffer, when every
block the range touches is allocated, on distinct disk blocks: the call
succeeds, the cursor moves by `n`, the block map is unchanged, each touched
disk block holds the input on the written range and its previous content
elsewhere, and no other disk block changes. -/
theorem fsWrite_multi_alloc (s : State) (B : Nat) (fd inum : Int) (ofte n c : Nat)
    (buf : Nat → Byte) (hv : ValidFd s fd inum ofte) (hc : getCurs s.g_oft ofte = c)
    (hB : 0 < B) (hn : B < n) (h2048 : n ≤ 2048)
    (halloc : ∀ f : Nat, c / B ≤ f → f * B < c + n → 0 ≤ s.dbnOf inum f)
    (hinj : ∀ f g : Nat, c / B ≤ f → f * B < c + n → c / B ≤ g → g * B < c + n → f ≠ g →
      s.dbnOf inum f ≠ s.dbnOf inum g) :
    ∃ s' : State, fsWrite B fd n buf s = (Except.ok 0, s') ∧ ValidFd s' fd inum ofte ∧
      getCurs s'.g_oft ofte = wrap32 ((c : Int) + n) ∧
      s'.dbnOf = s.dbnOf ∧ s'.size = s.size ∧ s'.freeList = s.freeList ∧
      (∀ f j : Nat, c / B ≤ f → f * B < c + n → j < B →
        s'.disk (s.dbnOf inum f) j =
          if c ≤ f * B + j ∧ f * B + j < c + n then buf (f * B + j - c)
          else s.disk (s.dbnOf inum f) j) ∧
      (∀ d : Int, (∀ f : Nat, c / B ≤ f → f * B < c + n → d ≠ s.dbnOf inum f) →
        s'.disk d = s.disk d) := by
  have hmod : c % B < B := Nat.mod_lt c hB
  have hdm : B * (c / B) + c % B = c := Nat.div_add_mod c B
  have hFB : c / B * B = B * (c / B) := Nat.mul_comm _ _
  obtain ⟨k, r, hsum, hr1, hr⟩ := multi_split B n (c % B) hB hn hmod
  -- the touched blocks are `c / B + t` for `t ≤ k + 1`
  have htouch : ∀ t : Nat, t ≤ k + 1 → c / B ≤ c / B + t ∧ (c / B + t) * B < c + n := by
    intro t ht
    refine ⟨Nat.le_add_right _ _, ?_⟩
    have h1 : (c / B + t) * B = c / B * B + t * B := Nat.add_mul _ _ _
    have h2 : t * B ≤ (k + 1) * B := Nat.mul_le_mul_right B ht
    have h3 : (k + 1) * B = k * B + B := by ring
    omega
  have hcastt : ∀ t : Nat, ((c / B : Nat) : Int) + (t : Int) = ((c / B + t : Nat) : Int) := by
    intro t
    push_cast
    rfl
  have hal0 : 0 ≤ s.dbnOf inum ((c / B : Nat) : Int) := by
    have := halloc (c / B + 0) (htouch 0 (by omega)).1 (htouch 0 (by omega)).2
    simpa using this
  obtain ⟨s3, hw, hfds3, hoft3, hsize3, hdbn3, hfree3, hdisk0, hdiskm, hother3⟩ :=
    fsWrite_multi_prefix s B fd inum ofte n c buf hv hc hB hn k r hsum hr1 hr (by omega) s _
      (stageBlock_alloc s B inum _ hal0) hal0 rfl rfl
      (by
        intro i h1 h2
        rw [hcastt]
        exact halloc _ (htouch i (by omega)).1 (htouch i (by omega)).2)
      (by
        intro i i' h1 h2 h1' h2' hne
        rw [hcastt, hcastt]
        exact hinj _ _ (htouch i (by omega)).1 (htouch i (by omega)).2
          (htouch i' (by omega)).1 (htouch i' (by omega)).2 (by omega))
      (by
        intro i h1 h2
        rw [hcastt]
        have := hinj (c / B + 0) (c / B + i) (htouch 0 (by omega)).1 (htouch 0 (by omega)).2
          (htouch i (by omega)).1 (htouch i (by omega)).2 (by omega)
        simpa using this)
  have hcastL : ((c / B : Nat) : Int) + (k : Int) + 1 = ((c / B + (k + 1) : Nat) : Int) := by
    push_cast
    ring
  have halL : 0 ≤ s3.dbnOf inum (((c / B : Nat) : Int) + (k : Int) + 1) := by
    rw [hdbn3, hcastL]
    exact halloc _ (htouch (k + 1) (le_refl _)).1 (htouch (k + 1) (le_refl _)).2
  obtain ⟨s5, hlast, hfds5, hoft5, hfree5, hdbn5, hsize5, hdiskL, hother5⟩ :=
    writeLast_alloc s3 B inum n buf (((c / B : Nat) : Int) + (k : Int)) r hr (by omega) h2048 halL
  rw [hdbn3, hcastL] at hdiskL hother5
  have hv5 : ValidFd s5 fd inum ofte :=
    ValidFd_congr s s5 fd inum ofte (hfds5.trans hfds3) (hoft5.trans hoft3) hv
  have hseek := fsSeek_cur_ok s5 fd inum ofte (n : Int) hv5 (by omega)
  have hcur5 : getCurs s5.g_oft ofte = c := by rw [hoft5, hoft3, hc]
  refine ⟨{ s5 with g_oft := setCurs s5.g_oft ofte (wrap32 (getCurs s5.g_oft ofte + (n : Int))) },
    ?_, ValidFd_setCurs _ fd inum ofte ofte _ hv5, ?_, by rw [hdbn5, hdbn3],
    by rw [hsize5, hsize3], by rw [hfree5, hfree3], ?_, ?_⟩
  · rw [hw]
    simp only [FSM.bind_apply, FSM.bind]
    rw [hlast]
    simp only [hseek]
    rfl
  · show getCurs (setCurs s5.g_oft ofte _) ofte = _
    rw [getCurs_setCurs_same _ _ _ (findOFTE_lt _ _ _ hv5.2), hcur5]
  · intro f j hf1 hf2 hj
    show s5.disk (s.dbnOf inum f) j = _
    obtain ⟨t, rfl⟩ : ∃ t, f = c / B + t := ⟨f - c / B, by omega⟩
    have hfB : (c / B + t) * B = c / B * B + t * B := Nat.add_mul _ _ _
    have htk : t ≤ k + 1 := by
      by_contra hcon
      have h2 : (k + 2) * B ≤ t * B := Nat.mul_le_mul_right B (by omega)
      have h3 : (k + 2) * B = k * B + B + B := by ring
      omega
    by_cases htL : t = k + 1
    · subst htL
      have h3 : (k + 1) * B = k * B + B := by ring
      rw [hdiskL j hj]
      by_cases hjr : j < r
      · rw [if_pos hjr, if_pos (by omega)]
        congr 1
        omega
      · rw [if_neg hjr, if_neg (by omega)]
        have hneL : ∀ i : Nat, 1 ≤ i → i ≤ k →
            s.dbnOf inum ((c / B + (k + 1) : Nat) : Int)
              ≠ s.dbnOf inum (((c / B : Nat) : Int) + (i : Int)) := by
          intro i h1 h2
          rw [hcastt]
          exact hinj _ _ (htouch (k + 1) (le_refl _)).1 (htouch (k + 1) (le_refl _)).2
            (htouch i (by omega)).1 (htouch i (by omega)).2 (by omega)
        have hne0 : s.dbnOf inum ((c / B + (k + 1) : Nat) : Int)
            ≠ s.dbnOf inum ((c / B : Nat) : Int) := by
          have := hinj (c / B + (k + 1)) (c / B + 0) (htouch (k + 1) (le_refl _)).1
            (htouch (k + 1) (le_refl _)).2 (htouch 0 (by omega)).1 (htouch 0 (by omega)).2
            (by omega)
          simpa using this
        rw [hother3 _ hne0 hneL]
    · have hneq : s.dbnOf inum ((c / B + t : Nat) : Int)
          ≠ s.dbnOf inum ((c / B + (k + 1) : Nat) : Int) :=
        hinj _ _ (htouch t htk).1 (htouch t htk).2 (htouch (k + 1) (le_refl _)).1
          (htouch (k + 1) (le_refl _)).2 (by omega)
      rw [hother5 _ hneq]
      by_cases ht0 : t = 0
      · subst ht0
        simp only [Nat.add_zero] at *
        rw [hdisk0 j hj]
        by_cases hjo : c % B ≤ j
        · rw [if_pos hjo, if_pos (by omega)]
          congr 1
          omega
        · rw [if_neg hjo, if_neg (by omega), readBlock_getD _ _ _ _ j hj, if_pos hal0]
      · have h2 : t * B ≤ k * B := Nat.mul_le_mul_right B (by omega)
        have h3 : (t - 1) * B + B = t * B := by
          have : t - 1 + 1 = t := by omega
          calc (t - 1) * B + B = (t - 1 + 1) * B := by ring
            _ = t * B := by rw [this]
        have := hdiskm t (by omega) (by omega) j hj
        rw [hcastt] at this
        rw [this, if_pos (by omega)]
        congr 1
        omega
  · intro d hd
    show s5.disk d = _
    have hdL : d ≠ s.dbnOf inum ((c / B + (k + 1) : Nat) : Int) :=
      hd _ (htouch (k + 1) (le_refl _)).1 (htouch (k + 1) (le_refl _)).2
    have hd0 : d ≠ s.dbnOf inum ((c / B : Nat) : Int) := by
      have := hd (c / B + 0) (htouch 0 (by omega)).1 (htouch 0 (by omega)).2
      simpa using this
    rw [hother5 d hdL, hother3 d hd0]
    intro i h1 h2
    rw [hcastt]
    exact hd _ (htouch i (by omega)).1 (htouch i (by omega)).2

/-- Within the staging buffer and with every touched block allocated on
distinct disk blocks, a multi-block `fsWrite` succeeds and leaves the `n` input
bytes at file positions `[cursor, cursor + n)`. -/
theorem fsWrite_multi_alloc_bytes (s : State) (B : Nat) (fd inum : Int) (ofte n c : Nat)
    (buf : Nat → Byte) (hv : ValidFd s fd inum ofte) (hc : getCurs s.g_oft ofte = c)
    (hB : 0 < B) (hn : B < n) (h2048 : n ≤ 2048)
    (halloc : ∀ f : Nat, c / B ≤ f → f * B < c + n → 0 ≤ s.dbnOf inum f)
    (hinj : ∀ f g : Nat, c / B ≤ f → f * B < c + n → c / B ≤ g → g * B < c + n → f ≠ g →
      s.dbnOf inum f ≠ s.dbnOf inum g) :
    ∃ s' : State, fsWrite B fd n buf s = (Except.ok 0, s') ∧
      ∀ i : Nat, i < n → fileByte s' B inum (c + i) = buf i := by
  obtain ⟨s', hw, _, _, hdbn, _, _, hdisk, _⟩ :=
    fsWrite_multi_alloc s B fd inum ofte n c buf hv hc hB hn h2048 halloc hinj
  refine ⟨s', hw, ?_⟩
  intro i hi
  have hdm : B * ((c + i) / B) + (c + i) % B = c + i := Nat.div_add_mod (c + i) B
  have hcomm : (c + i) / B * B = B * ((c + i) / B) := Nat.mul_comm _ _
  have hj : (c + i) % B < B := Nat.mod_lt _ hB
  have hf1 : c / B ≤ (c + i) / B := Nat.div_le_div_right (Nat.le_add_right c i)
  have hf2 : (c + i) / B * B < c + n := by omega
  unfold fileByte
  rw [readBlock_getD _ _ _ _ _ hj, hdbn, if_pos (halloc _ hf1 hf2), hdisk _ _ hf1 hf2 hj,
    if_pos (by omega)]
  congr 1
  omega

/-! ## The outcomes of `fsRead` -/

theorem storeBlock_over (dst block : List Byte) (h : dst.length < block.length) :
    storeBlock dst block = Except.error Err.OutOfBounds := by
  have : ¬ block.length ≤ dst.length := by omega
  simp [storeBlock, this]

/-- A request of at most a block when the block is larger than `wholeBuffer`:
storing the block overruns `wholeBuffer`; nothing is changed. -/
theorem fsRead_single_overrun (s : State) (B D : Nat) (fd inum : Int) (ofte : Nat) (n : Int)
    (hv : ValidFd s fd inum ofte) (hn : n ≤ B) (hD : D < B) :
    fsRead B D fd n s = (Except.error Err.OutOfBounds, s) := by
  have hgt : ¬ (n > (B : Int)) := by omega
  unfold fsRead
  simp only [FSM.bind_apply, FSM.bind, bfsTell_ok s fd inum ofte hv,
    bfsFdToInum_ok s fd inum ofte hv, getState_ok, hgt, if_false]
  rw [storeBlock_over _ _ (by simp [readBlock_length]; exact hD)]
  rfl

/-- The outcomes of `fsRead` on a valid descriptor, for a count `n ≥ 0`: an
overrun of `wholeBuffer` that changes nothing, or a count `r` and bytes `out`
with the cursor moved by `r`. -/
theorem fsRead_cases (s : State) (B D : Nat) (fd inum : Int) (ofte n : Nat)
    (hv : ValidFd s fd inum ofte) (hB : 0 < B) :
    fsRead B D fd n s = (Except.error Err.OutOfBounds, s) ∨
    (B ≤ D ∧ n ≤ D ∧ ∃ (r : Int) (out : List Byte),
      fsRead B D fd n s =
        (Except.ok (r, out),
          { s with g_oft := setCurs s.g_oft ofte (wrap32 (getCurs s.g_oft ofte + r)) }) ∧
      0 ≤ r ∧ r ≤ n ∧ out.length = n ∧
      (n ≤ B → r = n ∧ out = (readBlock s B inum (Int.tdiv (getCurs s.g_oft ofte) B)).take n) ∧
      (B < n →
        r = (n : Int) - (((readBlock s B inum
            (Int.tdiv (getCurs s.g_oft ofte) B + ((n / B : Nat) : Int) - 1)).count 0 : Nat) : Int) ∧
        ∀ j : Nat, j < n → out.getD j 0 =
          (readBlock s B inum (Int.tdiv (getCurs s.g_oft ofte) B + ((j / B : Nat) : Int))).getD
            (j % B) 0)) := by
  by_cases hnB : n ≤ B
  · by_cases hBD : B ≤ D
    · right
      refine ⟨hBD, by omega, n, _, fsRead_single s B D fd inum ofte n hv hnB hBD, by omega,
        le_refl _, by simp [readBlock_length]; omega, fun _ => ⟨rfl, rfl⟩, fun h => by omega⟩
    · left
      exact fsRead_single_overrun s B D fd inum ofte n hv (by exact_mod_cast hnB) (by omega)
  · by_cases hnD : n ≤ D
    · right
      obtain ⟨out, he, hlen, hpt⟩ := fsRead_multi s B D fd inum ofte n hv hB (by omega) hnD
      have hcnt := List.count_le_length (0 : Byte)
        (readBlock s B inum (Int.tdiv (getCurs s.g_oft ofte) B + ((n / B : Nat) : Int) - 1))
      rw [readBlock_length] at hcnt
      refine ⟨by omega, hnD, _, out, he, by omega, by omega, hlen, fun h => by omega,
        fun _ => ⟨rfl, hpt⟩⟩
    · left
      exact fsRead_overrun s B D fd inum ofte n hv (by exact_mod_cast (by omega : B < n))
        (by exact_mod_cast (by omega : D < n))

/-! ## `fsRead`: cursor, count and bytes -/

/-- The state `fsRead` returns is the state it was given with the cursor of the
descriptor moved by the count returned. -/
theorem fsRead_ok_inv (s : State) (B D : Nat) (fd inum : Int) (ofte n : Nat)
    (hv : ValidFd s fd inum ofte) (hB : 0 < B) (r : Int) (out : List Byte) (s' : State)
    (h : fsRead B D fd n s = (Except.ok (r, out), s')) :
    B ≤ D ∧ n ≤ D ∧
    s' = { s with g_oft := setCurs s.g_oft ofte (wrap32 (getCurs s.g_oft ofte + r)) } ∧
    0 ≤ r ∧ r ≤ n ∧ out.length = n ∧
    (n ≤ B → r = n ∧ out = (readBlock s B inum (Int.tdiv (getCurs s.g_oft ofte) B)).take n) ∧
    (B < n →
      r = (n : Int) - (((readBlock s B inum
          (Int.tdiv (getCurs s.g_oft ofte) B + ((n / B : Nat) : Int) - 1)).count 0 : Nat) : Int) ∧
      ∀ j : Nat, j < n → out.getD j 0 =
        (readBlock s B inum (Int.tdiv (getCurs s.g_oft ofte) B + ((j / B : Nat) : Int))).getD
          (j % B) 0) := by
  rcases fsRead_cases s B D fd inum ofte n hv hB with he | ⟨hBD, hnD, r', out', he, h0, hle, hlen, h1, h2⟩
  · rw [he] at h
    cases h
  · rw [he] at h
    simp only [Prod.mk.injEq, Except.ok.injEq] at h
    obtain ⟨⟨hr, ho⟩, hs⟩ := h
    subst hr ho hs
    exact ⟨hBD, hnD, rfl, h0, hle, hlen, h1, h2⟩

theorem getCurs_after_set (s : State) (inum : Int) (ofte : Nat) (c : Int)
    (hf : findOFTE s.g_oft inum = some ofte) :
    getCurs ({ s with g_oft := setCurs s.g_oft ofte c } : State).g_oft ofte = c :=
  getCurs_setCurs_same s.g_oft ofte c (findOFTE_lt _ _ _ hf)

/-- C12: for a valid descriptor and `n ≥ 0`, whenever `fsRead(fd, n, buf)`
returns `r` the cursor is the old cursor plus `r`, the count returned after
the trim, and so differs from the old cursor plus `n` when `r ≠ n`; the call
does return when the request fits `wholeBuffer`.  The sum is the `i32`
addition of `fsSeek` (`wrap32`), the exact sum whenever that fits in an
`i32`. -/
theorem fsRead_cursor_advance (s : State) (BYTESPERBLOCK BYTESPERDISK : Nat) (fd inum : Int)
    (ofte : Nat) (n : Int) (hv : ValidFd s fd inum ofte) (hB : 0 < BYTESPERBLOCK)
    (h0 : 0 ≤ n) :
    (∀ (r : Int) (out : List Byte) (s' : State),
      fsRead BYTESPERBLOCK BYTESPERDISK fd n s = (Except.ok (r, out), s') →
      getCurs s'.g_oft ofte = wrap32 (getCurs s.g_oft ofte + r) ∧
      (-2147483648 ≤ getCurs s.g_oft ofte + r → getCurs s.g_oft ofte + r ≤ 2147483647 →
        getCurs s'.g_oft ofte = getCurs s.g_oft ofte + r ∧
        (r ≠ n → getCurs s'.g_oft ofte ≠ getCurs s.g_oft ofte + n))) ∧
    (BYTESPERBLOCK ≤ BYTESPERDISK → n ≤ BYTESPERDISK →
      ∃ (r : Int) (out : List Byte) (s' : State),
        fsRead BYTESPERBLOCK BYTESPERDISK fd n s = (Except.ok (r, out), s')) := by
  obtain ⟨m, rfl⟩ := Int.eq_ofNat_of_zero_le h0
  constructor
  · intro r out s' h
    obtain ⟨_, _, hs, _⟩ := fsRead_ok_inv s BYTESPERBLOCK BYTESPERDISK fd inum ofte m hv hB r out s' h
    subst hs
    have hc := getCurs_after_set s inum ofte (wrap32 (getCurs s.g_oft ofte + r)) hv.2
    refine ⟨hc, fun h1 h2 => ?_⟩
    rw [hc, wrap32_of_range _ h1 h2]
    exact ⟨rfl, fun hne => by omega⟩
  · intro hBD hD
    have hD' : m ≤ BYTESPERDISK := by exact_mod_cast hD
    rcases fsRead_cases s BYTESPERBLOCK BYTESPERDISK fd inum ofte m hv hB with
      he | ⟨_, _, r, out, he, _⟩
    · by_cases hm : m ≤ BYTESPERBLOCK
      · rw [fsRead_single s BYTESPERBLOCK BYTESPERDISK fd inum ofte m hv hm hBD] at he
        cases he
      · obtain ⟨out, he', _⟩ :=
          fsRead_multi s BYTESPERBLOCK BYTESPERDISK fd inum ofte m hv hB (by omega) hD'
        rw [he'] at he
        cases he
    · exact ⟨r, out, _, he⟩

set_option maxRecDepth 100000 in
/-- The block inspected by a read of 513 or 1024 bytes at cursor 0 of
`zeroHeadState` holds exactly one zero byte, and block 1 ends in no zero
byte. -/
theorem zeroHead_counts :
    List.count (0 : Byte)
      (readBlock zeroHeadState 512 7
        (Int.tdiv (getCurs zeroHeadState.g_oft 0) (512 : Nat) + ((513 / 512 : Nat) : Int) - 1))
      = 1 ∧
    List.count (0 : Byte)
      (readBlock zeroHeadState 512 7
        (Int.tdiv (getCurs zeroHeadState.g_oft 0) (512 : Nat) + ((1024 / 512 : Nat) : Int) - 1))
      = 1 ∧
    trailingZeros (readBlock zeroHeadState 512 7 1) = 0 := by
  decide

/-- Witness of C12: 513 bytes requested at cursor 0 where the inspected block
holds one zero byte; the call returns 512 and the cursor is 512, not 513. -/
theorem fsRead_cursor_advance_witness :
    ∃ (out : List Byte) (s' : State),
      fsRead 512 51200 3 513 zeroHeadState = (Except.ok (512, out), s') ∧
      getCurs s'.g_oft 0 = 512 ∧ getCurs s'.g_oft 0 ≠ 513 := by
  obtain ⟨out, he, _⟩ := fsRead_multi zeroHeadState 512 51200 3 7 0 513 ⟨rfl, rfl⟩
    (by decide) (by decide) (by decide)
  rw [zeroHead_counts.1] at he
  have he' : fsRead 512 51200 3 513 zeroHeadState = (Except.ok (512, out), _) := he
  have h := (fsRead_cursor_advance zeroHeadState 512 51200 3 7 0 513 ⟨rfl, rfl⟩ (by decide)
    (by decide)).1 512 out _ he'
  obtain ⟨h1, h2⟩ := h.2 (by decide) (by decide)
  exact ⟨out, _, he', h1, h2 (by decide)⟩

/-- C20: for a valid descriptor and `n ≥ 0`, the count `fsRead` returns depends
on neither the file size nor on any block but one.  For `n ≤ BYTESPERBLOCK` it
is `n`.  For `n > BYTESPERBLOCK` it is `r` with
`n - BYTESPERBLOCK ≤ r ≤ n` and `r ≥ 1`, and `n - r` is the number of zero
bytes in the block at FBN `cursor / BYTESPERBLOCK + n / BYTESPERBLOCK - 1`.  The
call does return when the request fits `wholeBuffer`. -/
theorem fsRead_count_bounds (s : State) (BYTESPERBLOCK BYTESPERDISK : Nat) (fd inum : Int)
    (ofte : Nat) (n : Int) (hv : ValidFd s fd inum ofte) (hB : 0 < BYTESPERBLOCK)
    (h0 : 0 ≤ n) :
    (∀ (r : Int) (out : List Byte) (s' : State),
      fsRead BYTESPERBLOCK BYTESPERDISK fd n s = (Except.ok (r, out), s') →
      (n ≤ BYTESPERBLOCK → r = n) ∧
      ((BYTESPERBLOCK : Int) < n →
        n - BYTESPERBLOCK ≤ r ∧ r ≤ n ∧ 1 ≤ r ∧
        n - r = (((readBlock s BYTESPERBLOCK inum
          (Int.tdiv (getCurs s.g_oft ofte) BYTESPERBLOCK + Int.tdiv n BYTESPERBLOCK - 1)).count 0
            : Nat) : Int))) ∧
    (BYTESPERBLOCK ≤ BYTESPERDISK → n ≤ BYTESPERDISK →
      ∃ (r : Int) (out : List Byte) (s' : State),
        fsRead BYTESPERBLOCK BYTESPERDISK fd n s = (Except.ok (r, out), s')) := by
  obtain ⟨m, rfl⟩ := Int.eq_ofNat_of_zero_le h0
  have hq : Int.tdiv (m : Int) BYTESPERBLOCK = ((m / BYTESPERBLOCK : Nat) : Int) :=
    (Int.ofNat_tdiv m BYTESPERBLOCK).symm
  constructor
  · intro r out s' h
    obtain ⟨_, _, _, _, _, _, h1, h2⟩ :=
      fsRead_ok_inv s BYTESPERBLOCK BYTESPERDISK fd inum ofte m hv hB r out s' h
    refine ⟨fun hle => (h1 (by exact_mod_cast hle)).1, fun hlt => ?_⟩
    have hlt' : BYTESPERBLOCK < m := by exact_mod_cast hlt
    obtain ⟨hr, _⟩ := h2 hlt'
    rw [hq]
    have hcnt := List.count_le_length (0 : Byte)
      (readBlock s BYTESPERBLOCK inum
        (Int.tdiv (getCurs s.g_oft ofte) BYTESPERBLOCK + ((m / BYTESPERBLOCK : Nat) : Int) - 1))
    rw [readBlock_length] at hcnt
    refine ⟨by omega, by omega, by omega, by omega⟩
  · intro hBD hD
    have hD' : m ≤ BYTESPERDISK := by exact_mod_cast hD
    by_cases hm : m ≤ BYTESPERBLOCK
    · exact ⟨_, _, _, fsRead_single s BYTESPERBLOCK BYTESPERDISK fd inum ofte m hv hm hBD⟩
    · obtain ⟨out, he', _⟩ :=
        fsRead_multi s BYTESPERBLOCK BYTESPERDISK fd inum ofte m hv hB (by omega) hD'
      exact ⟨_, out, _, he'⟩

/-- Witness of C20: 1024 bytes requested at cursor 0 with 512-byte blocks,
where block 1 holds one zero byte; the call returns 1023. -/
theorem fsRead_count_bounds_witness :
    ∃ (out : List Byte) (s' : State),
      fsRead 512 51200 3 1024 zeroHeadState = (Except.ok (1023, out), s') ∧
      (1024 : Int) - 512 ≤ 1023 ∧ (1023 : Int) ≤ 1024 ∧ (1 : Int) ≤ 1023 ∧
      (1024 : Int) - 1023 = ((List.count (0 : Byte) (readBlock zeroHeadState 512 7
        (Int.tdiv (getCurs zeroHeadState.g_oft 0) (512 : Nat) + Int.tdiv 1024 (512 : Nat) - 1))
          : Nat) : Int) := by
  obtain ⟨out, he, _⟩ := fsRead_multi zeroHeadState 512 51200 3 7 0 1024 ⟨rfl, rfl⟩
    (by decide) (by decide) (by decide)
  rw [zeroHead_counts.2.1] at he
  have he' : fsRead 512 51200 3 1024 zeroHeadState = (Except.ok (1023, out), _) := he
  have h := ((fsRead_count_bounds zeroHeadState 512 51200 3 7 0 1024 ⟨rfl, rfl⟩ (by decide)
    (by decide)).1 1023 out _ he').2 (by decide)
  exact ⟨out, _, he', h⟩

set_option maxRecDepth 100000 in
/-- The zero bytes of the two blocks of `headZerosState`: one in block 0, two in
block 1, none at the end of block 1.  Block 0 is the block at FBN
`513 / 512 - 1`, block 1 the block at FBN `1024 / 512 - 1`. -/
theorem headZeros_counts :
    List.count (0 : Byte)
      (readBlock headZerosState 512 7
        (Int.tdiv (getCurs headZerosState.g_oft 0) (512 : Nat) + ((513 / 512 : Nat) : Int) - 1))
      = 1 ∧
    List.count (0 : Byte)
      (readBlock headZerosState 512 7
        (Int.tdiv (getCurs headZerosState.g_oft 0) (512 : Nat) + ((1024 / 512 : Nat) : Int) - 1))
      = 2 ∧
    trailingZeros (readBlock headZerosState 512 7 1) = 0 := by
  decide

/-- C16 at the failing input: a file of 1024 bytes in two 512-byte blocks, none
of which ends in a zero byte; block 0 holds one zero byte, at its head, and
block 1 two.  A read of 1024 bytes at cursor 0 fetches blocks 0 and 1, stores
the 1024 bytes and returns 1022: the two zero bytes of the last block fetched
are counted although its trailing run is empty.  A read of 513 bytes fetches
blocks 0 and 1 as well and returns 512: the block inspected is block 0, at FBN
`513 / 512 - 1`, not the last block fetched. -/
theorem fsRead_count_not_trailing_run :
    ValidFd headZerosState 3 7 0 ∧ getCurs headZerosState.g_oft 0 = 0 ∧
    headZerosState.size 7 = 1024 ∧
    trailingZeros (readBlock headZerosState 512 7 1) = 0 ∧
    List.count (0 : Byte) (readBlock headZerosState 512 7 0) = 1 ∧
    List.count (0 : Byte) (readBlock headZerosState 512 7 1) = 2 ∧
    (∃ (out : List Byte) (s' : State),
      fsRead 512 51200 3 1024 headZerosState = (Except.ok (1022, out), s') ∧
      out.length = 1024) ∧
    (∃ (out : List Byte) (s' : State),
      fsRead 512 51200 3 513 headZerosState = (Except.ok (512, out), s') ∧
      out.length = 513) := by
  obtain ⟨hc513, hc1024, htz⟩ := headZeros_counts
  refine ⟨⟨rfl, rfl⟩, rfl, rfl, htz, hc513, hc1024, ?_, ?_⟩
  · obtain ⟨out, he, hlen, _⟩ := fsRead_multi headZerosState 512 51200 3 7 0 1024 ⟨rfl, rfl⟩
      (by decide) (by decide) (by decide)
    rw [hc1024] at he
    exact ⟨out, _, he, hlen⟩
  · obtain ⟨out, he, hlen, _⟩ := fsRead_multi headZerosState 512 51200 3 7 0 513 ⟨rfl, rfl⟩
      (by decide) (by decide) (by decide)
    rw [hc513] at he
    exact ⟨out, _, he, hlen⟩

/-- The count of a multi-block `fsRead` as the code computes it: for a valid
descriptor and `n > BYTESPERBLOCK`, whenever
`fsRead` returns, the count is `n` minus the number of all zero bytes, trailing
or not, of the block at FBN `cursor / BYTESPERBLOCK + n / BYTESPERBLOCK - 1`;
no other block enters the count.  The call does return when the request fits
`wholeBuffer`. -/
theorem fsRead_count_formula (s : State) (BYTESPERBLOCK BYTESPERDISK : Nat) (fd inum : Int)
    (ofte : Nat) (n : Int) (hv : ValidFd s fd inum ofte) (hB : 0 < BYTESPERBLOCK)
    (hn : (BYTESPERBLOCK : Int) < n) :
    (∀ (r : Int) (out : List Byte) (s' : State),
      fsRead BYTESPERBLOCK BYTESPERDISK fd n s = (Except.ok (r, out), s') →
      r = n - (((readBlock s BYTESPERBLOCK inum
          (Int.tdiv (getCurs s.g_oft ofte) BYTESPERBLOCK + Int.tdiv n BYTESPERBLOCK - 1)).count 0
            : Nat) : Int)) ∧
    (n ≤ BYTESPERDISK →
      ∃ (out : List Byte) (s' : State),
        fsRead BYTESPERBLOCK BYTESPERDISK fd n s =
          (Except.ok (n - (((readBlock s BYTESPERBLOCK inum
            (Int.tdiv (getCurs s.g_oft ofte) BYTESPERBLOCK + Int.tdiv n BYTESPERBLOCK - 1)).count 0
              : Nat) : Int), out), s')) := by
  obtain ⟨m, rfl⟩ := Int.eq_ofNat_of_zero_le (by omega : 0 ≤ n)
  have hm : BYTESPERBLOCK < m := by exact_mod_cast hn
  have hq : Int.tdiv (m : Int) BYTESPERBLOCK = ((m / BYTESPERBLOCK : Nat) : Int) :=
    (Int.ofNat_tdiv m BYTESPERBLOCK).symm
  rw [hq]
  constructor
  · intro r out s' h
    obtain ⟨_, _, _, _, _, _, _, h2⟩ :=
      fsRead_ok_inv s BYTESPERBLOCK BYTESPERDISK fd inum ofte m hv hB r out s' h
    exact (h2 hm).1
  · intro hD
    obtain ⟨out, he', _⟩ := fsRead_multi s BYTESPERBLOCK BYTESPERDISK fd inum ofte m hv hB hm
      (by exact_mod_cast hD)
    exact ⟨out, _, he'⟩

/-- Example: 1024 bytes requested at cursor 0 with 512-byte blocks, where
block 1 holds one zero byte, at its head. -/
theorem fsRead_count_formula_witness :
    ∃ (out : List Byte) (s' : State),
      fsRead 512 51200 3 1024 zeroHeadState =
        (Except.ok (1024 - (((readBlock zeroHeadState 512 7
          (Int.tdiv (getCurs zeroHeadState.g_oft 0) (512 : Nat) + Int.tdiv 1024 (512 : Nat) - 1)).count 0
            : Nat) : Int), out), s') ∧
      List.count (0 : Byte) (readBlock zeroHeadState 512 7
        (Int.tdiv (getCurs zeroHeadState.g_oft 0) (512 : Nat) + Int.tdiv 1024 (512 : Nat) - 1)) = 1 := by
  obtain ⟨out, s', he⟩ := (fsRead_count_formula zeroHeadState 512 51200 3 7 0 1024 ⟨rfl, rfl⟩
    (by decide) (by decide)).2 (by decide)
  exact ⟨out, s', he, zeroHead_counts.2.1⟩

/-! ## `fsRead`: the bytes stored -/

theorem concatBlocks_length (s : State) (B : Nat) (inum start : Int) :
    ∀ k : Nat, (concatBlocks s B inum start k).length = k * B
  | 0 => by simp [concatBlocks]
  | k + 1 => by
    simp only [concatBlocks, List.length_append, concatBlocks_length s B inum start k,
      readBlock_length]
    ring

theorem getD_append_byte (l1 l2 : List Byte) (j : Nat) :
    (l1 ++ l2).getD j 0 = if j < l1.length then l1.getD j 0 else l2.getD (j - l1.length) 0 := by
  by_cases h : j < l1.length
  · simp [h, List.getElem?_append_left h]
  · simp [h, List.getElem?_append_right (Nat.le_of_not_lt h)]

theorem concatBlocks_getD (s : State) (B : Nat) (inum start : Int) (hB : 0 < B) :
    ∀ (k j : Nat), j < k * B →
      (concatBlocks s B inum start k).getD j 0 =
        (readBlock s B inum (start + ((j / B : Nat) : Int))).getD (j % B) 0
  | 0, j, h => by omega
  | k + 1, j, h => by
    simp only [concatBlocks]
    rw [getD_append_byte, concatBlocks_length]
    by_cases hj : j < k * B
    · rw [if_pos hj, concatBlocks_getD s B inum start hB k j hj]
    · rw [if_neg hj]
      have hmul : (k + 1) * B = k * B + B := by ring
      obtain ⟨t, rfl⟩ : ∃ t, j = B * k + t := ⟨j - k * B, by rw [Nat.mul_comm B k]; omega⟩
      have ht : t < B := by rw [Nat.mul_comm B k] at h; omega
      obtain ⟨e1, e2⟩ := div_mod_block B k t ht
      rw [e1, e2]
      congr 1
      rw [Nat.mul_comm B k]
      omega

theorem ceil_mul_ge (n B : Nat) (hB : 0 < B) : n ≤ (n + B - 1) / B * B := by
  have h := Nat.div_add_mod (n + B - 1) B
  have hm := Nat.mod_lt (n + B - 1) hB
  have e : (n + B - 1) / B * B = B * ((n + B - 1) / B) := Nat.mul_comm _ _
  omega

/-- C17: for a valid descriptor and `BYTESPERBLOCK < n ≤ BYTESPERDISK` (`n`
within `wholeBuffer`), `fsRead` returns and the `n` bytes it stores are the
first `n` bytes of the `ceil(n / BYTESPERBLOCK)` consecutive blocks at FBNs
`cursor / BYTESPERBLOCK`, `cursor / BYTESPERBLOCK + 1`, ..., whatever the
count returned. -/
theorem fsRead_multi_bytes (s : State) (BYTESPERBLOCK BYTESPERDISK : Nat) (fd inum : Int)
    (ofte : Nat) (n : Int) (hv : ValidFd s fd inum ofte) (hB : 0 < BYTESPERBLOCK)
    (hn : (BYTESPERBLOCK : Int) < n) (hD : n ≤ BYTESPERDISK) :
    ∃ (r : Int) (out : List Byte) (s' : State),
      fsRead BYTESPERBLOCK BYTESPERDISK fd n s = (Except.ok (r, out), s') ∧
      out.length = n.toNat ∧
      out = (concatBlocks s BYTESPERBLOCK inum
          (Int.tdiv (getCurs s.g_oft ofte) BYTESPERBLOCK)
          ((n.toNat + BYTESPERBLOCK - 1) / BYTESPERBLOCK)).take n.toNat := by
  obtain ⟨m, rfl⟩ := Int.eq_ofNat_of_zero_le (by omega : 0 ≤ n)
  have hm : BYTESPERBLOCK < m := by exact_mod_cast hn
  obtain ⟨out, he, hlen, hpt⟩ := fsRead_multi s BYTESPERBLOCK BYTESPERDISK fd inum ofte m hv hB hm
    (by exact_mod_cast hD)
  have hceil := ceil_mul_ge m BYTESPERBLOCK hB
  refine ⟨_, out, _, he, by simpa using hlen, ?_⟩
  simp only [Int.toNat_ofNat]
  apply list_ext_getD
  · rw [hlen, List.length_take, concatBlocks_length]
    omega
  · intro j hj
    rw [hlen] at hj
    rw [hpt j hj]
    have hjc : j < (m + BYTESPERBLOCK - 1) / BYTESPERBLOCK * BYTESPERBLOCK := by omega
    rw [← concatBlocks_getD s BYTESPERBLOCK inum _ hB _ j hjc]
    simp [List.getElem?_take_of_lt hj]

/-- Witness of C17: 700 bytes requested with 512-byte blocks, two blocks
fetched. -/
theorem fsRead_multi_bytes_witness :
    ∃ (r : Int) (out : List Byte) (s' : State),
      fsRead 512 51200 3 700 zeroHeadState = (Except.ok (r, out), s') ∧
      out.length = (700 : Int).toNat ∧
      out = (concatBlocks zeroHeadState 512 7
          (Int.tdiv (getCurs zeroHeadState.g_oft 0) (512 : Nat))
          (((700 : Int).toNat + 512 - 1) / 512)).take (700 : Int).toNat :=
  fsRead_multi_bytes zeroHeadState 512 51200 3 7 0 700 ⟨rfl, rfl⟩ (by decide) (by decide)
    (by decide)

set_option maxRecDepth 100000 in
/-- The first three bytes of block 0 of `rampState`, and the three bytes from
the cursor's offset 5 on. -/
theorem ramp_bytes :
    (readBlock rampState 512 7 (Int.tdiv (getCurs rampState.g_oft 0) (512 : Nat))).take 3
      = [0, 1, 2] ∧
    ((readBlock rampState 512 7 (Int.tdiv (getCurs rampState.g_oft 0) (512 : Nat))).drop 5).take 3
      = [5, 6, 7] := by
  decide

/-- C15 at the failing input: with the cursor at offset 5 of a block whose byte
`j` is `j`, a read of 3 bytes stores the bytes 0, 1, 2 of the block start, not
the bytes 5, 6, 7 at the cursor's offset. -/
theorem fsRead_single_ignores_offset :
    ValidFd rampState 3 7 0 ∧ getCurs rampState.g_oft 0 = 5 ∧
    ((readBlock rampState 512 7 (Int.tdiv (getCurs rampState.g_oft 0) (512 : Nat))).drop
        (Int.tmod (getCurs rampState.g_oft 0) (512 : Nat)).toNat).take 3 = [5, 6, 7] ∧
    ∃ s' : State, fsRead 512 51200 3 3 rampState = (Except.ok (3, [0, 1, 2]), s') := by
  obtain ⟨h1, h2⟩ := ramp_bytes
  refine ⟨⟨rfl, rfl⟩, rfl, h2, ?_⟩
  have h := fsRead_single rampState 512 51200 3 7 0 3 ⟨rfl, rfl⟩ (by decide) (by decide)
  rw [h1] at h
  exact ⟨_, h⟩

/-! ## `fsWrite` as its body followed by the final `fsSeek` -/

theorem FSM.bind_eq {α β : Type} (m : FSM α) (f : α → FSM β) : (m >>= f) = FSM.bind m f := rfl

theorem FSM.bind_assoc {α β γ : Type} (m : FSM α) (f : α → FSM β) (g : β → FSM γ) :
    FSM.bind (FSM.bind m f) g = FSM.bind m (fun a => FSM.bind (f a) g) := by
  funext s
  simp only [FSM.bind]
  rcases m s with ⟨r, s1⟩
  cases r <;> rfl

theorem FSM.ite_bind {α β : Type} (c : Prop) [Decidable c] (m1 m2 : FSM α) (g : α → FSM β) :
    FSM.bind (if c then m1 else m2) g = if c then FSM.bind m1 g else FSM.bind m2 g := by
  split <;> rfl

/-- The call `fsWrite` is its body followed by `fsSeek(fd, numb, SEEK_CUR)` and
`return 0`. -/
theorem fsWrite_eq_body (B : Nat) (fd numb : Int) (buf : Nat → Byte) :
    fsWrite B fd numb buf =
      FSM.bind (writeBody B fd numb buf)
        (fun _ => FSM.bind (fsSeek fd numb SEEK_CUR) (fun _ => FSM.pure 0)) := by
  unfold fsWrite writeBody
  simp only [FSM.bind_eq, FSM.bind_assoc, FSM.ite_bind]
  rfl

/-! ## The single-block branch across a block boundary -/

/-- A loop of `k1 + k2` iterations whose first `k1` iterations succeed is the
loop of the last `k2` iterations from the state reached. -/
theorem forUp_split {σ : Type} (body : Nat → σ → Except Err σ) :
    ∀ (k1 k2 lo : Nat) (st st' : σ), forUp body lo k1 st = Except.ok st' →
      forUp body lo (k1 + k2) st = forUp body (lo + k1) k2 st'
  | 0, k2, lo, st, st', h => by
    simp only [forUp] at h
    cases h
    simp
  | k1 + 1, k2, lo, st, st', h => by
    have e : k1 + 1 + k2 = (k1 + k2) + 1 := by omega
    rw [e]
    simp only [forUp] at h ⊢
    cases hb : body lo st with
    | error e' =>
      rw [hb] at h
      cases h
    | ok st1 =>
      rw [hb] at h
      simp only at h ⊢
      rw [forUp_split body k1 k2 (lo + 1) st1 st' h]
      have : lo + 1 + k1 = lo + (k1 + 1) := by omega
      rw [this]

/-- The copy loop driven past the end of the destination array, its reads
being in bounds: the store that leaves the array ends the loop. -/
theorem copyLoop_cross (dst src : List Byte) (off soff k : Nat)
    (h1 : off ≤ dst.length) (h2 : dst.length < off + k) (h3 : soff + k ≤ src.length) :
    copyLoop dst (off : Int) src (soff : Int) k = Except.error Err.OutOfBounds := by
  obtain ⟨k2, hk⟩ : ∃ k2, k = (dst.length - off) + (k2 + 1) :=
    ⟨k - (dst.length - off) - 1, by omega⟩
  obtain ⟨d, hd, hlen, _⟩ := copyLoop_spec dst src off soff (dst.length - off) (by omega)
    (by omega)
  unfold copyLoop at hd ⊢
  rw [hk, forUp_split _ _ _ _ _ _ hd]
  apply forUp_fail_first
  have hsrc : aget src ((soff : Int) + ((0 + (dst.length - off) : Nat) : Int)) =
      Except.ok (src.getD (soff + (0 + (dst.length - off))) 0) := by
    have h := aget_nat src (soff + (0 + (dst.length - off))) (by omega)
    push_cast at h ⊢
    exact h
  rw [hsrc]
  simp only
  apply aset_out
  rw [hlen]
  push_cast
  omega

/-- The single-block branch of `fsWrite` when the bytes cross the end of the
cursor's block: the store `blockBuffer[(fsTell(fd) % BYTESPERBLOCK) + i]` leaves
the array before anything is written to disk. -/
theorem fsWrite_single_cross (s : State) (B : Nat) (fd inum : Int) (ofte n c : Nat)
    (buf : Nat → Byte) (hv : ValidFd s fd inum ofte) (hc : getCurs s.g_oft ofte = c)
    (hB : 0 < B) (hn : n ≤ B) (hcross : B < c % B + n) (h2048 : n ≤ 2048)
    (s1 : State) (dbn : Int)
    (hstage : stageBlock B inum ((c / B : Nat) : Int) s
      = (Except.ok (dbn, readBlock s B inum ((c / B : Nat) : Int)), s1))
    (hfds : s1.fds = s.fds) (hoft : s1.g_oft = s.g_oft) :
    fsWrite B fd n buf s = (Except.error Err.OutOfBounds, s1) := by
  have hgt : ¬ ((n : Int) > B) := by
    have : (n : Int) ≤ B := by exact_mod_cast hn
    omega
  have hq : Int.tdiv (c : Int) B = ((c / B : Nat) : Int) := (Int.ofNat_tdiv c B).symm
  have hr : Int.tmod (c : Int) B = ((c % B : Nat) : Int) := (Int.ofNat_tmod c B).symm
  have hv1 : ValidFd s1 fd inum ofte := ValidFd_congr s s1 fd inum ofte hfds hoft hv
  have htell : fsTell fd s1 = (Except.ok (c : Int), s1) := by
    unfold fsTell
    rw [bfsTell_ok s1 fd inum ofte hv1, hoft, hc]
  have hcopy := copyLoop_cross (readBlock s B inum ((c / B : Nat) : Int))
    ((List.range 2048).map buf) (c % B) 0 n
    (by rw [readBlock_length]; exact (Nat.mod_lt c hB).le)
    (by rw [readBlock_length]; exact hcross)
    (by rw [whole_length]; omega)
  unfold fsWrite
  simp only [FSM.bind_apply, FSM.bind, bfsTell_ok s fd inum ofte hv,
    bfsFdToInum_ok s fd inum ofte hv, hc, hq, hr, hstage, hgt, if_false, htell,
    Int.toNat_ofNat]
  have hcopy' : copyLoop (readBlock s B inum ((c / B : Nat) : Int)) ((c % B : Nat) : Int)
      ((List.range 2048).map buf) 0 n = Except.error Err.OutOfBounds := hcopy
  simp only [hcopy', liftE]

/-! ## C19 and C11: writes that the single-block branch mishandles -/

/-- C19 (code defect): the write of the claim's example, 50 bytes at offset 500
with 512-byte blocks, on a file whose blocks are allocated.  The range crosses
the block boundary (`500 % 512 + 50 > 512`), yet `fsWrite` takes the
single-block branch because `numb > BYTESPERBLOCK` is false: the loop stores to
`blockBuffer[500 + i]` for every `i < 50` and leaves the 512-byte array at
`i = 12`.  The call ends there with the volume as it was: no input byte reaches
the block at the next FBN, which is never fetched nor written. -/
theorem fsWrite_crossing_not_multi_block (buf : Nat → Byte) :
    ValidFd crossState 3 7 0 ∧ getCurs crossState.g_oft 0 = 500 ∧
    ¬ ((50 : Int) > 512) ∧ Int.tmod 500 512 + 50 > 512 ∧
    0 ≤ crossState.dbnOf 7 0 ∧ 0 ≤ crossState.dbnOf 7 1 ∧
    fsWrite 512 3 50 buf crossState = (Except.error Err.OutOfBounds, crossState) := by
  refine ⟨⟨rfl, rfl⟩, rfl, by decide, by decide, by decide, by decide, ?_⟩
  exact fsWrite_single_cross crossState 512 3 7 0 50 500 buf ⟨rfl, rfl⟩ rfl (by decide)
    (by decide) (by decide) (by decide) crossState _
    (stageBlock_alloc crossState 512 7 _ (by decide)) rfl rfl

/-- C11 (code defect): a write of 50 bytes at offset 500 of an empty file, with
512-byte blocks.  The offset is beyond the size 0 and `bfsAllocBlock` extends
the file to cover FBN 0, that is to 512 bytes; the single-block branch then
stores to `blockBuffer[500 + i]` up to `i = 49`, leaves the array at `i = 12`,
and the block at FBN 1 is never allocated: the size after the call is 512, less
than `500 + 50`. -/
theorem fsWrite_beyond_size_not_extended (buf : Nat → Byte) :
    ValidFd seekPastEndState 3 7 0 ∧ getCurs seekPastEndState.g_oft 0 = 500 ∧
    fsSize 3 seekPastEndState = (Except.ok 0, seekPastEndState) ∧
    ∃ s', fsWrite 512 3 50 buf seekPastEndState = (Except.error Err.OutOfBounds, s') ∧
      fsSize 3 s' = (Except.ok 512, s') ∧ (512 : Int) < 500 + 50 := by
  have h := fsWrite_single_cross seekPastEndState 512 3 7 0 50 500 buf ⟨rfl, rfl⟩ rfl
    (by decide) (by decide) (by decide) (by decide) _ _
    (stageBlock_fresh seekPastEndState 512 7 _ 10 [11, 12, 13] (by decide) rfl) rfl rfl
  exact ⟨⟨rfl, rfl⟩, rfl, rfl, _, h, rfl, by decide⟩

/-! ## The cursor after `fsWrite` -/

theorem FSM.bind_ok_inv {α β : Type} (m : FSM α) (f : α → FSM β) (s s' : State) (b : β)
    (h : FSM.bind m f s = (Except.ok b, s')) :
    ∃ (a : α) (s1 : State), m s = (Except.ok a, s1) ∧ f a s1 = (Except.ok b, s') := by
  unfold FSM.bind at h
  rcases hm : m s with ⟨r, s1⟩
  rw [hm] at h
  cases r with
  | error e => cases h
  | ok a => exact ⟨a, s1, rfl, h⟩

/-- A relation on states that is transitive holds across a sequence of two
calls when it holds across each. -/
theorem FSM.bind_rel (R : State → State → Prop) (hR : ∀ a b c, R a b → R b c → R a c)
    {α β : Type} (m : FSM α) (f : α → FSM β) (s : State) (hm : R s (m s).2)
    (hf : ∀ a s1, m s = (Except.ok a, s1) → R s1 (f a s1).2) :
    R s (FSM.bind m f s).2 := by
  unfold FSM.bind
  rcases hms : m s with ⟨r, s1⟩
  rw [hms] at hm
  cases r with
  | error e => exact hm
  | ok a => exact hR _ _ _ hm (hf a s1 hms)

theorem keepsOFT_bind {α β : Type} (m : FSM α) (f : α → FSM β) (hm : KeepsOFT m)
    (hf : ∀ a, KeepsOFT (f a)) : KeepsOFT (FSM.bind m f) := by
  intro s
  exact FSM.bind_rel (fun a b => b.fds = a.fds ∧ b.g_oft = a.g_oft)
    (fun a b c h1 h2 => ⟨h2.1.trans h1.1, h2.2.trans h1.2⟩) m f s (hm s)
    (fun a s1 _ => hf a s1)

theorem keepsOFT_pure {α : Type} (a : α) : KeepsOFT (FSM.pure a) := fun _ => ⟨rfl, rfl⟩

theorem keepsOFT_liftE {α : Type} (x : Except Err α) : KeepsOFT (liftE x) :=
  fun _ => ⟨rfl, rfl⟩

theorem keepsOFT_FATAL {α : Type} (e : Err) : KeepsOFT (FATAL e : FSM α) :=
  fun _ => ⟨rfl, rfl⟩

theorem keepsOFT_bfsFdToInum (fd : Int) : KeepsOFT (bfsFdToInum fd) := by
  intro s
  unfold bfsFdToInum
  cases s.fds.lookup fd <;> exact ⟨rfl, rfl⟩

theorem keepsOFT_bfsFindOFTE (inum : Int) : KeepsOFT (bfsFindOFTE inum) := by
  intro s
  unfold bfsFindOFTE
  cases findOFTE s.g_oft inum <;> exact ⟨rfl, rfl⟩

theorem keepsOFT_bfsTell (fd : Int) : KeepsOFT (bfsTell fd) := by
  unfold bfsTell
  simp only [FSM.bind_eq]
  refine keepsOFT_bind _ _ (keepsOFT_bfsFdToInum fd) (fun inum => ?_)
  refine keepsOFT_bind _ _ (keepsOFT_bfsFindOFTE inum) (fun ofte => ?_)
  exact fun _ => ⟨rfl, rfl⟩

theorem keepsOFT_bfsFbnToDbn (inum fbn : Int) : KeepsOFT (bfsFbnToDbn inum fbn) :=
  fun _ => ⟨rfl, rfl⟩

theorem keepsOFT_bfsRead (B : Nat) (inum fbn : Int) : KeepsOFT (bfsRead B inum fbn) :=
  fun _ => ⟨rfl, rfl⟩

theorem keepsOFT_bfsAllocBlock (B : Nat) (inum fbn : Int) :
    KeepsOFT (bfsAllocBlock B inum fbn) := by
  intro s
  unfold bfsAllocBlock
  cases s.freeList <;> exact ⟨rfl, rfl⟩

theorem keepsOFT_bioWrite (dbn : Int) (blk : List Byte) : KeepsOFT (bioWrite dbn blk) := by
  intro s
  unfold bioWrite
  split <;> exact ⟨rfl, rfl⟩

theorem keepsOFT_stageBlock (B : Nat) (inum fbn : Int) :
    KeepsOFT (stageBlock B inum fbn) := by
  unfold stageBlock
  simp only [FSM.bind_eq]
  refine keepsOFT_bind _ _ (keepsOFT_bfsFbnToDbn inum fbn) (fun dbn => ?_)
  split
  · exact keepsOFT_bind _ _ (keepsOFT_bfsRead B inum fbn) (fun _ => keepsOFT_pure _)
  · refine keepsOFT_bind _ _ (keepsOFT_bfsAllocBlock B inum fbn) (fun _ => ?_)
    exact keepsOFT_bind _ _ (keepsOFT_bfsFbnToDbn inum fbn) (fun _ => keepsOFT_pure _)

theorem keepsOFT_writeMiddle (B : Nat) (inum numb : Int) (whole : List Byte) :
    ∀ (fuel : Nat) (fbn rem : Int) (blk : List Byte),
      KeepsOFT (writeMiddle B inum numb whole fuel fbn rem blk)
  | 0, fbn, rem, blk => by
    unfold writeMiddle
    split
    · exact keepsOFT_FATAL _
    · exact keepsOFT_pure _
  | fuel + 1, fbn, rem, blk => by
    unfold writeMiddle
    split
    · simp only [FSM.bind_eq]
      refine keepsOFT_bind _ _ (keepsOFT_liftE _) (fun st => ?_)
      refine keepsOFT_bind _ _ (keepsOFT_bfsFbnToDbn _ _) (fun dbn => ?_)
      refine keepsOFT_bind _ _ (keepsOFT_bioWrite _ _) (fun _ => ?_)
      exact keepsOFT_writeMiddle B inum numb whole fuel _ _ _
    · exact keepsOFT_pure _

theorem keepsOFT_writeLast (B : Nat) (inum numb : Int) (whole : List Byte) (fbn rem : Int) :
    KeepsOFT (writeLast B inum numb whole fbn rem) := by
  unfold writeLast
  simp only [FSM.bind_eq]
  refine keepsOFT_bind _ _ (keepsOFT_stageBlock _ _ _) (fun last => ?_)
  refine keepsOFT_bind _ _ (keepsOFT_liftE _) (fun blk => ?_)
  exact keepsOFT_bioWrite _ _

/-- The body of `fsWrite` never touches the open-file table: the cursor moves
in the final `fsSeek` only. -/
theorem keepsOFT_writeBody (B : Nat) (fd numb : Int) (buf : Nat → Byte) :
    KeepsOFT (writeBody B fd numb buf) := by
  unfold writeBody
  simp only [FSM.bind_eq]
  refine keepsOFT_bind _ _ (keepsOFT_bfsTell fd) (fun curs => ?_)
  refine keepsOFT_bind _ _ (keepsOFT_bfsFdToInum fd) (fun inum => ?_)
  refine keepsOFT_bind _ _ (keepsOFT_stageBlock _ _ _) (fun first => ?_)
  split
  · refine keepsOFT_bind _ _ (keepsOFT_bfsTell fd) (fun c => ?_)
    refine keepsOFT_bind _ _ (keepsOFT_liftE _) (fun st => ?_)
    refine keepsOFT_bind _ _ (keepsOFT_bioWrite _ _) (fun _ => ?_)
    refine keepsOFT_bind _ _ (keepsOFT_writeMiddle _ _ _ _ _ _ _ _) (fun mid => ?_)
    exact keepsOFT_writeLast _ _ _ _ _ _
  · refine keepsOFT_bind _ _ (keepsOFT_bfsTell fd) (fun c => ?_)
    refine keepsOFT_bind _ _ (keepsOFT_liftE _) (fun blk => ?_)
    exact keepsOFT_bioWrite _ _

/-- A call of `fsSeek` with `SEEK_CUR` on an open descriptor that returns has
a non-negative offset and moves the cursor of the descriptor by it. -/
theorem fsSeek_cur_ok_inv (s : State) (fd inum : Int) (ofte : Nat) (k v : Int) (s' : State)
    (hv : ValidFd s fd inum ofte) (h : fsSeek fd k SEEK_CUR s = (Except.ok v, s')) :
    0 ≤ k ∧ v = 0 ∧
      s' = { s with g_oft := setCurs s.g_oft ofte (wrap32 (getCurs s.g_oft ofte + k)) } := by
  by_cases hk : k < 0
  · simp [fsSeek, hk, FATAL] at h
  · have hk' : 0 ≤ k := by omega
    rw [fsSeek_cur_ok s fd inum ofte k hv hk'] at h
    simp only [Prod.mk.injEq, Except.ok.injEq] at h
    exact ⟨hk', h.1.symm, h.2.symm⟩

/-- A call of `fsWrite` on an open descriptor that returns has `numb ≥ 0`,
returns 0, and its state is the state after the body with the cursor of the
descriptor moved by `numb`. -/
theorem fsWrite_ok_inv (s : State) (B : Nat) (fd inum : Int) (ofte : Nat) (n v : Int)
    (buf : Nat → Byte) (s' : State) (hv : ValidFd s fd inum ofte)
    (h : fsWrite B fd n buf s = (Except.ok v, s')) :
    0 ≤ n ∧ v = 0 ∧ ∃ s5 : State, writeBody B fd n buf s = (Except.ok (), s5) ∧
      s5.fds = s.fds ∧ s5.g_oft = s.g_oft ∧
      s' = { s5 with g_oft := setCurs s.g_oft ofte (wrap32 (getCurs s.g_oft ofte + n)) } := by
  rw [fsWrite_eq_body] at h
  obtain ⟨u, s5, hbody, h2⟩ := FSM.bind_ok_inv _ _ _ _ _ h
  obtain ⟨x, s6, hseek, h3⟩ := FSM.bind_ok_inv _ _ _ _ _ h2
  have hk := keepsOFT_writeBody B fd n buf s
  rw [hbody] at hk
  have hv5 : ValidFd s5 fd inum ofte := ValidFd_congr s s5 fd inum ofte hk.1 hk.2 hv
  obtain ⟨h0, _, hs6⟩ := fsSeek_cur_ok_inv s5 fd inum ofte n x s6 hv5 hseek
  simp only [FSM.pure, Prod.mk.injEq, Except.ok.injEq] at h3
  refine ⟨h0, h3.1.symm, s5, hbody, hk.1, hk.2, ?_⟩
  rw [← h3.2, hs6]
  have e : s5.g_oft = s.g_oft := hk.2
  rw [e]

theorem fiveBlock_dbn (f : Nat) (h : f ≤ 4) : fiveBlockState.dbnOf 7 (f : Int) = 10 + (f : Int) := by
  have h0 : (0 : Int) ≤ f := Int.ofNat_nonneg f
  have h4 : (f : Int) ≤ 4 := by exact_mod_cast h
  simp [fiveBlockState, h0, h4]

/-- A write of at most one block that stays inside the cursor's block returns
when that block is allocated or can be. -/
theorem fsWrite_single_returns (s : State) (B : Nat) (fd inum : Int) (ofte n c : Nat)
    (buf : Nat → Byte) (hv : ValidFd s fd inum ofte) (hc : getCurs s.g_oft ofte = c)
    (hn : n ≤ B) (hfit : c % B + n ≤ B) (h2048 : n ≤ 2048)
    (hfree : 0 ≤ s.dbnOf inum ((c / B : Nat) : Int) ∨ s.freeList ≠ []) :
    ∃ s', fsWrite B fd n buf s = (Except.ok 0, s') := by
  by_cases halloc : 0 ≤ s.dbnOf inum ((c / B : Nat) : Int)
  · obtain ⟨blk, hw, _⟩ := fsWrite_single s B fd inum ofte n c buf hv hc
      hn hfit h2048 s _ (stageBlock_alloc s B inum _ halloc) halloc rfl rfl
    exact ⟨_, hw⟩
  · have hne : s.freeList ≠ [] := by
      rcases hfree with h | h
      · exact absurd h halloc
      · exact h
    obtain ⟨d, rest, hfl⟩ := List.exists_cons_of_ne_nil hne
    have hneg : s.dbnOf inum ((c / B : Nat) : Int) < 0 := by omega
    obtain ⟨blk, hw, _⟩ := fsWrite_single s B fd inum ofte n c buf hv hc
      hn hfit h2048 _ _ (stageBlock_fresh s B inum _ d rest hneg hfl)
      (Int.ofNat_nonneg d) rfl rfl
    exact ⟨_, hw⟩

/-- C13: for a valid descriptor and `n ≥ 0`, whenever `fsWrite(fd, n, data)`
returns, the cursor is the old cursor plus `n`; the test `numb > BYTESPERBLOCK`
plays no part, so this holds in the single-block and in the multi-block case
alike.  The sum is the `i32` addition of `fsSeek` (`wrap32`), the exact sum
whenever that fits in an `i32`.  The call does return in both cases: for a
write within the cursor's block when that block is allocated or can be, and for
a write of more than a block, within the staging buffer, when every block it
touches is allocated, on distinct disk blocks. -/
theorem fsWrite_cursor_advance (s : State) (BYTESPERBLOCK : Nat) (fd inum : Int) (ofte : Nat)
    (n : Int) (buf : Nat → Byte) (hv : ValidFd s fd inum ofte) (h0 : 0 ≤ n) :
    (∀ (v : Int) (s' : State), fsWrite BYTESPERBLOCK fd n buf s = (Except.ok v, s') →
      getCurs s'.g_oft ofte = wrap32 (getCurs s.g_oft ofte + n) ∧
      (-2147483648 ≤ getCurs s.g_oft ofte + n → getCurs s.g_oft ofte + n ≤ 2147483647 →
        getCurs s'.g_oft ofte = getCurs s.g_oft ofte + n)) ∧
    (0 ≤ getCurs s.g_oft ofte → n ≤ BYTESPERBLOCK →
      Int.tmod (getCurs s.g_oft ofte) BYTESPERBLOCK + n ≤ BYTESPERBLOCK → n ≤ 2048 →
      (0 ≤ s.dbnOf inum (Int.tdiv (getCurs s.g_oft ofte) BYTESPERBLOCK) ∨ s.freeList ≠ []) →
      ∃ s', fsWrite BYTESPERBLOCK fd n buf s = (Except.ok 0, s')) ∧
    (0 ≤ getCurs s.g_oft ofte → 0 < BYTESPERBLOCK → (BYTESPERBLOCK : Int) < n → n ≤ 2048 →
      (∀ f : Nat, (getCurs s.g_oft ofte).toNat / BYTESPERBLOCK ≤ f →
        f * BYTESPERBLOCK < (getCurs s.g_oft ofte).toNat + n.toNat → 0 ≤ s.dbnOf inum f) →
      (∀ f g : Nat, (getCurs s.g_oft ofte).toNat / BYTESPERBLOCK ≤ f →
        f * BYTESPERBLOCK < (getCurs s.g_oft ofte).toNat + n.toNat →
        (getCurs s.g_oft ofte).toNat / BYTESPERBLOCK ≤ g →
        g * BYTESPERBLOCK < (getCurs s.g_oft ofte).toNat + n.toNat → f ≠ g →
        s.dbnOf inum f ≠ s.dbnOf inum g) →
      ∃ s', fsWrite BYTESPERBLOCK fd n buf s = (Except.ok 0, s')) := by
  obtain ⟨m, rfl⟩ := Int.eq_ofNat_of_zero_le h0
  refine ⟨?_, ?_, ?_⟩
  · intro v s' h
    obtain ⟨_, _, s5, _, _, _, hs⟩ := fsWrite_ok_inv s BYTESPERBLOCK fd inum ofte m v buf s' hv h
    subst hs
    have hc : getCurs (setCurs s.g_oft ofte (wrap32 (getCurs s.g_oft ofte + (m : Int)))) ofte
        = wrap32 (getCurs s.g_oft ofte + (m : Int)) :=
      getCurs_setCurs_same s.g_oft ofte _ (findOFTE_lt _ _ _ hv.2)
    refine ⟨hc, fun h1 h2 => ?_⟩
    show getCurs (setCurs s.g_oft ofte _) ofte = _
    rw [hc, wrap32_of_range _ h1 h2]
  · intro hc0 hn hfit h2048 hfree
    obtain ⟨c, hc⟩ := Int.eq_ofNat_of_zero_le hc0
    have hq : Int.tdiv (c : Int) BYTESPERBLOCK = ((c / BYTESPERBLOCK : Nat) : Int) :=
      (Int.ofNat_tdiv c BYTESPERBLOCK).symm
    have hr : Int.tmod (c : Int) BYTESPERBLOCK = ((c % BYTESPERBLOCK : Nat) : Int) :=
      (Int.ofNat_tmod c BYTESPERBLOCK).symm
    simp only [hc, hq, hr] at hfit hfree
    exact fsWrite_single_returns s BYTESPERBLOCK fd inum ofte m c buf hv hc
      (by exact_mod_cast hn) (by exact_mod_cast hfit) (by exact_mod_cast h2048) hfree
  · intro hc0 hB hn h2048 halloc hinj
    obtain ⟨c, hc⟩ := Int.eq_ofNat_of_zero_le hc0
    simp only [hc, Int.toNat_ofNat] at halloc hinj
    obtain ⟨s', hw, _⟩ := fsWrite_multi_alloc s BYTESPERBLOCK fd inum ofte m c buf hv hc hB
      (by exact_mod_cast hn) (by exact_mod_cast h2048) halloc hinj
    exact ⟨s', hw⟩

/-- Witness of C13: 1000 bytes written at cursor 0 of a file whose blocks are
allocated, with 512-byte blocks; the call returns and the cursor is 1000. -/
theorem fsWrite_cursor_advance_witness :
    ∃ s', fsWrite 512 3 1000 (fun i : Nat => ((i % 100 : Nat) : Int)) fiveBlockState = (Except.ok 0, s') ∧
      getCurs s'.g_oft 0 = 1000 := by
  have h := fsWrite_cursor_advance fiveBlockState 512 3 7 0 1000 (fun i : Nat => ((i % 100 : Nat) : Int))
    ⟨rfl, rfl⟩ (by decide)
  obtain ⟨s', hs'⟩ := h.2.2 (by decide) (by decide) (by decide) (by decide)
    (fun f _ h2 => by
      have h2' : f * 512 < 0 + 1000 := h2
      rw [fiveBlock_dbn f (by omega)]
      omega)
    (fun f g _ h2 _ h4 hne => by
      have h2' : f * 512 < 0 + 1000 := h2
      have h4' : g * 512 < 0 + 1000 := h4
      rw [fiveBlock_dbn f (by omega), fiveBlock_dbn g (by omega)]
      omega)
  exact ⟨s', hs', (h.1 0 s' hs').2 (by decide) (by decide)⟩

/-! ## C14: the sign of the cursors -/

theorem setCurs_nonneg : ∀ (l : List OFTE) (k : Nat) (c : Int),
    (∀ e ∈ l, 0 ≤ e.curs) → 0 ≤ c → ∀ e ∈ setCurs l k c, 0 ≤ e.curs
  | [], _, _, _, _ => by simp [setCurs]
  | e :: es, 0, c, h, hc => by
    intro x hx
    simp only [setCurs, List.mem_cons] at hx
    rcases hx with rfl | hx
    · exact hc
    · exact h x (List.mem_cons_of_mem _ hx)
  | e :: es, k + 1, c, h, hc => by
    intro x hx
    simp only [setCurs, List.mem_cons] at hx
    rcases hx with rfl | hx
    · exact h _ (List.mem_cons_self _ _)
    · exact setCurs_nonneg es k c (fun y hy => h y (List.mem_cons_of_mem _ hy)) hc x hx

theorem getCurs_nonneg : ∀ (l : List OFTE) (k : Nat), (∀ e ∈ l, 0 ≤ e.curs) → 0 ≤ getCurs l k
  | [], _, _ => by simp [getCurs]
  | e :: es, 0, h => by
    simp only [getCurs]
    exact h e (List.mem_cons_self _ _)
  | e :: es, k + 1, h => by
    simp only [getCurs]
    exact getCurs_nonneg es k (fun y hy => h y (List.mem_cons_of_mem _ hy))

/-- Setting one cursor to a non-negative value keeps every cursor
non-negative. -/
theorem CursorsNonneg_set (s s' : State) (k : Nat) (c : Int) (h : CursorsNonneg s)
    (hc : 0 ≤ c) (hs : s'.g_oft = setCurs s.g_oft k c) : CursorsNonneg s' := by
  unfold CursorsNonneg
  rw [hs]
  exact setCurs_nonneg s.g_oft k c h hc

/-- A call of `fsSeek` on an open descriptor that returns has a non-negative
offset and one of the three modes, and sets the cursor of the descriptor as
that mode says. -/
theorem fsSeek_ok_inv (s : State) (fd inum : Int) (ofte : Nat) (offset whence v : Int)
    (s' : State) (hv : ValidFd s fd inum ofte)
    (h : fsSeek fd offset whence s = (Except.ok v, s')) :
    0 ≤ offset ∧
    ((whence = SEEK_SET ∧ s' = { s with g_oft := setCurs s.g_oft ofte offset }) ∨
     (whence = SEEK_CUR ∧
        s' = { s with g_oft := setCurs s.g_oft ofte (wrap32 (getCurs s.g_oft ofte + offset)) }) ∨
     (whence = SEEK_END ∧
        s' = { s with g_oft := setCurs s.g_oft ofte (wrap32 (s.size inum + offset)) })) := by
  by_cases hk : offset < 0
  · simp [fsSeek, hk, FATAL] at h
  · have hk' : 0 ≤ offset := by omega
    refine ⟨hk', ?_⟩
    by_cases h1 : whence = SEEK_SET
    · left
      subst h1
      rw [fsSeek_set_ok s fd inum ofte offset hv hk'] at h
      simp only [Prod.mk.injEq, Except.ok.injEq] at h
      exact ⟨rfl, h.2.symm⟩
    · by_cases h2 : whence = SEEK_CUR
      · right; left
        subst h2
        rw [fsSeek_cur_ok s fd inum ofte offset hv hk'] at h
        simp only [Prod.mk.injEq, Except.ok.injEq] at h
        exact ⟨rfl, h.2.symm⟩
      · by_cases h3 : whence = SEEK_END
        · right; right
          subst h3
          rw [fsSeek_end_ok s fd inum ofte offset hv hk'] at h
          simp only [Prod.mk.injEq, Except.ok.injEq] at h
          exact ⟨rfl, h.2.symm⟩
        · have hn : ¬ offset < 0 := hk
          simp [fsSeek, hn, FSM.bind, bfsFdToInum_ok s fd inum ofte hv,
            bfsFindOFTE_ok s fd inum ofte hv, h1, h2, h3, FATAL] at h

/-- A negative count makes `fsRead` fail: `memcpy` is given a count beyond
`wholeBuffer`, or the block does not fit `wholeBuffer`. -/
theorem fsRead_negative (s : State) (B D : Nat) (fd inum : Int) (ofte : Nat) (n : Int)
    (hv : ValidFd s fd inum ofte) (hn : n < 0) :
    fsRead B D fd n s = (Except.error Err.OutOfBounds, s) := by
  by_cases hD : D < B
  · exact fsRead_single_overrun s B D fd inum ofte n hv (by omega) hD
  · have hgt : ¬ (n > (B : Int)) := by omega
    have hst := storeBlock_spec (List.replicate D 0)
      (readBlock s B inum (Int.tdiv (getCurs s.g_oft ofte) B))
      (by simp [readBlock_length]; omega)
    have hm : ∀ w : List Byte, memcpyOut w n = Except.error Err.OutOfBounds := by
      intro w
      have : ¬ (0 ≤ n ∧ n ≤ (w.length : Int)) := by omega
      simp [memcpyOut, this]
    unfold fsRead
    simp only [FSM.bind_apply, FSM.bind, bfsTell_ok s fd inum ofte hv,
      bfsFdToInum_ok s fd inum ofte hv, getState_ok, hgt, if_false, hst, liftE_ok, hm]
    rfl

/-- C14, as stated, fails: with every cursor and size non-negative and the
cursor at 2147483647, the call `fsSeek(fd, 1, SEEK_CUR)` succeeds and the
32-bit sum `cursor + 1` is the negative number -2147483648, which becomes the
cursor. -/
theorem fsSeek_cursor_wraps_negative :
    ValidFd maxCursorState 3 7 0 ∧ CursorsNonneg maxCursorState ∧
    (∀ i, 0 ≤ maxCursorState.size i) ∧
    ∃ s', fsSeek 3 1 SEEK_CUR maxCursorState = (Except.ok 0, s') ∧
      getCurs s'.g_oft 0 = -2147483648 ∧ ¬ CursorsNonneg s' := by
  refine ⟨⟨rfl, rfl⟩, ?_, fun _ => le_refl _, _,
    fsSeek_cur_ok maxCursorState 3 7 0 1 ⟨rfl, rfl⟩ (by decide), by decide, ?_⟩
  · unfold CursorsNonneg
    decide
  · unfold CursorsNonneg
    decide

/-- C14, amended: starting from an open-file table in which every cursor is
non-negative, with non-negative sizes, every successful `fsSeek`, `fsRead` and
`fsWrite` on an open descriptor whose new cursor position does not exceed
2147483647 leaves every cursor non-negative.  The new position is the offset
for `SEEK_SET`, the old cursor plus the offset for `SEEK_CUR`, the size plus
the offset for `SEEK_END`, the old cursor plus the count returned for `fsRead`
and the old cursor plus `n` for `fsWrite`; an offset for `SEEK_SET` is an `i32`
already.  A call on a descriptor that is not open never succeeds. -/
theorem cursors_stay_nonneg (s : State) (BYTESPERBLOCK BYTESPERDISK : Nat) (fd inum : Int)
    (ofte : Nat) (hv : ValidFd s fd inum ofte) (hB : 0 < BYTESPERBLOCK)
    (hcur : CursorsNonneg s) (hsize : ∀ i, 0 ≤ s.size i) :
    (∀ (offset whence v : Int) (s' : State),
      fsSeek fd offset whence s = (Except.ok v, s') →
      (whence = SEEK_CUR → getCurs s.g_oft ofte + offset ≤ 2147483647) →
      (whence = SEEK_END → s.size inum + offset ≤ 2147483647) → CursorsNonneg s') ∧
    (∀ (n r : Int) (out : List Byte) (s' : State),
      fsRead BYTESPERBLOCK BYTESPERDISK fd n s = (Except.ok (r, out), s') →
      getCurs s.g_oft ofte + r ≤ 2147483647 → CursorsNonneg s') ∧
    (∀ (n : Int) (buf : Nat → Byte) (v : Int) (s' : State),
      fsWrite BYTESPERBLOCK fd n buf s = (Except.ok v, s') →
      getCurs s.g_oft ofte + n ≤ 2147483647 → CursorsNonneg s') := by
  have hc0 : 0 ≤ getCurs s.g_oft ofte := getCurs_nonneg s.g_oft ofte hcur
  refine ⟨?_, ?_, ?_⟩
  · intro offset whence v s' h hcurB hendB
    obtain ⟨h0, hcase⟩ := fsSeek_ok_inv s fd inum ofte offset whence v s' hv h
    rcases hcase with ⟨_, hs⟩ | ⟨hw, hs⟩ | ⟨hw, hs⟩
    · exact CursorsNonneg_set s s' ofte offset hcur h0 (by rw [hs])
    · refine CursorsNonneg_set s s' ofte _ hcur ?_ (by rw [hs])
      have hb := hcurB hw
      rw [wrap32_of_range _ (by omega) hb]
      omega
    · refine CursorsNonneg_set s s' ofte _ hcur ?_ (by rw [hs])
      have hb := hendB hw
      have hsz := hsize inum
      rw [wrap32_of_range _ (by omega) hb]
      omega
  · intro n r out s' h hb
    by_cases hn : n < 0
    · rw [fsRead_negative s BYTESPERBLOCK BYTESPERDISK fd inum ofte n hv hn] at h
      cases h
    · obtain ⟨m, rfl⟩ := Int.eq_ofNat_of_zero_le (by omega : 0 ≤ n)
      obtain ⟨_, _, hs, hr0, _⟩ :=
        fsRead_ok_inv s BYTESPERBLOCK BYTESPERDISK fd inum ofte m hv hB r out s' h
      refine CursorsNonneg_set s s' ofte _ hcur ?_ (by rw [hs])
      rw [wrap32_of_range _ (by omega) hb]
      omega
  · intro n buf v s' h hb
    obtain ⟨h0, _, s5, _, _, _, hs⟩ := fsWrite_ok_inv s BYTESPERBLOCK fd inum ofte n v buf s' hv h
    refine CursorsNonneg_set s s' ofte _ hcur ?_ (by rw [hs])
    rw [wrap32_of_range _ (by omega) hb]
    omega

/-- Witness of C14 amended: a seek to 40 bytes after the end, a read of 3 bytes
and a write of 10 bytes, each from the state with the cursor at 5 in a file of
512 bytes. -/
theorem cursors_stay_nonneg_witness :
    CursorsNonneg (fsSeek 3 40 SEEK_END rampState).2 ∧
    CursorsNonneg (fsRead 512 51200 3 3 rampState).2 ∧
    CursorsNonneg (fsWrite 512 3 10 (fun i : Nat => (i : Int)) rampState).2 := by
  have h := cursors_stay_nonneg rampState 512 51200 3 7 0 ⟨rfl, rfl⟩ (by decide)
    (by unfold CursorsNonneg; decide) (fun _ => by show (0 : Int) ≤ 512; decide)
  have e1 := fsSeek_end_ok rampState 3 7 0 40 ⟨rfl, rfl⟩ (by decide)
  have e2 := fsRead_single rampState 512 51200 3 7 0 3 ⟨rfl, rfl⟩ (by decide) (by decide)
  obtain ⟨blk, e3, _⟩ := fsWrite_single rampState 512 3 7 0 10 5 (fun i : Nat => (i : Int))
    ⟨rfl, rfl⟩ rfl (by decide) (by decide) (by decide) rampState _
    (stageBlock_alloc rampState 512 7 _ (by decide)) (by decide) rfl rfl
  refine ⟨?_, ?_, ?_⟩
  · rw [e1]
    exact h.1 40 SEEK_END 0 _ e1 (fun _ => by decide) (fun _ => by decide)
  · have e2' : fsRead 512 51200 3 3 rampState = _ := e2
    rw [e2']
    exact h.2.1 3 _ _ _ e2' (by decide)
  · have e3' : fsWrite 512 3 10 (fun i : Nat => (i : Int)) rampState = _ := e3
    rw [e3']
    exact h.2.2 10 _ 0 _ e3' (by decide)

/-! ## C18: what a multi-block `fsWrite` leaves untouched -/

theorem frame_refl (W : Int → Nat → Prop) (a : State) : Frame W a a :=
  ⟨rfl, rfl, rfl, rfl, rfl, fun _ _ => Or.inl rfl⟩

theorem frame_trans (W : Int → Nat → Prop) (a b c : State) (h1 : Frame W a b)
    (h2 : Frame W b c) : Frame W a c := by
  obtain ⟨a1, a2, a3, a4, a5, a6⟩ := h1
  obtain ⟨b1, b2, b3, b4, b5, b6⟩ := h2
  refine ⟨b1.trans a1, b2.trans a2, b3.trans a3, b4.trans a4, b5.trans a5, fun d j => ?_⟩
  rcases b6 d j with h | h
  · rcases a6 d j with h' | h'
    · exact Or.inl (h.trans h')
    · exact Or.inr h'
  · exact Or.inr h

/-- Writing a disk block whose bytes are the bytes it holds, but for positions
of `W`, is a change within `W`; so is a write that fails. -/
theorem bioWrite_frame (W : Int → Nat → Prop) (s : State) (dbn : Int) (blk : List Byte)
    (h : ∀ j : Nat, blk.getD j 0 = s.disk dbn j ∨ W dbn j) :
    Frame W s (bioWrite dbn blk s).2 := by
  unfold bioWrite
  split
  · refine ⟨rfl, rfl, rfl, rfl, rfl, fun d j => ?_⟩
    show (if d = dbn then blk.getD j 0 else s.disk d j) = s.disk d j ∨ W d j
    by_cases hd : d = dbn
    · subst hd
      rw [if_pos rfl]
      exact h j
    · rw [if_neg hd]
      exact Or.inl rfl
  · exact frame_refl W s

/-- Invariant rule for the results of `forUp`: what the body keeps on every
iteration that succeeds holds when the loop succeeds. -/
theorem forUp_inv_ok {σ : Type} (body : Nat → σ → Except Err σ) (Inv : Nat → σ → Prop) :
    ∀ (k lo : Nat) (st : σ), Inv lo st →
      (∀ i st st', lo ≤ i → i < lo + k → Inv i st → body i st = Except.ok st' →
        Inv (i + 1) st') →
      ∀ st', forUp body lo k st = Except.ok st' → Inv (lo + k) st'
  | 0, lo, st, h0, _, st', h => by
    simp only [forUp] at h
    cases h
    exact h0
  | k + 1, lo, st, h0, hstep, st', h => by
    simp only [forUp] at h
    cases hb : body lo st with
    | error e =>
      rw [hb] at h
      cases h
    | ok st1 =>
      rw [hb] at h
      have h1 := hstep lo st st1 (Nat.le_refl _) (by omega) h0 hb
      have := forUp_inv_ok body Inv k (lo + 1) st1 h1
        (fun i st st' hi hlt hinv hbody => hstep i st st' (by omega) (by omega) hinv hbody)
        st' h
      have e : lo + (k + 1) = lo + 1 + k := by omega
      rw [e]
      exact this

/-- The copy loop, when it succeeds, leaves `dst` as it is outside positions
`[off, off + k)`. -/
theorem copyLoop_frame (dst src : List Byte) (off : Nat) (soff : Int) (k : Nat) (d : List Byte)
    (h : copyLoop dst (off : Int) src soff k = Except.ok d) :
    d.length = dst.length ∧ ∀ j : Nat, (j < off ∨ off + k ≤ j) → d.getD j 0 = dst.getD j 0 := by
  unfold copyLoop at h
  have := forUp_inv_ok
    (fun (j : Nat) (d : List Byte) =>
      match aget src (soff + j) with
      | Except.ok b => aset d ((off : Int) + j) b
      | Except.error e => Except.error e)
    (fun (i : Nat) (d : List Byte) => d.length = dst.length ∧
      ∀ j : Nat, (j < off ∨ off + i ≤ j) → d.getD j 0 = dst.getD j 0)
    k 0 dst ⟨rfl, fun _ _ => rfl⟩
    (by
      intro i st st' _ _ hinv hbody
      simp only at hbody
      cases hg : aget src (soff + (i : Int)) with
      | error e =>
        rw [hg] at hbody
        cases hbody
      | ok b =>
        rw [hg] at hbody
        simp only at hbody
        by_cases hlt : off + i < st.length
        · have hs := aset_nat st (off + i) b hlt
          push_cast at hs
          rw [hs] at hbody
          cases hbody
          refine ⟨by simp [hinv.1], fun j hj => ?_⟩
          rw [getD_set_byte st (off + i) j b hlt, if_neg (by omega)]
          exact hinv.2 j (by omega)
        · have hs := aset_out st ((off : Int) + (i : Int)) b (by omega)
          rw [hs] at hbody
          cases hbody)
    d h
  simpa using this

/-- The last block of the multi-block branch, when it is allocated: a change
within the written positions. -/
theorem writeLast_frame (s0 sK : State) (B : Nat) (inum : Int) (c n : Nat) (whole : List Byte)
    (fbn : Int) (L r : Nat) (hL : fbn + 1 = L) (hpos : L * B + r = c + n) (hr1 : 1 ≤ r)
    (hq : c / B ≤ L) (hcL : c ≤ L * B) (hdbn : sK.dbnOf = s0.dbnOf)
    (hal : 0 ≤ s0.dbnOf inum (L : Int)) :
    Frame (InWritten s0 B inum c n) sK (writeLast B inum n whole fbn r sK).2 := by
  have hal' : 0 ≤ sK.dbnOf inum (L : Int) := by rw [hdbn]; exact hal
  unfold writeLast
  simp only [FSM.bind_apply, FSM.bind, hL, stageBlock_alloc sK B inum (L : Int) hal']
  cases hcl : copyLoop (readBlock sK B inum (L : Int)) 0 whole ((n : Int) - (r : Int))
      (r : Int).toNat with
  | error e =>
    simp only [liftE]
    exact frame_refl _ sK
  | ok blk =>
    simp only [liftE]
    apply bioWrite_frame
    intro j
    have hcl' : copyLoop (readBlock sK B inum (L : Int)) ((0 : Nat) : Int) whole
        ((n : Int) - (r : Int)) r = Except.ok blk := by simpa using hcl
    obtain ⟨_, hfr⟩ := copyLoop_frame _ _ _ _ _ _ hcl'
    by_cases hjB : B ≤ j
    · exact Or.inr ⟨L, hq, by omega, by rw [hdbn], Or.inl hjB⟩
    · by_cases hjr : j < r
      · exact Or.inr ⟨L, hq, by omega, by rw [hdbn], Or.inr ⟨by omega, by omega⟩⟩
      · left
        rw [hfr j (Or.inr (by omega)), readBlock_getD _ _ _ _ j (by omega), if_pos hal']

/-- The `while` loop of `fsWrite` followed by the last block, from any block
boundary `L * B` inside the range: a change within the written positions,
whatever the outcome. -/
theorem writeMiddle_frame (s0 : State) (B : Nat) (inum : Int) (c n : Nat) (whole : List Byte)
    (hB : 0 < B)
    (halloc : ∀ f : Nat, c / B ≤ f → f * B < c + n → 0 ≤ s0.dbnOf inum (f : Int)) :
    ∀ (fuel : Nat) (fbn : Int) (L r : Nat) (blk : List Byte) (sK : State),
      fbn + 1 = L → L * B + r = c + n → 1 ≤ r → c / B ≤ L → c ≤ L * B →
      sK.dbnOf = s0.dbnOf →
      Frame (InWritten s0 B inum c n) sK
        (FSM.bind (writeMiddle B inum n whole fuel fbn r blk)
          (fun mid => writeLast B inum n whole mid.1 mid.2.1) sK).2
  | 0, fbn, L, r, blk, sK, hL, hpos, hr1, hq, hcL, hdbn => by
    by_cases hgt : (r : Int) > B
    · simp only [writeMiddle, if_pos hgt, FSM.bind, FATAL]
      exact frame_refl _ sK
    · simp only [writeMiddle, if_neg hgt, FSM.bind, FSM.pure_apply]
      exact writeLast_frame s0 sK B inum c n whole fbn L r hL hpos hr1 hq hcL hdbn
        (halloc L hq (by omega))
  | fuel + 1, fbn, L, r, blk, sK, hL, hpos, hr1, hq, hcL, hdbn => by
    by_cases hgt : (r : Int) > B
    · have hrB : B < r := by exact_mod_cast hgt
      simp only [writeMiddle, if_pos hgt, FSM.bind_apply, FSM.bind, fillWhole_eq, hL]
      cases hcl : copyLoop blk 0 whole ((n : Int) - (r : Int)) B with
      | error e =>
        simp only [liftE, Except.map]
        exact frame_refl _ sK
      | ok blk2 =>
        simp only [liftE, Except.map, bfsFbnToDbn]
        have hF := bioWrite_frame (InWritten s0 B inum c n) sK (sK.dbnOf inum (L : Int)) blk2
          (fun j => Or.inr ⟨L, hq, by omega, by rw [hdbn], by
            by_cases hjB : B ≤ j
            · exact Or.inl hjB
            · exact Or.inr ⟨by omega, by omega⟩⟩)
        rcases hbw : bioWrite (sK.dbnOf inum (L : Int)) blk2 sK with ⟨rb, s2⟩
        rw [hbw] at hF
        cases rb with
        | error e => exact hF
        | ok u =>
          have e1 : (L + 1) * B = L * B + B := by ring
          have hrc : ((r : Int) - (B : Int)) = ((r - B : Nat) : Int) := by omega
          have ih := writeMiddle_frame s0 B inum c n whole hB halloc fuel (L : Int) (L + 1)
            (r - B) blk2 s2 (by push_cast; rfl) (by omega) (by omega) (by omega) (by omega)
            (hF.2.2.1.trans hdbn)
          simp only [hrc]
          exact frame_trans _ _ _ _ hF ih
    · simp only [writeMiddle, if_neg hgt, FSM.bind, FSM.pure_apply]
      exact writeLast_frame s0 sK B inum c n whole fbn L r hL hpos hr1 hq hcL hdbn
        (halloc L hq (by omega))

/-- The body of a multi-block `fsWrite` whose first and last blocks are
allocated: a change within the written positions, whatever the outcome. -/
theorem writeBody_frame (s : State) (B : Nat) (fd inum : Int) (ofte n c : Nat)
    (buf : Nat → Byte) (hv : ValidFd s fd inum ofte) (hc : getCurs s.g_oft ofte = c)
    (hB : 0 < B) (hn : B < n)
    (halloc : ∀ f : Nat, c / B ≤ f → f * B < c + n → 0 ≤ s.dbnOf inum (f : Int)) :
    Frame (InWritten s B inum c n) s (writeBody B fd n buf s).2 := by
  have hgt : (n : Int) > B := by exact_mod_cast hn
  have hmod : c % B < B := Nat.mod_lt c hB
  have hdm : B * (c / B) + c % B = c := Nat.div_add_mod c B
  have hFB : c / B * B = B * (c / B) := Nat.mul_comm _ _
  have hq : Int.tdiv (c : Int) B = ((c / B : Nat) : Int) := (Int.ofNat_tdiv c B).symm
  have hr : Int.tmod (c : Int) B = ((c % B : Nat) : Int) := (Int.ofNat_tmod c B).symm
  have hal0 : 0 ≤ s.dbnOf inum ((c / B : Nat) : Int) := halloc (c / B) (le_refl _) (by omega)
  have htell : fsTell fd s = (Except.ok (c : Int), s) := by
    unfold fsTell
    rw [bfsTell_ok s fd inum ofte hv, hc]
  have hcnt : ((B : Int) - ((c % B : Nat) : Int)).toNat = B - c % B := by omega
  unfold writeBody
  simp only [FSM.bind_apply, FSM.bind, bfsTell_ok s fd inum ofte hv,
    bfsFdToInum_ok s fd inum ofte hv, hc, hq, hr, stageBlock_alloc s B inum _ hal0, hgt,
    if_true, htell, fillFirst_eq, hcnt]
  cases hcl : copyLoop (readBlock s B inum ((c / B : Nat) : Int)) ((c % B : Nat) : Int)
      ((List.range 2048).map buf) 0 (B - c % B) with
  | error e =>
    simp only [liftE, Except.map]
    exact frame_refl _ s
  | ok blk1 =>
    simp only [liftE, Except.map]
    obtain ⟨_, hfr⟩ := copyLoop_frame _ _ _ _ _ _ hcl
    have hF := bioWrite_frame (InWritten s B inum c n) s (s.dbnOf inum ((c / B : Nat) : Int)) blk1
      (fun j => by
        by_cases hj : j < c % B
        · left
          rw [hfr j (Or.inl hj), readBlock_getD _ _ _ _ j (by omega), if_pos hal0]
        · right
          refine ⟨c / B, le_refl _, by omega, rfl, ?_⟩
          by_cases hjB : B ≤ j
          · exact Or.inl hjB
          · exact Or.inr ⟨by omega, by omega⟩)
    rcases hbw : bioWrite (s.dbnOf inum ((c / B : Nat) : Int)) blk1 s with ⟨rb, s1⟩
    rw [hbw] at hF
    cases rb with
    | error e => exact hF
    | ok u =>
      have e1 : (c / B + 1) * B = c / B * B + B := by ring
      have hrc : ((n : Int) - ((B - c % B : Nat) : Int)) = ((n - (B - c % B) : Nat) : Int) := by
        omega
      have ih := writeMiddle_frame s B inum c n ((List.range 2048).map buf) hB halloc n
        ((c / B : Nat) : Int) (c / B + 1) (n - (B - c % B)) blk1 s1 (by push_cast; rfl)
        (by omega) (by omega) (by omega) (by omega) hF.2.2.1
      simp only [hrc, Int.toNat_ofNat]
      exact frame_trans _ _ _ _ hF ih

/-- The state after `fsWrite` is the state after its body, but for the cursor
of the descriptor. -/
theorem fsWrite_state (s : State) (B : Nat) (fd inum : Int) (ofte n : Nat)
    (buf : Nat → Byte) (hv : ValidFd s fd inum ofte) (r : Except Err Int) (s' : State)
    (h : fsWrite B fd n buf s = (r, s')) :
    s'.fds = s.fds ∧ s'.dbnOf = (writeBody B fd n buf s).2.dbnOf ∧
      s'.disk = (writeBody B fd n buf s).2.disk := by
  have hk := keepsOFT_writeBody B fd n buf s
  rw [fsWrite_eq_body] at h
  unfold FSM.bind at h
  rcases hwb : writeBody B fd n buf s with ⟨rb, s5⟩
  rw [hwb] at hk
  simp only [hwb] at h
  cases rb with
  | error e =>
    simp only [Prod.mk.injEq] at h
    rw [← h.2]
    exact ⟨hk.1, rfl, rfl⟩
  | ok u =>
    have hv5 : ValidFd s5 fd inum ofte := ValidFd_congr s s5 fd inum ofte hk.1 hk.2 hv
    simp only [fsSeek_cur_ok s5 fd inum ofte (n : Int) hv5 (Int.ofNat_nonneg n), FSM.pure,
      Prod.mk.injEq] at h
    rw [← h.2]
    exact ⟨hk.1, rfl, rfl⟩

theorem map_disk_congr (B : Nat) (f g : Nat → Byte) (h : ∀ j, f j = g j) :
    (List.range B).map f = (List.range B).map g := by
  have : f = g := funext h
  rw [this]

/-- C18: for an `fsWrite` of `n > BYTESPERBLOCK` bytes at a cursor `c ≥ 0`
whose touched FBNs `c / BYTESPERBLOCK .. (c + n - 1) / BYTESPERBLOCK` are all
allocated, on distinct disk blocks, whatever the outcome of the call: the block
map is as before, bytes `[0, c mod BYTESPERBLOCK)` of the first block and the
bytes of the last touched block from position `c + n` on keep their previous
values, and no disk block other than those of the touched FBNs changes, so
every file block that lies on another disk block reads as before.  For
`n ≤ 2048` the call returns 0. -/
theorem fsWrite_multi_frame (s : State) (BYTESPERBLOCK : Nat) (fd inum : Int) (ofte c n : Nat)
    (buf : Nat → Byte) (hv : ValidFd s fd inum ofte) (hc : getCurs s.g_oft ofte = c)
    (hB : 0 < BYTESPERBLOCK) (hn : BYTESPERBLOCK < n)
    (halloc : ∀ f : Nat, c / BYTESPERBLOCK ≤ f → f ≤ (c + n - 1) / BYTESPERBLOCK →
      0 ≤ s.dbnOf inum (f : Int))
    (hinj : ∀ f g : Nat, c / BYTESPERBLOCK ≤ f → f ≤ (c + n - 1) / BYTESPERBLOCK →
      c / BYTESPERBLOCK ≤ g → g ≤ (c + n - 1) / BYTESPERBLOCK → f ≠ g →
      s.dbnOf inum (f : Int) ≠ s.dbnOf inum (g : Int)) :
    (∀ (r : Except Err Int) (s' : State), fsWrite BYTESPERBLOCK fd n buf s = (r, s') →
      s'.dbnOf = s.dbnOf ∧
      (∀ j : Nat, j < c % BYTESPERBLOCK →
        (readBlock s' BYTESPERBLOCK inum ((c / BYTESPERBLOCK : Nat) : Int)).getD j 0 =
          (readBlock s BYTESPERBLOCK inum ((c / BYTESPERBLOCK : Nat) : Int)).getD j 0) ∧
      (∀ j : Nat, j < BYTESPERBLOCK → c + n ≤ (c + n - 1) / BYTESPERBLOCK * BYTESPERBLOCK + j →
        (readBlock s' BYTESPERBLOCK inum (((c + n - 1) / BYTESPERBLOCK : Nat) : Int)).getD j 0 =
          (readBlock s BYTESPERBLOCK inum (((c + n - 1) / BYTESPERBLOCK : Nat) : Int)).getD j 0) ∧
      (∀ d : Int,
        (∀ f : Nat, c / BYTESPERBLOCK ≤ f → f ≤ (c + n - 1) / BYTESPERBLOCK →
          d ≠ s.dbnOf inum (f : Int)) →
        ∀ j : Nat, j < BYTESPERBLOCK → s'.disk d j = s.disk d j) ∧
      (∀ i g : Int,
        (∀ f : Nat, c / BYTESPERBLOCK ≤ f → f ≤ (c + n - 1) / BYTESPERBLOCK →
          s.dbnOf i g ≠ s.dbnOf inum (f : Int)) →
        readBlock s' BYTESPERBLOCK i g = readBlock s BYTESPERBLOCK i g)) ∧
    (n ≤ 2048 → ∃ s', fsWrite BYTESPERBLOCK fd n buf s = (Except.ok 0, s')) := by
  have htouch : ∀ f : Nat, f ≤ (c + n - 1) / BYTESPERBLOCK ↔ f * BYTESPERBLOCK < c + n := by
    intro f
    rw [Nat.le_div_iff_mul_le hB]
    omega
  have halloc' : ∀ f : Nat, c / BYTESPERBLOCK ≤ f → f * BYTESPERBLOCK < c + n →
      0 ≤ s.dbnOf inum (f : Int) := fun f h1 h2 => halloc f h1 ((htouch f).2 h2)
  have hmod : c % BYTESPERBLOCK < BYTESPERBLOCK := Nat.mod_lt c hB
  have hdm : BYTESPERBLOCK * (c / BYTESPERBLOCK) + c % BYTESPERBLOCK = c := Nat.div_add_mod c _
  have hFB : c / BYTESPERBLOCK * BYTESPERBLOCK = BYTESPERBLOCK * (c / BYTESPERBLOCK) :=
    Nat.mul_comm _ _
  have hfirst : c / BYTESPERBLOCK ≤ (c + n - 1) / BYTESPERBLOCK :=
    Nat.div_le_div_right (by omega)
  constructor
  · intro r s' h
    have hF := writeBody_frame s BYTESPERBLOCK fd inum ofte n c buf hv hc hB hn halloc'
    obtain ⟨_, hdbn', hdisk'⟩ := fsWrite_state s BYTESPERBLOCK fd inum ofte n buf hv r s' h
    obtain ⟨_, _, hdbn5, _, _, hW⟩ := hF
    have hdbn : s'.dbnOf = s.dbnOf := hdbn'.trans hdbn5
    have hdisk : ∀ (d : Int) (j : Nat), s'.disk d j = s.disk d j ∨
        InWritten s BYTESPERBLOCK inum c n d j := by
      intro d j
      rw [hdisk']
      exact hW d j
    have hother : ∀ d : Int,
        (∀ f : Nat, c / BYTESPERBLOCK ≤ f → f ≤ (c + n - 1) / BYTESPERBLOCK →
          d ≠ s.dbnOf inum (f : Int)) →
        ∀ j : Nat, j < BYTESPERBLOCK → s'.disk d j = s.disk d j := by
      intro d hd j _
      rcases hdisk d j with h1 | ⟨f, hf1, hf2, hdf, _⟩
      · exact h1
      · exact absurd hdf (hd f hf1 ((htouch f).2 hf2))
    refine ⟨hdbn, ?_, ?_, hother, ?_⟩
    · intro j hj
      have hal0 := halloc _ (le_refl _) hfirst
      rw [readBlock_getD _ _ _ _ j (by omega), readBlock_getD _ _ _ _ j (by omega), hdbn,
        if_pos hal0, if_pos hal0]
      rcases hdisk (s.dbnOf inum ((c / BYTESPERBLOCK : Nat) : Int)) j with
        h1 | ⟨f, hf1, hf2, hdf, hpos⟩
      · exact h1
      · have hfe : f = c / BYTESPERBLOCK := by
          by_contra hne
          exact hinj _ _ (le_refl _) hfirst hf1 ((htouch f).2 hf2) (fun e => hne e.symm) hdf
        subst hfe
        rcases hpos with h2 | h2
        · omega
        · omega
    · intro j hj hpast
      have hlast := halloc _ hfirst (le_refl _)
      rw [readBlock_getD _ _ _ _ j hj, readBlock_getD _ _ _ _ j hj, hdbn, if_pos hlast,
        if_pos hlast]
      rcases hdisk (s.dbnOf inum (((c + n - 1) / BYTESPERBLOCK : Nat) : Int)) j with
        h1 | ⟨f, hf1, hf2, hdf, hpos⟩
      · exact h1
      · have hfe : f = (c + n - 1) / BYTESPERBLOCK := by
          by_contra hne
          exact hinj _ _ hfirst (le_refl _) hf1 ((htouch f).2 hf2) (fun e => hne e.symm) hdf
        subst hfe
        rcases hpos with h2 | h2
        · omega
        · omega
    · intro i g hig
      unfold readBlock
      rw [hdbn]
      split
      · exact map_disk_congr _ _ _ (fun j => by
          rcases hdisk (s.dbnOf i g) j with h1 | ⟨f, hf1, hf2, hdf, _⟩
          · exact h1
          · exact absurd hdf (hig f hf1 ((htouch f).2 hf2)))
      · rfl
  · intro h2048
    obtain ⟨s', hw, _⟩ := fsWrite_multi_alloc s BYTESPERBLOCK fd inum ofte n c buf hv hc hB hn
      h2048 halloc'
      (fun f g h1 h2 h3 h4 hne =>
        hinj f g h1 ((htouch f).2 h2) h3 ((htouch g).2 h4) hne)
    exact ⟨s', hw⟩

/-- Witness of C18: 600 bytes written at offset 500 of a file whose five
512-byte blocks are allocated on disk blocks 10 to 14.  The range touches FBNs
0 to 2: bytes 0 to 499 of block 0 and bytes 76 to 511 of block 2 keep their
values, blocks 3 and 4 read as before, and the call returns 0. -/
theorem fsWrite_multi_frame_witness :
    (∀ (r : Except Err Int) (s' : State),
      fsWrite 512 3 600 (fun i : Nat => ((i % 100 : Nat) : Int)) crossState = (r, s') →
      s'.dbnOf = crossState.dbnOf ∧
      (∀ j : Nat, j < 500 →
        (readBlock s' 512 7 0).getD j 0 = (readBlock crossState 512 7 0).getD j 0) ∧
      (∀ j : Nat, 76 ≤ j → j < 512 →
        (readBlock s' 512 7 2).getD j 0 = (readBlock crossState 512 7 2).getD j 0) ∧
      readBlock s' 512 7 3 = readBlock crossState 512 7 3 ∧
      readBlock s' 512 7 4 = readBlock crossState 512 7 4) ∧
    ∃ s', fsWrite 512 3 600 (fun i : Nat => ((i % 100 : Nat) : Int)) crossState = (Except.ok 0, s') := by
  have hd : ∀ f : Nat, f ≤ 4 → crossState.dbnOf 7 (f : Int) = 10 + (f : Int) := fiveBlock_dbn
  have h := fsWrite_multi_frame crossState 512 3 7 0 500 600 (fun i : Nat => ((i % 100 : Nat) : Int))
    ⟨rfl, rfl⟩ rfl (by decide) (by decide)
    (fun f _ h2 => by
      have h2' : f ≤ 2 := h2
      rw [hd f (by omega)]
      omega)
    (fun f g _ h2 _ h4 hne => by
      have h2' : f ≤ 2 := h2
      have h4' : g ≤ 2 := h4
      rw [hd f (by omega), hd g (by omega)]
      omega)
  refine ⟨fun r s' hw => ?_, h.2 (by decide)⟩
  obtain ⟨h1, h2, h3, _, h5⟩ := h.1 r s' hw
  have hother : ∀ g : Nat, 3 ≤ g → g ≤ 4 → ∀ f : Nat, 500 / 512 ≤ f →
      f ≤ (500 + 600 - 1) / 512 → crossState.dbnOf 7 (g : Int) ≠ crossState.dbnOf 7 (f : Int) := by
    intro g hg3 hg4 f _ hf
    have hf' : f ≤ 2 := hf
    rw [hd g hg4, hd f (by omega)]
    omega
  refine ⟨h1, fun j hj => h2 j hj, fun j hj1 hj2 => h3 j hj2 ?_, h5 7 (3 : Nat) ?_, h5 7 (4 : Nat) ?_⟩
  · show 500 + 600 ≤ 2 * 512 + j
    omega
  · exact hother 3 (by omega) (by omega)
  · exact hother 4 (by omega) (by omega)

end BFS
